import Mathlib

/-!
Verification of the avm-abi repository (Algorand ARC-4 ABI type system).

This file shallowly embeds the Go sources:
  * `abi/type.go`   — the `Type` struct, `TypeOf` parser, `String`, `Equal`,
                      `IsDynamic`, `ByteLen`, the `make*` factories;
  * `abi/encoding.go` (shown as part of `avm-abi/doc.go` in the source pack) —
    `Encode`, `Decode`, `encodeTuple`, `decodeTuple`, `encodeInt`, `decodeUint`,
    `compressBools`, `typeCastToTuple`;
  * `abi/json.go`   — the `Ufixed` cases of `MarshalToJSON` / `UnmarshalFromJSON`;
  * `apps` package  — `MakeBoxKey` / `SplitBoxKey`.

Conventions of the embedding:
  * Go byte strings (`[]byte`, and Go `string`, which is a byte string) are
    `List Nat` with entries < 256.
  * Fallible Go functions returning `(T, error)` become `Except String T`;
    a Go runtime panic (out-of-range slice or index) is embedded as an
    `.error` whose message starts with "panic:".
  * Functions whose Go recursion is not structural in Lean's sense take an
    explicit fuel argument (structural on the fuel); public wrappers bake in
    a fuel bound that is proved/argued sufficient where theorems need it.
    Running out of fuel yields `.error "out of fuel"`, which is never an
    `.ok`, so fuel can only truncate, never invent, results.
-/

/-- `TypeKind` from `abi/type.go`: the enum of ABI type kinds. -/
inductive TypeKind where
  | invalid
  | uint
  | byte
  | ufixed
  | bool
  | arrayStatic
  | address
  | arrayDynamic
  | string
  | tuple
deriving DecidableEq, Repr

/-- The `Type` struct from `abi/type.go`: a kind tag, child types, and the
`bitSize`, `precision`, `staticLength` numeric fields (Go `uint16`s, embedded
as `Nat`; wherever Go's uint16 arithmetic can wrap we write the `% 65536`
explicitly). -/
inductive ABIType where
  | mk (kind : TypeKind) (childTypes : List ABIType) (bitSize precision staticLength : Nat)
deriving Repr

def ABIType.kind : ABIType → TypeKind
  | .mk k _ _ _ _ => k

def ABIType.childTypes : ABIType → List ABIType
  | .mk _ cs _ _ _ => cs

def ABIType.bitSize : ABIType → Nat
  | .mk _ _ b _ _ => b

def ABIType.precision : ABIType → Nat
  | .mk _ _ _ p _ => p

def ABIType.staticLength : ABIType → Nat
  | .mk _ _ _ _ l => l

mutual
/-- Nesting depth of a type; used only to compute fuel bounds for the
fuel-based embeddings of the Go recursions (not part of the source). -/
def ABIType.depth : ABIType → Nat
  | .mk _ cs _ _ _ => depthList cs + 1

def depthList : List ABIType → Nat
  | [] => 0
  | t :: ts => max t.depth (depthList ts)
end

/-- Canonical decimal digits of a natural number, most significant first;
embeds Go's `%d` formatting (`fmt.Sprintf`). `decDigitsF` is the fueled
worker; `n` itself bounds the number of divisions by 10. -/
def decDigitsF : Nat → Nat → List Char
  | 0, _ => []
  | f + 1, n =>
    if n < 10 then [Char.ofNat (48 + n)]
    else decDigitsF f (n / 10) ++ [Char.ofNat (48 + n % 10)]

def decDigits (n : Nat) : List Char := decDigitsF (n + 1) n

/-- `fmt.Sprintf("%d", n)` as a `String`. -/
def decString (n : Nat) : String := String.mk (decDigits n)

mutual
/-- `Type.String` from `abi/type.go` (mutually with the loop over tuple
children that builds `typeStrings` and joins them with ","). -/
def ABIType.typeString : ABIType → String
  | .mk .uint _ b _ _ => "uint" ++ decString b
  | .mk .byte _ _ _ _ => "byte"
  | .mk .ufixed _ b p _ => "ufixed" ++ decString b ++ "x" ++ decString p
  | .mk .bool _ _ _ _ => "bool"
  | .mk .arrayStatic cs _ _ l =>
    (match cs with
     | c :: _ => c.typeString
     | [] => "") ++ "[" ++ decString l ++ "]"
  | .mk .address _ _ _ _ => "address"
  | .mk .arrayDynamic cs _ _ _ =>
    (match cs with
     | c :: _ => c.typeString
     | [] => "") ++ "[]"
  | .mk .string _ _ _ _ => "string"
  | .mk .tuple cs _ _ _ => "(" ++ String.intercalate "," (typeStringList cs) ++ ")"
  | .mk .invalid _ _ _ _ => "<invalid type>"

def typeStringList : List ABIType → List String
  | [] => []
  | t :: ts => t.typeString :: typeStringList ts
end

mutual
/-- `Type.Equal` from `abi/type.go`: field-by-field comparison of kind,
precision, bitSize, staticLength, and recursively the child types
(`equalList` is the `for` loop over children, including the length check). -/
def ABIType.equal : ABIType → ABIType → Bool
  | .mk k cs b p l, .mk k' cs' b' p' l' =>
    k == k' && p == p' && b == b' && l == l' && equalList cs cs'

def equalList : List ABIType → List ABIType → Bool
  | [], [] => true
  | t :: ts, t' :: ts' => t.equal t' && equalList ts ts'
  | _, _ => false
end

mutual
/-- `Type.IsDynamic` from `abi/type.go`: ArrayDynamic and String are dynamic,
anything else is dynamic iff some child is. -/
def ABIType.isDynamic : ABIType → Bool
  | .mk .arrayDynamic _ _ _ _ => true
  | .mk .string _ _ _ _ => true
  | .mk _ cs _ _ _ => anyDynamic cs

def anyDynamic : List ABIType → Bool
  | [] => false
  | t :: ts => t.isDynamic || anyDynamic ts
end

/-- The type constants `byteType`, `boolType`, `addressType`, `stringType`
from `abi/type.go`. -/
def byteType : ABIType := .mk .byte [] 0 0 0

def boolType : ABIType := .mk .bool [] 0 0 0

def addressType : ABIType := .mk .address [] 0 0 0

def stringType : ABIType := .mk .string [] 0 0 0

/-- `makeUintType` from `abi/type.go`. -/
def makeUintType (typeSize : Nat) : Except String ABIType :=
  if typeSize % 8 ≠ 0 ∨ typeSize < 8 ∨ typeSize > 512 then
    .error "unsupported uint type bitSize"
  else
    .ok (.mk .uint [] typeSize 0 0)

/-- `makeUfixedType` from `abi/type.go`. -/
def makeUfixedType (typeSize typePrecision : Nat) : Except String ABIType :=
  if typeSize % 8 ≠ 0 ∨ typeSize < 8 ∨ typeSize > 512 then
    .error "unsupported ufixed type bitSize"
  else if typePrecision > 160 ∨ typePrecision < 1 then
    .error "unsupported ufixed type precision"
  else
    .ok (.mk .ufixed [] typeSize typePrecision 0)

/-- `makeStaticArrayType` from `abi/type.go` (no validation in the source). -/
def makeStaticArrayType (argumentType : ABIType) (arrayLength : Nat) : ABIType :=
  .mk .arrayStatic [argumentType] 0 0 arrayLength

/-- `makeDynamicArrayType` from `abi/type.go`. -/
def makeDynamicArrayType (argumentType : ABIType) : ABIType :=
  .mk .arrayDynamic [argumentType] 0 0 0

/-- `MakeTupleType` from `abi/type.go`: rejects `len >= math.MaxUint16`
(that is, 65535 or more children). -/
def makeTupleType (argumentTypes : List ABIType) : Except String ABIType :=
  if argumentTypes.length ≥ 65535 then
    .error "tuple type child type number larger than maximum uint16 error"
  else
    .ok (.mk .tuple argumentTypes 0 0 argumentTypes.length)

/-- The number of leading `Bool`-kind types in a list. `findBoolLR(ts, i, 1)`
from `abi/type.go` — the count of consecutive Bool types strictly after
index `i` — equals `leadingBools` of the list of types after index `i`;
`findBoolLR(ts, i, -1)` — the count of consecutive Bool types strictly
before index `i` — is carried through the loops below as a `pre` argument. -/
def leadingBools : List ABIType → Nat
  | [] => 0
  | t :: ts => if t.kind = TypeKind.bool then leadingBools ts + 1 else 0

/-- The Go `interface{}` values handled by the codecs, as a closed sum.
`vByte` is Go `byte`/`uint8`; `vUint` is the numeric magnitude carried by any
of Go's wider unsigned kinds (`uint16`/`uint32`/`uint64`/`*big.Int`), which
the codecs treat as value-equal; `vStr` is a Go `string` (a byte string);
`vArr` is a Go slice/array. Go's signed integer inputs with negative values
are rejected by `encodeInt` in the source; the model carries only the
non-negative magnitudes, so that rejection has no counterpart here. -/
inductive Value where
  | vBool (b : Bool)
  | vByte (n : Nat)
  | vUint (n : Nat)
  | vStr (bs : List Nat)
  | vArr (vs : List Value)
deriving Repr

/-- Big-endian bytes of `n`, `width` bytes wide: `big.Int.FillBytes` into a
`width`-byte buffer (the callers check `n < 2^bitSize` first). -/
def beBytes : Nat → Nat → List Nat
  | 0, _ => []
  | w + 1, n => beBytes w (n / 256) ++ [n % 256]

/-- `binary.BigEndian.PutUint16` after Go's `uint16(n)` conversion. -/
def putUint16 (n : Nat) : List Nat := [n % 65536 / 256, n % 256]

/-- `binary.BigEndian.Uint16` of two bytes. -/
def beUint16 (b0 b1 : Nat) : Nat := b0 * 256 + b1

/-- `big.Int.SetBytes`: big-endian bytes to a natural number. -/
def beNat (bs : List Nat) : Nat := bs.foldl (fun acc b => acc * 256 + b) 0

/-- The loop over tuple children in `Type.ByteLen` from `abi/type.go`:
consecutive Bool children are consumed as one run of `boolNum` children
contributing `(boolNum+7)/8` bytes (`i += after` in the source is the
`ts.drop after` here); other children contribute their own byte length.
`bl` is the byte-length function applied to non-bool children; the fuel
is the list length plus one at the call site, which always suffices
since each step drops at least one element. -/
def tupleByteLenF (bl : ABIType → Except String Nat) :
    Nat → List ABIType → Except String Nat
  | 0, _ => .error "out of fuel"
  | _ + 1, [] => .ok 0
  | f + 1, t :: ts =>
    if t.kind = TypeKind.bool then
      let after := leadingBools ts
      let boolNum := after + 1
      match tupleByteLenF bl f (ts.drop after) with
      | .ok rest => .ok ((boolNum + 7) / 8 + rest)
      | .error e => .error e
    else
      match bl t with
      | .ok childByteSize =>
        match tupleByteLenF bl f ts with
        | .ok rest => .ok (childByteSize + rest)
        | .error e => .error e
      | .error e => .error e

/-- `Type.ByteLen` from `abi/type.go`. Note the static bool array case: the
source computes `int(t.staticLength+7) / 8` where `t.staticLength+7` is Go
`uint16` arithmetic, hence the explicit `% 65536` wrap. Accessing
`t.childTypes[0]` on an empty child list would panic in Go. -/
def byteLenF : Nat → ABIType → Except String Nat
  | 0, _ => .error "out of fuel"
  | f + 1, t =>
    match t with
    | .mk .address _ _ _ _ => .ok 32
    | .mk .byte _ _ _ _ => .ok 1
    | .mk .uint _ b _ _ => .ok (b / 8)
    | .mk .ufixed _ b _ _ => .ok (b / 8)
    | .mk .bool _ _ _ _ => .ok 1
    | .mk .arrayStatic cs _ _ l =>
      (match cs with
       | [] => .error "panic: index out of range"
       | c :: _ =>
         if c.kind = TypeKind.bool then
           .ok (((l + 7) % 65536) / 8)
         else
           match byteLenF f c with
           | .ok elemByteLen => .ok (l * elemByteLen)
           | .error e => .error e)
    | .mk .tuple cs _ _ _ => tupleByteLenF (byteLenF f) (cs.length + 1) cs
    | t => .error (t.typeString ++ " is a dynamic type")

/-- `Type.ByteLen`; the fuel `t.depth` is exactly enough to reach the
deepest child (proved below as `byteLenF_eq`). -/
def ABIType.byteLen (t : ABIType) : Except String Nat := byteLenF t.depth t

/-- `inferToSlice` from the encoding source: only slices/arrays (modelled by
`vArr`) can be viewed as a slice of interface elements. -/
def inferToSlice : Value → Except String (List Value)
  | .vArr vs => .ok vs
  | _ => .error "cannot infer an interface value as a slice of interface element"

/-- `encodeInt` from the encoding source: take the numeric magnitude (any Go
integer kind or `*big.Int`), reject values needing more than `bitSize` bits,
and emit `bitSize/8` big-endian bytes. -/
def encodeInt (intValue : Value) (bitSize : Nat) : Except String (List Nat) :=
  match intValue with
  | .vByte n =>
    if 2 ^ bitSize ≤ n then .error "input value bit size > abi type bit size"
    else .ok (beBytes (bitSize / 8) n)
  | .vUint n =>
    if 2 ^ bitSize ≤ n then .error "input value bit size > abi type bit size"
    else .ok (beBytes (bitSize / 8) n)
  | _ => .error "cannot infer go type for uint encode"

/-- `decodeUint` from the encoding source. The Go switch on `bitSize/8`
returns `byte` for one-byte integers and `uint16`/`uint32`/`uint64`/`big.Int`
(all modelled by `vUint`) for the rest. -/
def decodeUint (encoded : List Nat) (bitSize : Nat) : Except String Value :=
  if encoded.length ≠ bitSize / 8 then
    .error "uint/ufixed decode: expected byte length mismatch"
  else if bitSize / 8 = 1 then .ok (.vByte (beNat encoded))
  else .ok (.vUint (beNat encoded))

/-- `typeCastToTuple` from the encoding source; the variadic `tupLen ...int`
is an `Option Nat` (callers pass zero or one lengths). -/
def typeCastToTuple (t : ABIType) (tupLen : Option Nat) : Except String ABIType :=
  match
    (match t.kind, tupLen with
     | .string, some n => Except.ok (List.replicate n byteType)
     | .string, none => Except.error "string type conversion to tuple need 1 length argument"
     | .address, _ => Except.ok (List.replicate 32 byteType)
     | .arrayStatic, _ =>
       (match t.childTypes with
        | c :: _ => Except.ok (List.replicate t.staticLength c)
        | [] => Except.error "panic: index out of range")
     | .arrayDynamic, some n =>
       (match t.childTypes with
        | c :: _ => Except.ok (List.replicate n c)
        | [] => Except.error "panic: index out of range")
     | .arrayDynamic, none => Except.error "dynamic array type conversion to tuple need 1 length argument"
     | _, _ => Except.error "type cannot support conversion to tuple" : Except String (List ABIType))
  with
  | .ok childT => makeTupleType childT
  | .error e => .error e

/-- `compressBools`'s loop from the encoding source: `res |= 1 << (7-i)`
for each true bool at index `i`. -/
def compressBoolsAux : List Value → Nat → Nat → Except String Nat
  | [], _, res => .ok res
  | .vBool b :: rest, i, res =>
    compressBoolsAux rest (i + 1) (if b then res ||| (1 <<< (7 - i)) else res)
  | _ :: _, _, _ => .error "compressBools: cannot cast slice element to bool"

/-- `compressBools` from the encoding source. -/
def compressBools (boolSlice : List Value) : Except String Nat :=
  if boolSlice.length > 8 then .error "compressBools: cannot have slice length > 8"
  else compressBoolsAux boolSlice 0 0

/-- The first loop of `encodeTuple` from the encoding source, producing one
slot per head byte-chunk: `(head, tail, isDynamic)`. A dynamic child gets the
`{0x00, 0x00}` placeholder head and its full encoding as tail; a Bool child
starts a packed chunk of up to 8 consecutive bools (`i += after` is the
`drop after`); any other child's head is its own encoding. `pre` carries
`findBoolLR(childT, i, -1)`, the number of consecutive Bool children
immediately before the current position; the fuel is the list length plus
one at the call site. -/
def encodeHeadsF (enc : Value → ABIType → Except String (List Nat)) :
    Nat → List ABIType → List Value → Nat → Except String (List (List Nat × List Nat × Bool))
  | 0, _, _, _ => .error "out of fuel"
  | _ + 1, [], _, _ => .ok []
  | f + 1, t :: ts, v :: vs, pre =>
    if t.isDynamic then
      match enc v t with
      | .ok tailEncoding =>
        (match encodeHeadsF enc f ts vs 0 with
         | .ok rest => .ok (([0, 0], tailEncoding, true) :: rest)
         | .error e => .error e)
      | .error e => .error e
    else if t.kind = TypeKind.bool then
      if pre % 8 ≠ 0 then
        .error "cannot encode abi tuple: expected before has number of bool mod 8 == 0"
      else
        let after := min (leadingBools ts) 7
        match compressBools (v :: vs.take after) with
        | .ok compressed =>
          (match encodeHeadsF enc f (ts.drop after) (vs.drop after) (pre + after + 1) with
           | .ok rest => .ok (([compressed], [], false) :: rest)
           | .error e => .error e)
        | .error e => .error e
    else
      match enc v t with
      | .ok encodeTi =>
        (match encodeHeadsF enc f ts vs 0 with
         | .ok rest => .ok ((encodeTi, [], false) :: rest)
         | .error e => .error e)
      | .error e => .error e
  | _ + 1, _ :: _, [], _ => .error "panic: index out of range"

/-- The second loop of `encodeTuple`: overwrite each dynamic placeholder head
with the 2-byte big-endian offset `headLength + tailCurrLength`, failing once
an offset reaches `1 << 16`; `tailCurrLength` accumulates the tail lengths of
all slots seen so far (static slots have empty tails). -/
def assignOffsets : List (List Nat × List Nat × Bool) → Nat → Nat → Except String (List (List Nat))
  | [], _, _ => .ok []
  | (head, tail, isDyn) :: rest, headLength, tailCurrLength =>
    if isDyn then
      if headLength + tailCurrLength ≥ 65536 then
        .error "cannot encode abi tuple: encode length exceeds uint16 maximum"
      else
        match assignOffsets rest headLength (tailCurrLength + tail.length) with
        | .ok r => .ok (putUint16 (headLength + tailCurrLength) :: r)
        | .error e => .error e
    else
      match assignOffsets rest headLength (tailCurrLength + tail.length) with
      | .ok r => .ok (head :: r)
      | .error e => .error e

/-- `encodeTuple` from the encoding source: length-limit check, value-shape
checks, head/tail slot production, head-length accumulation, offset
assignment, and final `heads ++ tails` concatenation. `enc` is the child
encoder (the fuel-instantiated `Type.Encode`). -/
def encodeTupleF (enc : Value → ABIType → Except String (List Nat))
    (value : Value) (childT : List ABIType) : Except String (List Nat) :=
  if childT.length ≥ 65536 then .error "abi child type number exceeds uint16 maximum"
  else
    match inferToSlice value with
    | .error e => .error e
    | .ok values =>
      if values.length ≠ childT.length then
        .error "cannot encode abi tuple: value slice length != child type number"
      else
        match encodeHeadsF enc (childT.length + 1) childT values 0 with
        | .error e => .error e
        | .ok slots =>
          let headLength := (slots.map fun s => s.1.length).sum
          match assignOffsets slots headLength 0 with
          | .error e => .error e
          | .ok heads => .ok (heads.flatten ++ (slots.map fun s => s.2.1).flatten)

/-- `Type.Encode` from the encoding source, fueled. Each recursion either
moves to a strictly shallower type or casts an array-like type to the
equally-deep tuple form and re-encodes, so fuel `2 * depth` suffices. -/
def encodeF : Nat → Value → ABIType → Except String (List Nat)
  | 0, _, _ => .error "out of fuel"
  | f + 1, value, t =>
    match t.kind with
    | .uint => encodeInt value t.bitSize
    | .ufixed => encodeInt value t.bitSize
    | .bool =>
      match value with
      | .vBool true => .ok [0x80]
      | .vBool false => .ok [0x00]
      | _ => .error "cannot cast value to bool in bool encoding"
    | .byte =>
      match value with
      | .vByte b => .ok [b]
      | _ => .error "cannot cast value to byte in byte encoding"
    | .arrayStatic =>
      (match typeCastToTuple t none with
       | .ok castedType => encodeF f value castedType
       | .error e => .error e)
    | .address =>
      (match typeCastToTuple t none with
       | .ok castedType => encodeF f value castedType
       | .error e => .error e)
    | .arrayDynamic =>
      (match inferToSlice value with
       | .error e => .error e
       | .ok dynamicArray =>
         match typeCastToTuple t (some dynamicArray.length) with
         | .error e => .error e
         | .ok castedType =>
           match encodeF f value castedType with
           | .ok encoded => .ok (putUint16 dynamicArray.length ++ encoded)
           | .error e => .error e)
    | .string =>
      (match value with
       | .vStr byteValue =>
         (match typeCastToTuple t (some byteValue.length) with
          | .error e => .error e
          | .ok castedType =>
            match encodeF f (.vArr (byteValue.map Value.vByte)) castedType with
            | .ok encoded => .ok (putUint16 byteValue.length ++ encoded)
            | .error e => .error e)
       | _ => .error "cannot cast value to string or array dynamic in encoding")
    | .tuple => encodeTupleF (encodeF f) value t.childTypes
    | .invalid => .error "cannot infer type for encoding"

/-- `Type.Encode`; fuel `2 * depth + 2` covers the worst chain (each nesting
level costs at most two steps, and the address/string cast targets a tuple
one level deeper than the type itself). -/
def ABIType.encode (t : ABIType) (value : Value) : Except String (List Nat) :=
  encodeF (2 * t.depth + 2) value t

/-- Go slice expression `bs[a:b]` (with `cap = len`): panics unless
`a ≤ b ≤ len`. -/
def goSlice (bs : List Nat) (a b : Nat) : Except String (List Nat) :=
  if a ≤ b ∧ b ≤ bs.length then .ok ((bs.take b).drop a) else .error "panic: slice bounds out of range"

/-- One entry of `decodeTuple`'s `valuePartition`: either a materialized byte
partition or the `nil` placeholder of a dynamic child, remembering the 2-byte
offset read for it (the source keeps the offsets in the separate
`dynamicSegments` list; carrying them in the slot preserves their order). -/
inductive DecSlot where
  | part (bs : List Nat)
  | dyn (off : Nat)
deriving Repr

/-- The first loop of `decodeTuple` from the encoding source: walk the
children computing the head layout, reading 2-byte offsets for dynamic
children, unpacking packed bool chunks bit by bit, and slicing
`ByteLen()`-sized partitions for other static children. Returns the slots
and the final `iterIndex`. `pre` carries `findBoolLR(childT, i, -1)` as in
encoding; `bl` is `Type.ByteLen`; the fuel is the list length plus one at
the call site. The source's in-loop check
`i != len(childT)-1 && iterIndex >= len(encoded)` appears after each step. -/
def decodeSlotsF (bl : ABIType → Except String Nat) :
    Nat → List ABIType → List Nat → Nat → Nat → Except String (List DecSlot × Nat)
  | 0, _, _, _, _ => .error "out of fuel"
  | _ + 1, [], _, iterIndex, _ => .ok ([], iterIndex)
  | f + 1, t :: ts, encoded, iterIndex, pre =>
    if t.isDynamic then
      if encoded.length - iterIndex < 2 then
        .error "ill formed tuple dynamic typed value encoding"
      else
        let dynamicIndex := beUint16 (encoded.getD iterIndex 0) (encoded.getD (iterIndex + 1) 0)
        if ts.isEmpty = false ∧ iterIndex + 2 ≥ encoded.length then .error "input byte not enough to decode"
        else
          match decodeSlotsF bl f ts encoded (iterIndex + 2) 0 with
          | .ok (rest, fin) => .ok (DecSlot.dyn dynamicIndex :: rest, fin)
          | .error e => .error e
    else if t.kind = TypeKind.bool then
      if pre % 8 = 0 then
        let after := min (leadingBools ts) 7
        match encoded.get? iterIndex with
        | none => .error "panic: index out of range"
        | some byteHere =>
          let chunkSlots := (List.range (after + 1)).map fun boolIndex =>
            if byteHere &&& (0x80 >>> boolIndex) > 0 then DecSlot.part [0x80] else DecSlot.part [0x00]
          if (ts.drop after).isEmpty = false ∧ iterIndex + 1 ≥ encoded.length then
            .error "input byte not enough to decode"
          else
            match decodeSlotsF bl f (ts.drop after) encoded (iterIndex + 1) (pre + after + 1) with
            | .ok (rest, fin) => .ok (chunkSlots ++ rest, fin)
            | .error e => .error e
      else .error "expected before bool number mod 8 == 0"
    else
      match bl t with
      | .error e => .error e
      | .ok currLen =>
        match goSlice encoded iterIndex (iterIndex + currLen) with
        | .error e => .error e
        | .ok part =>
          if ts.isEmpty = false ∧ iterIndex + currLen ≥ encoded.length then
            .error "input byte not enough to decode"
          else
            match decodeSlotsF bl f ts encoded (iterIndex + currLen) 0 with
            | .ok (rest, fin) => .ok (DecSlot.part part :: rest, fin)
            | .error e => .error e

/-- The source's check that consecutive dynamic segments satisfy
`dynamicSegments[i] <= dynamicSegments[i+1]`. -/
def monotoneSegs : List Nat → Bool
  | a :: b :: rest => decide (a ≤ b) && monotoneSegs (b :: rest)
  | _ => true

/-- The second phase of `decodeTuple`: replace each dynamic placeholder with
the byte range between its consecutive dynamic segments
(`encoded[dynamicSegments[segIndex]:dynamicSegments[segIndex+1]]`). -/
def fillDynSlots : List DecSlot → List Nat → List Nat → Except String (List (List Nat))
  | [], _, _ => .ok []
  | DecSlot.part bs :: rest, encoded, segs =>
    (match fillDynSlots rest encoded segs with
     | .ok r => .ok (bs :: r)
     | .error e => .error e)
  | DecSlot.dyn _ :: rest, encoded, seg0 :: seg1 :: segs =>
    (match goSlice encoded seg0 seg1 with
     | .error e => .error e
     | .ok part =>
       match fillDynSlots rest encoded (seg1 :: segs) with
       | .ok r => .ok (part :: r)
       | .error e => .error e)
  | DecSlot.dyn _ :: _, _, _ => .error "panic: index out of range"

/-- The final loop of `decodeTuple`: decode each partition against the
corresponding child type. -/
def decodeParts (dec : List Nat → ABIType → Except String Value) :
    List (List Nat) → List ABIType → Except String (List Value)
  | [], [] => .ok []
  | bs :: rest, t :: ts =>
    (match dec bs t with
     | .error e => .error e
     | .ok v =>
       match decodeParts dec rest ts with
       | .ok r => .ok (v :: r)
       | .error e => .error e)
  | _, _ => .error "panic: partition/child count mismatch"

/-- The offsets read for dynamic children, in order: the source's
`dynamicSegments` list before the final `len(encoded)` entry is appended. -/
def dynOffsets (slots : List DecSlot) : List Nat :=
  slots.filterMap fun s => match s with | DecSlot.dyn o => some o | DecSlot.part _ => none

/-- `decodeTuple` from the encoding source: collect slots, append
`len(encoded)` as the final dynamic segment (setting `iterIndex` to the full
length when any dynamic child exists), reject unconsumed input, reject
non-monotone segments, fill the dynamic partitions, and decode each child. -/
def decodeTupleF (dec : List Nat → ABIType → Except String Value)
    (encoded : List Nat) (childT : List ABIType) : Except String Value :=
  match decodeSlotsF ABIType.byteLen (childT.length + 1) childT encoded 0 0 with
  | .error e => .error e
  | .ok (slots, iterIndex) =>
    let offs := dynOffsets slots
    let segs := if offs.length > 0 then offs ++ [encoded.length] else offs
    let iterFinal := if offs.length > 0 then encoded.length else iterIndex
    if iterFinal < encoded.length then .error "input byte not fully consumed"
    else if ¬ monotoneSegs segs then
      .error "dynamic segment should display a [l, r] space with l <= r"
    else
      match fillDynSlots slots encoded segs with
      | .error e => .error e
      | .ok parts =>
        match decodeParts dec parts childT with
        | .ok values => .ok (.vArr values)
        | .error e => .error e

/-- `Type.Decode` from the encoding source, fueled like `encodeF`. -/
def decodeF : Nat → List Nat → ABIType → Except String Value
  | 0, _, _ => .error "out of fuel"
  | f + 1, encoded, t =>
    match t.kind with
    | .uint => decodeUint encoded t.bitSize
    | .ufixed => decodeUint encoded t.bitSize
    | .bool =>
      if encoded.length ≠ 1 then .error "boolean byte should be length 1 byte"
      else if encoded.getD 0 0 = 0x00 then .ok (.vBool false)
      else if encoded.getD 0 0 = 0x80 then .ok (.vBool true)
      else .error "single boolean encoded byte should be of form 0x80 or 0x00"
    | .byte =>
      if encoded.length ≠ 1 then .error "byte should be length 1"
      else .ok (.vByte (encoded.getD 0 0))
    | .arrayStatic =>
      (match typeCastToTuple t none with
       | .ok castedType => decodeF f encoded castedType
       | .error e => .error e)
    | .address =>
      if encoded.length ≠ 32 then .error "address should be length 32"
      else .ok (.vArr (encoded.map Value.vByte))
    | .arrayDynamic =>
      if encoded.length < 2 then .error "dynamic array format corrupted"
      else
        (match typeCastToTuple t (some (beUint16 (encoded.getD 0 0) (encoded.getD 1 0))) with
         | .ok castedType => decodeF f (encoded.drop 2) castedType
         | .error e => .error e)
    | .string =>
      if encoded.length < 2 then .error "string format corrupted"
      else if (encoded.drop 2).length ≠ beUint16 (encoded.getD 0 0) (encoded.getD 1 0) then
        .error "string representation in byte: length not matching"
      else .ok (.vStr (encoded.drop 2))
    | .tuple => decodeTupleF (decodeF f) encoded t.childTypes
    | .invalid => .error "cannot infer type for decoding"

/-- `Type.Decode`; fuel as in `ABIType.encode`. -/
def ABIType.decode (t : ABIType) (encoded : List Nat) : Except String Value :=
  decodeF (2 * t.depth + 2) encoded t

/-- The character class `[a-z\d\[\](),]` of `staticArrayRegexp`. -/
def isTypeChar (c : Char) : Bool :=
  (97 ≤ c.toNat ∧ c.toNat ≤ 122) ∨ c.isDigit ∨ c = '[' ∨ c = ']' ∨ c = '(' ∨ c = ')' ∨ c = ','

/-- Numeric value of a decimal digit string (most significant first). -/
def digitsToNat (cs : List Char) : Nat := cs.foldl (fun acc c => acc * 10 + (c.toNat - 48)) 0

/-- `strconv.ParseUint(s, 10, 16)`: no sign, no underscores, decimal digits
only (leading zeros allowed), value at most `1<<16 - 1`. -/
def parseUint16 (cs : List Char) : Except String Nat :=
  if cs.isEmpty then .error "strconv.ParseUint: invalid syntax"
  else if ¬ cs.all Char.isDigit then .error "strconv.ParseUint: invalid syntax"
  else if digitsToNat cs ≥ 65536 then .error "strconv.ParseUint: value out of range"
  else .ok (digitsToNat cs)

/-- `staticArrayRegexp.FindStringSubmatch` for
`^([a-z\d\[\](),]+)\[([1-9][\d]*)]$`, returning the two capture groups.
Because group 2 is all digits, the `[` before it can only sit directly in
front of the maximal digit run preceding the final `]`, so the backtracking
(greedy, leftmost-first) match is this unique decomposition. -/
def staticArrayMatch (cs : List Char) : Option (List Char × List Char) :=
  match cs.reverse with
  | ']' :: rest =>
    let ds := rest.takeWhile Char.isDigit
    match rest.drop ds.length with
    | '[' :: g1rev =>
      let g1 := g1rev.reverse
      let g2 := ds.reverse
      match g2 with
      | d :: _ =>
        if d ≠ '0' ∧ ¬ g1.isEmpty ∧ g1.all isTypeChar then some (g1, g2) else none
      | [] => none
    | _ => none
  | _ => none

/-- `ufixedRegexp.FindStringSubmatch` for `^ufixed([1-9][\d]*)x([1-9][\d]*)$`.
Group 1 is the maximal digit run after `ufixed` (anything shorter would be
followed by a digit, not `x`), group 2 the remainder after the `x`. -/
def ufixedMatch (cs : List Char) : Option (List Char × List Char) :=
  if ("ufixed".data.isPrefixOf cs : Bool) then
    let r := cs.drop 6
    let d1 := r.takeWhile Char.isDigit
    match d1 with
    | c :: _ =>
      if c = '0' then none
      else
        match r.drop d1.length with
        | 'x' :: d2 =>
          (match d2 with
           | e :: _ => if e ≠ '0' ∧ d2.all Char.isDigit then some (d1, d2) else none
           | [] => none)
        | _ => none
    | [] => none
  else none

/-- Does the char list contain two consecutive commas
(`strings.Contains(str, ",,")`)? -/
def hasCommaComma : List Char → Bool
  | ',' :: ',' :: _ => true
  | _ :: rest => hasCommaComma rest
  | [] => false

/-- The scanning loop of `parseTupleContent` from `abi/type.go`: track a
stack of indices of `(`; when a `)` empties the stack, extend forward to the
next comma (or end of string) and record the segment. The fuel is the
remaining length plus one at the call site; each step consumes at least one
character. -/
def scanSegsF : Nat → List Char → Nat → List Nat → List (Nat × Nat) → Except String (List (Nat × Nat))
  | 0, _, _, _, _ => .error "out of fuel"
  | _ + 1, [], _, stack, acc =>
    if stack.isEmpty then .ok acc.reverse else .error "unpaired parentheses"
  | f + 1, c :: rest, index, stack, acc =>
    if c = '(' then scanSegsF f rest (index + 1) (index :: stack) acc
    else if c = ')' then
      match stack with
      | [] => .error "unpaired parentheses"
      | leftParenIndex :: stack' =>
        if stack'.isEmpty then
          let ext := (rest.takeWhile fun d => d ≠ ',').length
          scanSegsF f (rest.drop ext) (index + 1 + ext) stack' ((leftParenIndex, index + ext) :: acc)
        else scanSegsF f rest (index + 1) stack' acc
    else scanSegsF f rest (index + 1) stack acc

/-- `str[left : right+1]`. -/
def sliceChars (cs : List Char) (l r : Nat) : List Char := (cs.take (r + 1)).drop l

/-- The right-to-left splice loop
`strCopied = strCopied[:seg.left] + strCopied[seg.right+1:]` of
`parseTupleContent` (the rightmost segment is removed first, so earlier
indices stay valid). -/
def removeSegs (cs : List Char) (segs : List (Nat × Nat)) : List Char :=
  segs.foldr (fun seg acc => acc.take seg.1 ++ acc.drop (seg.2 + 1)) cs

/-- `strings.Split(s, ",")`. -/
def splitComma : List Char → List (List Char)
  | [] => [[]]
  | ',' :: rest => [] :: splitComma rest
  | c :: rest =>
    match splitComma rest with
    | piece :: pieces => (c :: piece) :: pieces
    | [] => [[c]]

/-- The final loop of `parseTupleContent`: each empty split piece is a
placeholder for the next recorded parenthesis segment, restored from the
original string. Segments left over when the placeholders run out are
silently dropped, exactly as in the source (`parenSegCount` only advances on
empty pieces); the converse overrun would index past the segment list and
panic, modelled as an error. -/
def restoreSegs (cs : List Char) : List (List Char) → List (Nat × Nat) → Except String (List (List Char))
  | [], _ => .ok []
  | piece :: pieces, segs =>
    if piece.isEmpty then
      match segs with
      | seg :: segs' =>
        (match restoreSegs cs pieces segs' with
         | .ok r => .ok (sliceChars cs seg.1 seg.2 :: r)
         | .error e => .error e)
      | [] => .error "panic: index out of range"
    else
      match restoreSegs cs pieces segs with
      | .ok r => .ok (piece :: r)
      | .error e => .error e

/-- `parseTupleContent` from `abi/type.go`. -/
def parseTupleContent (str : List Char) : Except String (List (List Char)) :=
  if str.isEmpty then .ok []
  else if str.getLast? = some ',' ∨ str.head? = some ',' then
    .error "parsing error: tuple content should not start with comma"
  else if hasCommaComma str then .error "no consecutive commas"
  else
    match scanSegsF (str.length + 1) str 0 [] [] with
    | .error e => .error e
    | .ok parenSegmentRecord =>
      restoreSegs str (splitComma (removeSegs str parenSegmentRecord)) parenSegmentRecord

/-- The recursion over tuple element strings in `TypeOf` (`tf` is the
fuel-instantiated `TypeOf`). -/
def typeOfListF (tf : List Char → Except String ABIType) : List (List Char) → Except String (List ABIType)
  | [] => .ok []
  | p :: ps =>
    match tf p with
    | .error e => .error e
    | .ok t =>
      match typeOfListF tf ps with
      | .ok ts => .ok (t :: ts)
      | .error e => .error e

/-- The `switch` body of `TypeOf` from `abi/type.go`, with `rec` standing
for the recursive `TypeOf` calls. The cases appear in the source's `switch`
order. -/
def typeOfSwitch (rec : List Char → Except String ABIType) (str : List Char) :
    Except String ABIType :=
    if (['[', ']'].isSuffixOf str : Bool) then
      match rec (str.take (str.length - 2)) with
      | .ok arrayArgType => .ok (makeDynamicArrayType arrayArgType)
      | .error e => .error e
    else if ([']'].isSuffixOf str : Bool) then
      match staticArrayMatch str with
      | none => .error "static array ill formated"
      | some (elemStr, lenStr) =>
        match parseUint16 lenStr with
        | .error e => .error e
        | .ok arrayLength =>
          match rec elemStr with
          | .ok arrayType => .ok (makeStaticArrayType arrayType arrayLength)
          | .error e => .error e
    else if ("uint".data.isPrefixOf str : Bool) then
      match parseUint16 (str.drop 4) with
      | .error _ => .error "ill formed uint type"
      | .ok typeSize => makeUintType typeSize
    else if str = "byte".data then .ok byteType
    else if ("ufixed".data.isPrefixOf str : Bool) then
      match ufixedMatch str with
      | none => .error "ill formed ufixed type"
      | some (sizeStr, precStr) =>
        match parseUint16 sizeStr with
        | .error e => .error e
        | .ok ufixedSize =>
          match parseUint16 precStr with
          | .error e => .error e
          | .ok ufixedPrecision => makeUfixedType ufixedSize ufixedPrecision
    else if str = "bool".data then .ok boolType
    else if str = "address".data then .ok addressType
    else if str = "string".data then .ok stringType
    else if 2 ≤ str.length ∧ str.head? = some '(' ∧ str.getLast? = some ')' then
      if str.count '(' ≠ str.count ')' then
        .error "parsing error: tuple round bracket unbalanced"
      else if str.count '[' ≠ str.count ']' then
        .error "parsing error: tuple square bracket unbalanced"
      else
        match parseTupleContent ((str.drop 1).take (str.length - 2)) with
        | .error e => .error e
        | .ok tupleContent =>
          match typeOfListF rec tupleContent with
          | .ok tupleTypes => makeTupleType tupleTypes
          | .error e => .error e
    else .error "cannot convert the string to an ABI type"

/-- `TypeOf` from `abi/type.go`, fueled (each recursion is on a strictly
shorter string, so fuel `length + 1` suffices). -/
def typeOfF : Nat → List Char → Except String ABIType
  | 0, _ => .error "out of fuel"
  | f + 1, str => typeOfSwitch (typeOfF f) str

/-- `TypeOf`. -/
def TypeOf (s : String) : Except String ABIType := typeOfF (s.data.length + 1) s.data

/-- The `"bx:"` prefix of the `apps` package, as bytes. -/
def boxPrefixBytes : List Nat := [98, 120, 58]

/-- `MakeBoxKey` from the `apps` package: `"bx:"`, then the 8-byte big-endian
`appIdx` (`binary.BigEndian.PutUint64`), then the name. Go strings are byte
strings, modelled as `List Nat`. -/
def MakeBoxKey (appIdx : Nat) (name : List Nat) : List Nat :=
  boxPrefixBytes ++ beBytes 8 appIdx ++ name

/-- `SplitBoxKey` from the `apps` package. -/
def SplitBoxKey (key : List Nat) : Except String (Nat × List Nat) :=
  if key.length < 11 then
    .error "SplitBoxKey() cannot extract AppIndex as key too short"
  else if (key.take 3 ≠ boxPrefixBytes : Bool) then
    .error "SplitBoxKey() illegal app box prefix in key"
  else .ok (beNat ((key.take 11).drop 3), key.drop 11)

/-- `castBigIntToNearestPrimitive` from `abi/json.go`. `num.BitLen() > bitSize`
holds exactly when `|num| ≥ 2^bitSize`; the Go switch on `bitSize/8` returns
`uint8` for one byte (`vByte`) and `uint16`/`uint32`/`uint64`/`*big.Int`
(all `vUint` here) otherwise. -/
def castBigIntToNearestPrimitive (num : Int) (bitSize : Nat) : Except String Value :=
  if num.natAbs ≥ 2 ^ bitSize then .error "cast big int to nearest primitive failure"
  else if num < 0 then .error "cannot cast big int to near primitive"
  else if bitSize / 8 = 1 then .ok (.vByte num.toNat)
  else .ok (.vUint num.toNat)

/-- Exactly `p` decimal digits (most significant first) of `m mod 10^p`:
the fractional digit block of `big.Rat.FloatString(p)` applied to an exact
fraction `raw/10^p`. -/
def padDigits : Nat → Nat → List Nat
  | 0, _ => []
  | p + 1, m => padDigits p (m / 10) ++ [m % 10]

/-- The `Ufixed` case of `Type.MarshalToJSON` from `abi/json.go`: check and
big-endian-encode the value via `encodeInt`, read the magnitude back
(`big.Int.SetBytes`), and render `raw / 10^precision` with
`big.Rat.FloatString(precision)`. The emitted fixed-point text
`"<integer part>.<precision digits>"` is modelled as the pair
(integer part, list of fractional digits); the fraction is exact, so
`FloatString` performs no rounding. -/
def marshalToJSONUfixed (t : ABIType) (value : Value) : Except String (Nat × List Nat) :=
  match encodeInt value t.bitSize with
  | .error e => .error e
  | .ok encodedUint =>
    .ok (beNat encodedUint / 10 ^ t.precision,
         padDigits t.precision (beNat encodedUint % 10 ^ t.precision))

/-- The `Ufixed` case of `Type.UnmarshalFromJSON` from `abi/json.go`. `q` is
the rational parsed from the JSON text by `big.Rat.UnmarshalText`; the source
multiplies it by `10^precision`, requires the product to be an integer
(`big.Rat.IsInt`, i.e. denominator 1), and narrows via
`castBigIntToNearestPrimitive`. -/
def unmarshalFromJSONUfixed (t : ABIType) (q : ℚ) : Except String Value :=
  let numeratorRat : ℚ := (10 : ℚ) ^ t.precision * q
  if numeratorRat.den ≠ 1 then .error "cannot cast JSON encoded to ufixed: precision out of range"
  else castBigIntToNearestPrimitive numeratorRat.num t.bitSize

/-! ### General lemmas about the byte-level helpers -/

theorem beBytes_length (w n : Nat) : (beBytes w n).length = w := by
  induction w generalizing n with
  | zero => rfl
  | succ w ih => simp [beBytes, ih]

theorem beNat_append_singleton (xs : List Nat) (b : Nat) :
    beNat (xs ++ [b]) = beNat xs * 256 + b := by
  simp [beNat, List.foldl_append]

theorem beNat_beBytes (w n : Nat) (h : n < 2 ^ (8 * w)) : beNat (beBytes w n) = n := by
  induction w generalizing n with
  | zero =>
    simp only [Nat.mul_zero, pow_zero, Nat.lt_one_iff] at h
    simp [beBytes, beNat, h]
  | succ w ih =>
    have hdiv : n / 256 < 2 ^ (8 * w) := by
      have : n < 2 ^ (8 * w) * 256 := by
        calc n < 2 ^ (8 * (w + 1)) := h
        _ = 2 ^ (8 * w) * 256 := by ring
      omega
    simp only [beBytes, beNat_append_singleton, ih (n / 256) hdiv]
    omega

/-! ### C9: box keys -/

/-- C9: for every `uint64` app index and every name, `SplitBoxKey` of
`MakeBoxKey appIdx name` succeeds and returns exactly `appIdx` and `name`;
and `MakeBoxKey` always yields the 3-byte prefix `"bx:"`, then the 8-byte
big-endian app index, then the name, of total length `11 + len(name)`. -/
theorem boxKey_roundtrip (appIdx : Nat) (name : List Nat) (h : appIdx < 2 ^ 64) :
    SplitBoxKey (MakeBoxKey appIdx name) = .ok (appIdx, name) ∧
    (MakeBoxKey appIdx name).length = 11 + name.length ∧
    MakeBoxKey appIdx name = boxPrefixBytes ++ beBytes 8 appIdx ++ name := by
  have hlen : (beBytes 8 appIdx).length = 8 := beBytes_length 8 appIdx
  have hsplit : MakeBoxKey appIdx name = (boxPrefixBytes ++ beBytes 8 appIdx) ++ name := by
    simp [MakeBoxKey]
  have hpblen : (boxPrefixBytes ++ beBytes 8 appIdx).length = 11 := by simp [boxPrefixBytes, hlen]
  have hklen : (MakeBoxKey appIdx name).length = 11 + name.length := by
    rw [hsplit]; simp [boxPrefixBytes, hlen]; omega
  refine ⟨?_, hklen, by simp [MakeBoxKey]⟩
  have hval : beNat (beBytes 8 appIdx) = appIdx :=
    beNat_beBytes 8 appIdx (by norm_num at h ⊢; omega)
  have h3 : (MakeBoxKey appIdx name).take 3 = boxPrefixBytes := by
    simp [MakeBoxKey, boxPrefixBytes]
  have h11 : ((MakeBoxKey appIdx name).take 11).drop 3 = beBytes 8 appIdx := by
    rw [hsplit, show (11 : Nat) = (boxPrefixBytes ++ beBytes 8 appIdx).length from hpblen.symm,
      List.take_left]
    simp [boxPrefixBytes]
  have hdrop : (MakeBoxKey appIdx name).drop 11 = name := by
    rw [hsplit, show (11 : Nat) = (boxPrefixBytes ++ beBytes 8 appIdx).length from hpblen.symm,
      List.drop_left]
  simp only [SplitBoxKey, hklen, h3, h11, hdrop, hval]
  norm_num

/-- Witness for C9 at the repository's own test vector: app index 131231,
box name `"348-8uj"`. -/
theorem boxKey_roundtrip_witness :
    131231 < 2 ^ 64 ∧
    (SplitBoxKey (MakeBoxKey 131231 [51, 52, 56, 45, 56, 117, 106]) =
        .ok (131231, [51, 52, 56, 45, 56, 117, 106]) ∧
      (MakeBoxKey 131231 [51, 52, 56, 45, 56, 117, 106]).length = 11 + 7 ∧
      MakeBoxKey 131231 [51, 52, 56, 45, 56, 117, 106] =
        boxPrefixBytes ++ beBytes 8 131231 ++ [51, 52, 56, 45, 56, 117, 106]) :=
  ⟨by norm_num, boxKey_roundtrip 131231 [51, 52, 56, 45, 56, 117, 106] (by norm_num)⟩

/-! ### Concrete ABI types used by several claims -/

def uint8T : ABIType := .mk .uint [] 8 0 0

def emptyTupleT : ABIType := .mk .tuple [] 0 0 0

/-! ### C1: the binary round-trip fails on a tuple of empty tuples -/

/-- C1 (failing input): the type `((),())` parses, its valid value
`((),())` encodes to zero bytes, yet decoding those zero bytes fails with
"input byte not enough to decode" (the first empty-tuple child consumes no
bytes, and `decodeTuple`'s in-loop check
`i != len(childT)-1 && iterIndex >= len(encoded)` then rejects the input),
so `Decode(Encode(v,t),t)` does not succeed. -/
theorem roundtrip_fails_on_empty_tuple_pair :
    TypeOf "((),())" = .ok (.mk .tuple [emptyTupleT, emptyTupleT] 0 0 2) ∧
    (ABIType.mk .tuple [emptyTupleT, emptyTupleT] 0 0 2).encode (.vArr [.vArr [], .vArr []]) =
      .ok [] ∧
    (ABIType.mk .tuple [emptyTupleT, emptyTupleT] 0 0 2).decode [] =
      .error "input byte not enough to decode" :=
  ⟨rfl, rfl, rfl⟩

/-! ### C4: TypeOf accepts a string outside the grammar -/

/-- C4 (failing input): `"(byte(uint8))"` is not generated by the type
grammar, yet `TypeOf` accepts it: `parseTupleContent` silently drops the
parenthesized segment `(uint8)` (its splice leaves the non-empty piece
`"byte"`, so no empty placeholder is created and `parenSegCount` never
reaches the recorded segment), and the result is the tuple `(byte)`. -/
theorem typeOf_accepts_ungrammatical_string :
    TypeOf "(byte(uint8))" = .ok (.mk .tuple [byteType] 0 0 1) ∧
    (TypeOf "(byte(uint8))").map ABIType.typeString = .ok "(byte)" :=
  ⟨rfl, rfl⟩

/-! ### C5: the scenario byte string for encode (uint8,string) (5,"hi") -/

/-- C5 (counterexample): encoding `(uint8,string)` with `(5,"hi")` does not
produce the claim's eight bytes `00 05 00 03 00 02 68 69`. -/
theorem encode_scenario2_not_claimed_bytes :
    (ABIType.mk .tuple [uint8T, stringType] 0 0 2).encode (.vArr [.vByte 5, .vStr [104, 105]]) ≠
      .ok [0, 5, 0, 3, 0, 2, 104, 105] := by
  intro h
  rw [show (ABIType.mk .tuple [uint8T, stringType] 0 0 2).encode
        (.vArr [.vByte 5, .vStr [104, 105]]) = .ok [5, 0, 3, 0, 2, 104, 105] from rfl] at h
  injection h with h
  exact absurd h (by decide)

/-- C5 (amended): encoding `(uint8,string)` with `(5,"hi")` produces exactly
the seven bytes `05 00 03 00 02 68 69`: the 1-byte `uint8` head `05`, the
2-byte offset `0003`, then the tail `0002` `6869`. -/
theorem encode_scenario2 :
    (ABIType.mk .tuple [uint8T, stringType] 0 0 2).encode (.vArr [.vByte 5, .vStr [104, 105]]) =
      .ok [5, 0, 3, 0, 2, 104, 105] := rfl

/-! ### C3: decodeTuple and byte consumption -/

/-- C3 (counterexample): decoding `[0x00 0x03 0xFF 0x00 0x00]` against the
tuple type `(string)` succeeds (with the empty string), even though the byte
at index 2 lies between the static head region (which ends at index 2) and
the first dynamic tail (offset 3) and is never consumed: bytes skipped by
the head/tail layout do not make decoding fail, so input is not always
consumed exactly once on success. -/
theorem decodeTuple_accepts_gap_byte :
    (ABIType.mk .tuple [stringType] 0 0 1).decode [0, 3, 255, 0, 0] = .ok (.vArr [.vStr []]) ∧
    TypeOf "(string)" = .ok (.mk .tuple [stringType] 0 0 1) :=
  ⟨rfl, rfl⟩

/-! ### Helper lemmas about bool runs and replicated lists -/

theorem leadingBools_replicate (n : Nat) :
    leadingBools (List.replicate n (ABIType.mk .bool [] 0 0 0)) = n := by
  induction n with
  | zero => rfl
  | succ n ih => simp [List.replicate_succ, leadingBools, ABIType.kind, ih]

theorem compressBoolsAux_replicate_false (k i res : Nat) :
    compressBoolsAux (List.replicate k (.vBool false)) i res = .ok res := by
  induction k generalizing i with
  | zero => rfl
  | succ k ih => simp [List.replicate_succ, compressBoolsAux, ih]

theorem compressBools_replicate_false (k : Nat) (h : k ≤ 8) :
    compressBools (List.replicate k (.vBool false)) = .ok 0 := by
  simp [compressBools, compressBoolsAux_replicate_false, Nat.not_lt.mpr h]

theorem encodeHeadsF_replicate_false (enc : Value → ABIType → Except String (List Nat))
    (f n pre : Nat) (hpre : pre % 8 = 0) (hf : n + 1 ≤ f) :
    encodeHeadsF enc f (List.replicate n boolType) (List.replicate n (.vBool false)) pre =
      .ok (List.replicate ((n + 7) / 8) ([0], [], false)) := by
  induction f generalizing n pre with
  | zero => omega
  | succ f ih =>
    match n with
    | 0 => rfl
    | m + 1 =>
      rw [List.replicate_succ, List.replicate_succ]
      rw [encodeHeadsF]
      rw [if_neg (by decide : ¬ (boolType.isDynamic = true)),
        if_pos (by decide : boolType.kind = TypeKind.bool),
        if_neg (by omega : ¬ pre % 8 ≠ 0)]
      simp only [show leadingBools (List.replicate m boolType) = m from leadingBools_replicate m,
        List.take_replicate, List.drop_replicate]
      by_cases hm : m ≤ 7
      · rw [show m ⊓ 7 = m by omega, show m ⊓ m = m by omega]
        rw [show Value.vBool false :: List.replicate m (Value.vBool false) =
          List.replicate (m + 1) (Value.vBool false) from (List.replicate_succ _ _).symm]
        rw [compressBools_replicate_false (m + 1) (by omega)]
        rw [show m - m = 0 by omega]
        obtain ⟨f', rfl⟩ : ∃ f', f = f' + 1 := ⟨f - 1, by omega⟩
        rw [show List.replicate 0 boolType = [] from rfl,
          show List.replicate 0 (Value.vBool false) = [] from rfl]
        rw [show encodeHeadsF enc (f' + 1) [] [] (pre + m + 1) = .ok [] from rfl]
        rw [show (m + 1 + 7) / 8 = 1 by omega]
        rfl
      · rw [show m ⊓ 7 = 7 by omega, show (7 : Nat) ⊓ m = 7 by omega]
        rw [show Value.vBool false :: List.replicate 7 (Value.vBool false) =
          List.replicate 8 (Value.vBool false) from (List.replicate_succ _ _).symm]
        rw [compressBools_replicate_false 8 (by omega)]
        rw [ih (m - 7) (pre + 7 + 1) (by omega) (by omega)]
        rw [show (m + 1 + 7) / 8 = (m - 7 + 7) / 8 + 1 by omega]
        rw [List.replicate_succ]

theorem assignOffsets_replicate (k hl tc : Nat) :
    assignOffsets (List.replicate k (([0], [], false) : List Nat × List Nat × Bool)) hl tc =
      .ok (List.replicate k [0]) := by
  induction k generalizing tc with
  | zero => rfl
  | succ k ih => simp [List.replicate_succ, assignOffsets, ih]

theorem flatten_replicate_single (k : Nat) (b : Nat) :
    (List.replicate k [b]).flatten = List.replicate k b := by
  induction k with
  | zero => rfl
  | succ k ih => simp [List.replicate_succ, ih]

theorem flatten_replicate_nil (k : Nat) :
    (List.replicate k ([] : List Nat)).flatten = [] := by
  induction k with
  | zero => rfl
  | succ k ih => simp [List.replicate_succ, ih]

theorem typeCastToTuple_arrayStatic_none (c : ABIType) (l : Nat) (h : l < 65535) :
    typeCastToTuple (.mk .arrayStatic [c] 0 0 l) none =
      .ok (.mk .tuple (List.replicate l c) 0 0 l) := by
  simp only [typeCastToTuple, ABIType.kind, ABIType.childTypes, ABIType.staticLength,
    makeTupleType, List.length_replicate]
  rw [if_neg (by omega : ¬ l ≥ 65535)]

theorem encodeF_succ_arrayStatic (f : Nat) (v : Value) (cs : List ABIType) (b p l : Nat) :
    encodeF (f + 1) v (.mk .arrayStatic cs b p l) =
      (match typeCastToTuple (.mk .arrayStatic cs b p l) none with
       | .ok castedType => encodeF f v castedType
       | .error e => .error e) := rfl

theorem encodeF_succ_tuple (f : Nat) (v : Value) (cs : List ABIType) (b p l : Nat) :
    encodeF (f + 1) v (.mk .tuple cs b p l) = encodeTupleF (encodeF f) v cs := rfl

theorem encodeTupleF_ok (enc : Value → ABIType → Except String (List Nat))
    (vs : List Value) (ts : List ABIType) (slots : List (List Nat × List Nat × Bool))
    (heads : List (List Nat))
    (hlen : ts.length < 65536) (hvs : vs.length = ts.length)
    (hheads : encodeHeadsF enc (ts.length + 1) ts vs 0 = .ok slots)
    (hassign : assignOffsets slots ((slots.map fun s => s.1.length).sum) 0 = .ok heads) :
    encodeTupleF enc (.vArr vs) ts =
      .ok (heads.flatten ++ (slots.map fun s => s.2.1).flatten) := by
  unfold encodeTupleF
  rw [if_neg (by omega : ¬ ts.length ≥ 65536)]
  show (if vs.length ≠ ts.length then
      Except.error "cannot encode abi tuple: value slice length != child type number"
    else
      match encodeHeadsF enc (ts.length + 1) ts vs 0 with
      | .error e => .error e
      | .ok slots =>
        let headLength := (List.map (fun s => s.1.length) slots).sum
        match assignOffsets slots headLength 0 with
        | .error e => .error e
        | .ok heads => .ok (heads.flatten ++ (List.map (fun s => s.2.1) slots).flatten)) = _
  rw [if_neg (by omega : ¬ vs.length ≠ ts.length), hheads]
  show (match assignOffsets slots
        ((List.map (fun (s : List Nat × List Nat × Bool) => s.1.length) slots).sum) 0 with
      | Except.error e => Except.error e
      | Except.ok heads =>
        Except.ok (heads.flatten ++
          (List.map (fun (s : List Nat × List Nat × Bool) => s.2.1) slots).flatten)) = _
  rw [hassign]

/-! ### C2: ByteLen vs encoded length -/

/-- C2 (failing input): for the static type `bool[65529]` (accepted by
`TypeOf`), `ByteLen()` succeeds but returns 0 — the source computes
`int(t.staticLength+7) / 8` in Go `uint16` arithmetic and `65529 + 7` wraps
to 0 — while encoding a valid value of that type succeeds and produces
`ceil(65529/8) = 8192` bytes. So `ByteLen()` does not equal the length in
bytes of `Encode(v,t)`. -/
theorem byteLen_bool_array_overflow :
    TypeOf "bool[65529]" = .ok (.mk .arrayStatic [boolType] 0 0 65529) ∧
    (ABIType.mk .arrayStatic [boolType] 0 0 65529).byteLen = .ok 0 ∧
    (ABIType.mk .arrayStatic [boolType] 0 0 65529).encode
      (.vArr (List.replicate 65529 (.vBool false))) = .ok (List.replicate 8192 0) := by
  refine ⟨rfl, rfl, ?_⟩
  show encodeF 6 _ _ = _
  rw [show (6 : Nat) = 5 + 1 from rfl, encodeF_succ_arrayStatic]
  rw [typeCastToTuple_arrayStatic_none boolType 65529 (by norm_num)]
  show encodeF (4 + 1) (Value.vArr (List.replicate 65529 (Value.vBool false)))
    (ABIType.mk TypeKind.tuple (List.replicate 65529 boolType) 0 0 65529) = _
  rw [encodeF_succ_tuple]
  rw [encodeTupleF_ok (encodeF 4) (List.replicate 65529 (Value.vBool false))
    (List.replicate 65529 boolType) (List.replicate 8192 ([0], [], false))
    (List.replicate 8192 [0])
    (by rw [List.length_replicate]; omega)
    (by rw [List.length_replicate, List.length_replicate])
    (by
      rw [List.length_replicate]
      exact encodeHeadsF_replicate_false (encodeF 4) 65530 65529 0 (by omega) (by omega))
    (assignOffsets_replicate 8192 _ 0)]
  rw [flatten_replicate_single, List.map_replicate]
  show Except.ok (List.replicate 8192 0 ++ (List.replicate 8192 ([] : List Nat)).flatten) = _
  rw [flatten_replicate_nil, List.append_nil]

/-! ### Fuel-sufficiency and congruence lemmas for ByteLen, and
bool-run structure lemmas -/

theorem tupleByteLenF_fuel (bl : ABIType → Except String Nat) :
    ∀ f ts, ts.length + 1 ≤ f →
      tupleByteLenF bl f ts = tupleByteLenF bl (ts.length + 1) ts := by
  intro f
  induction f using Nat.strong_induction_on with
  | _ f ih =>
    intro ts hf
    match f, ts with
    | f + 1, [] => rfl
    | f + 1, t :: ts =>
      simp only [tupleByteLenF, List.length_cons]
      by_cases hb : t.kind = TypeKind.bool
      · rw [if_pos hb, if_pos hb]
        have h1 : (ts.drop (leadingBools ts)).length + 1 ≤ f := by
          have := List.length_drop (leadingBools ts) ts
          simp at hf ⊢; omega
        have h2 : (ts.drop (leadingBools ts)).length + 1 ≤ ts.length + 1 := by
          have := List.length_drop (leadingBools ts) ts
          omega
        rw [ih f (by omega) _ h1, ih (ts.length + 1) (by simp at hf ⊢; omega) _ h2]
      · rw [if_neg hb, if_neg hb]
        have h1 : ts.length + 1 ≤ f := by simp at hf; omega
        rw [ih f (by omega) _ h1]

theorem tupleByteLenF_congr (bl1 bl2 : ABIType → Except String Nat) :
    ∀ f ts, (∀ t ∈ ts, bl1 t = bl2 t) →
      tupleByteLenF bl1 f ts = tupleByteLenF bl2 f ts := by
  intro f
  induction f with
  | zero => intro ts _; rfl
  | succ f ih =>
    intro ts hmem
    match ts with
    | [] => rfl
    | t :: ts =>
      simp only [tupleByteLenF]
      by_cases hb : t.kind = TypeKind.bool
      · rw [if_pos hb, if_pos hb, ih _ fun u hu =>
          hmem u (List.mem_cons_of_mem t (List.mem_of_mem_drop hu))]
      · rw [if_neg hb, if_neg hb, hmem t (List.mem_cons_self t ts),
          ih _ fun u hu => hmem u (List.mem_cons_of_mem t hu)]

theorem depth_le_depthList (c : ABIType) (cs : List ABIType) (h : c ∈ cs) :
    c.depth ≤ depthList cs := by
  induction cs with
  | nil => cases h
  | cons t ts ih =>
    rcases List.mem_cons.mp h with rfl | h
    · simp [depthList]
    · have := ih h
      simp [depthList]; omega

theorem byteLenF_eq : ∀ f t, ABIType.depth t ≤ f → byteLenF f t = t.byteLen := by
  intro f
  induction f using Nat.strong_induction_on with
  | _ f ih =>
    intro t hf
    match t with
    | .mk k cs b p l =>
    have hd : (ABIType.mk k cs b p l).depth = depthList cs + 1 := rfl
    rw [hd] at hf
    obtain ⟨f', rfl⟩ : ∃ f', f = f' + 1 := ⟨f - 1, by omega⟩
    show byteLenF (f' + 1) _ = byteLenF (depthList cs + 1) _
    match k with
    | .address | .byte | .uint | .ufixed | .bool | .arrayDynamic | .string | .invalid => rfl
    | .arrayStatic =>
      match cs, hf with
      | [], _ => rfl
      | c :: rest, hf =>
        show (if c.kind = TypeKind.bool then Except.ok ((l + 7) % 65536 / 8)
          else match byteLenF f' c with
            | Except.ok elemByteLen => Except.ok (l * elemByteLen)
            | Except.error e => Except.error e) =
          (if c.kind = TypeKind.bool then Except.ok ((l + 7) % 65536 / 8)
          else match byteLenF (depthList (c :: rest)) c with
            | Except.ok elemByteLen => Except.ok (l * elemByteLen)
            | Except.error e => Except.error e)
        by_cases hb : c.kind = TypeKind.bool
        · rw [if_pos hb, if_pos hb]
        · rw [if_neg hb, if_neg hb]
          have hc1 : c.depth ≤ f' := by
            have : c.depth ≤ depthList (c :: rest) := depth_le_depthList c _ (List.mem_cons_self c rest)
            omega
          have hc2 : c.depth ≤ depthList (c :: rest) := depth_le_depthList c _ (List.mem_cons_self c rest)
          rw [ih f' (by omega) c hc1, ih (depthList (c :: rest)) (by omega) c hc2]
    | .tuple =>
      simp only [byteLenF]
      refine tupleByteLenF_congr _ _ _ cs fun u hu => ?_
      have hu1 : u.depth ≤ f' := by
        have := depth_le_depthList u cs hu; omega
      have hu2 : u.depth ≤ depthList cs := depth_le_depthList u cs hu
      rw [ih f' (by omega) u hu1, ih (depthList cs) (by omega) u hu2]

theorem anyDynamic_false_mem {ts : List ABIType} (h : anyDynamic ts = false) :
    ∀ t ∈ ts, t.isDynamic = false := by
  induction ts with
  | nil => intro t ht; cases ht
  | cons u us ih =>
    intro t ht
    simp only [anyDynamic, Bool.or_eq_false_iff] at h
    rcases List.mem_cons.mp ht with rfl | ht
    · exact h.1
    · exact ih h.2 t ht

theorem anyDynamic_false_of_all {ts : List ABIType} (h : ∀ t ∈ ts, t.isDynamic = false) :
    anyDynamic ts = false := by
  induction ts with
  | nil => rfl
  | cons u us ih =>
    simp only [anyDynamic, Bool.or_eq_false_iff]
    exact ⟨h u (List.mem_cons_self u us), ih fun t ht => h t (List.mem_cons_of_mem u ht)⟩

theorem anyDynamic_drop_false {ts : List ABIType} (k : Nat) (h : anyDynamic ts = false) :
    anyDynamic (ts.drop k) = false :=
  anyDynamic_false_of_all fun t ht => anyDynamic_false_mem h t (List.mem_of_mem_drop ht)

theorem anyDynamic_cons_false {t : ABIType} {ts : List ABIType}
    (h : anyDynamic (t :: ts) = false) : anyDynamic ts = false := by
  simp only [anyDynamic, Bool.or_eq_false_iff] at h
  exact h.2

theorem leadingBools_le_length (ts : List ABIType) : leadingBools ts ≤ ts.length := by
  induction ts with
  | nil => simp [leadingBools]
  | cons t ts ih =>
    simp only [leadingBools, List.length_cons]
    split <;> omega

theorem leadingBools_pos_head {ts : List ABIType} (h : 0 < leadingBools ts) :
    ∃ b us, ts = b :: us ∧ b.kind = TypeKind.bool ∧ leadingBools us = leadingBools ts - 1 := by
  match ts with
  | [] => simp [leadingBools] at h
  | b :: us =>
    refine ⟨b, us, rfl, ?_, ?_⟩
    · by_contra hb
      simp [leadingBools, hb] at h
    · have hb : b.kind = TypeKind.bool := by
        by_contra hb; simp [leadingBools, hb] at h
      simp [leadingBools, hb]

theorem leadingBools_drop (ts : List ABIType) :
    ∀ k, k ≤ leadingBools ts → leadingBools (ts.drop k) = leadingBools ts - k := by
  induction ts with
  | nil => intro k hk; simp [leadingBools] at hk; subst hk; simp [leadingBools]
  | cons t us ih =>
    intro k hk
    match k with
    | 0 => simp
    | k + 1 =>
      have ht : t.kind = TypeKind.bool := by
        by_contra hb; simp [leadingBools, hb] at hk
      rw [List.drop_succ_cons]
      have hk' : k ≤ leadingBools us := by
        simp [leadingBools, ht] at hk; omega
      rw [ih k hk']
      simp [leadingBools, ht]

theorem tupleByteLenF_bool_head (bl : ABIType → Except String Nat) (t : ABIType)
    (ts : List ABIType) (ht : t.kind = TypeKind.bool) :
    tupleByteLenF bl ((t :: ts).length + 1) (t :: ts) =
      match tupleByteLenF bl ((ts.drop (min (leadingBools ts) 7)).length + 1)
          (ts.drop (min (leadingBools ts) 7)) with
      | .ok m => .ok (1 + m)
      | .error e => .error e := by
  have hr := leadingBools_le_length ts
  simp only [List.length_cons]
  rw [show tupleByteLenF bl (ts.length + 1 + 1) (t :: ts) =
    (if t.kind = TypeKind.bool then
      match tupleByteLenF bl (ts.length + 1) (ts.drop (leadingBools ts)) with
      | .ok rest => .ok ((leadingBools ts + 1 + 7) / 8 + rest)
      | .error e => .error e
    else
      match bl t with
      | .ok childByteSize =>
        match tupleByteLenF bl (ts.length + 1) ts with
        | .ok rest => .ok (childByteSize + rest)
        | .error e => .error e
      | .error e => .error e) from rfl]
  rw [if_pos ht]
  by_cases h7 : leadingBools ts ≤ 7
  · rw [show min (leadingBools ts) 7 = leadingBools ts by omega]
    rw [tupleByteLenF_fuel bl (ts.length + 1) (ts.drop (leadingBools ts))
      (by have := List.length_drop (leadingBools ts) ts; omega)]
    cases hX : tupleByteLenF bl ((ts.drop (leadingBools ts)).length + 1) (ts.drop (leadingBools ts)) with
    | ok m => simp only []; congr 1; omega
    | error e => rfl
  · rw [show min (leadingBools ts) 7 = 7 by omega]
    have h8 : 8 ≤ leadingBools ts := by omega
    have hlem : leadingBools (ts.drop 7) = leadingBools ts - 7 := leadingBools_drop ts 7 (by omega)
    obtain ⟨b, us, hbus, hbk, hus⟩ := @leadingBools_pos_head (ts.drop 7) (by omega)
    have husdrop : us = ts.drop 8 := by
      have : (ts.drop 7).drop 1 = ts.drop 8 := by
        rw [List.drop_drop]
      rw [hbus] at this
      simpa using this
    have hlen7 : (ts.drop 7).length = ts.length - 7 := List.length_drop 7 ts
    rw [hbus, show (b :: us).length + 1 = us.length + 1 + 1 by simp]
    rw [show tupleByteLenF bl (us.length + 1 + 1) (b :: us) =
      (if b.kind = TypeKind.bool then
        match tupleByteLenF bl (us.length + 1) (us.drop (leadingBools us)) with
        | .ok rest => .ok ((leadingBools us + 1 + 7) / 8 + rest)
        | .error e => .error e
      else
        match bl b with
        | .ok childByteSize =>
          match tupleByteLenF bl (us.length + 1) us with
          | .ok rest => .ok (childByteSize + rest)
          | .error e => .error e
        | .error e => .error e) from rfl]
    rw [if_pos hbk]
    have hlb : leadingBools us = leadingBools ts - 8 := by rw [hus, hlem]; omega
    have hrecur : us.drop (leadingBools us) = ts.drop (leadingBools ts) := by
      rw [hlb, husdrop, List.drop_drop]
      congr 1
      omega
    rw [hrecur]
    have hflhs : tupleByteLenF bl (ts.length + 1) (ts.drop (leadingBools ts)) =
        tupleByteLenF bl ((ts.drop (leadingBools ts)).length + 1) (ts.drop (leadingBools ts)) :=
      tupleByteLenF_fuel bl _ _ (by have := List.length_drop (leadingBools ts) ts; omega)
    have hfrhs : tupleByteLenF bl (us.length + 1) (ts.drop (leadingBools ts)) =
        tupleByteLenF bl ((ts.drop (leadingBools ts)).length + 1) (ts.drop (leadingBools ts)) := by
      refine tupleByteLenF_fuel bl _ _ ?_
      have h1 := List.length_drop (leadingBools ts) ts
      have h2 : us.length = ts.length - 8 := by rw [husdrop]; exact List.length_drop 8 ts
      omega
    rw [hflhs, hfrhs]
    cases hX : tupleByteLenF bl ((ts.drop (leadingBools ts)).length + 1) (ts.drop (leadingBools ts)) with
    | ok m =>
      simp only []
      rw [hlb]
      congr 1
      omega
    | error e => rfl

theorem decodeSlotsF_cons (bl : ABIType → Except String Nat) (f : Nat) (t : ABIType)
    (ts : List ABIType) (encoded : List Nat) (iterIndex pre : Nat) :
    decodeSlotsF bl (f + 1) (t :: ts) encoded iterIndex pre =
      (if t.isDynamic = true then
        if encoded.length - iterIndex < 2 then
          .error "ill formed tuple dynamic typed value encoding"
        else
          let dynamicIndex := beUint16 (encoded.getD iterIndex 0) (encoded.getD (iterIndex + 1) 0)
          if ts.isEmpty = false ∧ iterIndex + 2 ≥ encoded.length then
            .error "input byte not enough to decode"
          else
            match decodeSlotsF bl f ts encoded (iterIndex + 2) 0 with
            | .ok (rest, fin) => .ok (DecSlot.dyn dynamicIndex :: rest, fin)
            | .error e => .error e
      else if t.kind = TypeKind.bool then
        if pre % 8 = 0 then
          let after := min (leadingBools ts) 7
          match encoded.get? iterIndex with
          | none => .error "panic: index out of range"
          | some byteHere =>
            let chunkSlots := (List.range (after + 1)).map fun boolIndex =>
              if byteHere &&& (0x80 >>> boolIndex) > 0 then DecSlot.part [0x80]
              else DecSlot.part [0x00]
            if (ts.drop after).isEmpty = false ∧ iterIndex + 1 ≥ encoded.length then
              .error "input byte not enough to decode"
            else
              match decodeSlotsF bl f (ts.drop after) encoded (iterIndex + 1) (pre + after + 1) with
              | .ok (rest, fin) => .ok (chunkSlots ++ rest, fin)
              | .error e => .error e
        else .error "expected before bool number mod 8 == 0"
      else
        match bl t with
        | .error e => .error e
        | .ok currLen =>
          match goSlice encoded iterIndex (iterIndex + currLen) with
          | .error e => .error e
          | .ok part =>
            if ts.isEmpty = false ∧ iterIndex + currLen ≥ encoded.length then
              .error "input byte not enough to decode"
            else
              match decodeSlotsF bl f ts encoded (iterIndex + currLen) 0 with
              | .ok (rest, fin) => .ok (DecSlot.part part :: rest, fin)
              | .error e => .error e) := rfl

theorem decodeSlotsF_static_consumption (bl : ABIType → Except String Nat) :
    ∀ f ts (bs : List Nat) iter pre slots fin,
      decodeSlotsF bl f ts bs iter pre = .ok (slots, fin) →
      anyDynamic ts = false →
      iter ≤ bs.length →
      ∃ m, tupleByteLenF bl (ts.length + 1) ts = .ok m ∧ fin = iter + m ∧
        fin ≤ bs.length ∧ dynOffsets slots = [] := by
  intro f
  induction f with
  | zero => intro ts bs iter pre slots fin hok; simp [decodeSlotsF] at hok
  | succ f ih =>
    intro ts bs iter pre slots fin hok hstat hiter
    match ts with
    | [] =>
      simp only [decodeSlotsF] at hok
      obtain ⟨rfl, rfl⟩ : slots = [] ∧ fin = iter := by
        cases hok; exact ⟨rfl, rfl⟩
      exact ⟨0, rfl, by omega, hiter, rfl⟩
    | t :: ts =>
      rw [decodeSlotsF_cons] at hok
      have hdyn : t.isDynamic = false := anyDynamic_false_mem hstat t (List.mem_cons_self t ts)
      rw [hdyn] at hok
      simp only [Bool.false_eq_true, if_false] at hok
      by_cases hb : t.kind = TypeKind.bool
      · rw [if_pos hb] at hok
        by_cases hpre : pre % 8 = 0
        · rw [if_pos hpre] at hok
          cases hget : bs.get? iter with
          | none => rw [hget] at hok; cases hok
          | some byteHere =>
            rw [hget] at hok
            have hiter2 : iter < bs.length := List.get?_eq_some.mp hget |>.1
            simp only [] at hok
            split at hok
            · cases hok
            · rename_i hcheck
              cases hrec : decodeSlotsF bl f (ts.drop (min (leadingBools ts) 7)) bs (iter + 1)
                  (pre + min (leadingBools ts) 7 + 1) with
              | error e => rw [hrec] at hok; cases hok
              | ok pr =>
                obtain ⟨rest, fin'⟩ := pr
                rw [hrec] at hok
                obtain ⟨rfl, rfl⟩ : slots =
                    (List.range (min (leadingBools ts) 7 + 1)).map (fun boolIndex =>
                      if byteHere &&& (0x80 >>> boolIndex) > 0 then DecSlot.part [0x80]
                      else DecSlot.part [0x00]) ++ rest ∧ fin = fin' := by
                  cases hok; exact ⟨rfl, rfl⟩
                obtain ⟨m', hm', hfin', hle', hdyn'⟩ :=
                  ih (ts.drop (min (leadingBools ts) 7)) bs (iter + 1) _ rest fin hrec
                    (anyDynamic_drop_false _ (anyDynamic_cons_false hstat))
                    (by omega)
                refine ⟨1 + m', ?_, by omega, by omega, ?_⟩
                · rw [tupleByteLenF_bool_head bl t ts hb, hm']
                · rw [dynOffsets, List.filterMap_append]
                  have h1 : dynOffsets ((List.range (min (leadingBools ts) 7 + 1)).map fun boolIndex =>
                      if byteHere &&& (0x80 >>> boolIndex) > 0 then DecSlot.part [0x80]
                      else DecSlot.part [0x00]) = [] := by
                    rw [dynOffsets, List.filterMap_eq_nil_iff]
                    intro a ha
                    rcases List.mem_map.mp ha with ⟨i, _, rfl⟩
                    by_cases hbit : byteHere &&& (0x80 >>> i) > 0 <;> simp [hbit]
                  rw [dynOffsets] at h1 hdyn'
                  rw [h1, hdyn']
                  rfl
        · rw [if_neg hpre] at hok; cases hok
      · rw [if_neg hb] at hok
        cases hbl : bl t with
        | error e => rw [hbl] at hok; cases hok
        | ok currLen =>
          rw [hbl] at hok
          simp only [] at hok
          cases hsl : goSlice bs iter (iter + currLen) with
          | error e => rw [hsl] at hok; simp only [] at hok; cases hok
          | ok part =>
            rw [hsl] at hok
            simp only [] at hok
            have hbound : iter + currLen ≤ bs.length := by
              by_contra hc
              rw [goSlice, if_neg (by omega)] at hsl
              cases hsl
            by_cases hcheck : ts.isEmpty = false ∧ iter + currLen ≥ bs.length
            · rw [if_pos hcheck] at hok; cases hok
            · rw [if_neg hcheck] at hok
              cases hrec : decodeSlotsF bl f ts bs (iter + currLen) 0 with
              | error e => rw [hrec] at hok; simp only [] at hok; cases hok
              | ok pr =>
                obtain ⟨rest, fin2⟩ := pr
                rw [hrec] at hok
                simp only [] at hok
                obtain ⟨rfl, rfl⟩ : slots = DecSlot.part part :: rest ∧ fin = fin2 := by
                  cases hok; exact ⟨rfl, rfl⟩
                obtain ⟨m', hm', hfin', hle', hdyn'⟩ :=
                  ih ts bs (iter + currLen) 0 rest fin hrec
                    (anyDynamic_cons_false hstat)
                    hbound
                refine ⟨currLen + m', ?_, by omega, by omega, ?_⟩
                · rw [show tupleByteLenF bl ((t :: ts).length + 1) (t :: ts) =
                    (if t.kind = TypeKind.bool then
                      match tupleByteLenF bl ((t :: ts).length) (ts.drop (leadingBools ts)) with
                      | .ok rest => .ok ((leadingBools ts + 1 + 7) / 8 + rest)
                      | .error e => .error e
                    else
                      match bl t with
                      | .ok childByteSize =>
                        match tupleByteLenF bl ((t :: ts).length) ts with
                        | .ok rest => .ok (childByteSize + rest)
                        | .error e => .error e
                      | .error e => .error e) from rfl]
                  rw [if_neg hb, hbl]
                  rw [show ((t :: ts).length : Nat) = ts.length + 1 by simp, hm']
                · simp only [dynOffsets, List.filterMap_cons] at hdyn' ⊢
                  exact hdyn'

theorem decodeF_succ_tuple (f : Nat) (bs : List Nat) (cs : List ABIType) (b p l : Nat) :
    decodeF (f + 1) bs (.mk .tuple cs b p l) = decodeTupleF (decodeF f) bs cs := rfl

/-! ### C3 (amended): static tuples consume exactly ByteLen bytes -/

/-- C3 (amended): for every tuple type all of whose children are static,
`Decode` succeeds only when the input length is exactly the tuple's
`ByteLen()`: every byte is consumed exactly once, and both leftover trailing
bytes and insufficient bytes make decoding fail. (With dynamic children the
original claim fails: see the counterexample `decodeTuple_accepts_gap_byte`,
where a byte between the static head region and the first dynamic tail is
skipped without error.) -/
theorem decode_static_tuple_consumes_all (cs : List ABIType) (b p l : Nat)
    (bs : List Nat) (v : Value)
    (hstatic : anyDynamic cs = false)
    (hok : (ABIType.mk .tuple cs b p l).decode bs = .ok v) :
    (ABIType.mk .tuple cs b p l).byteLen = .ok bs.length := by
  rw [ABIType.decode] at hok
  rw [show 2 * (ABIType.mk .tuple cs b p l).depth + 2 =
    (2 * (ABIType.mk .tuple cs b p l).depth + 1) + 1 from rfl, decodeF_succ_tuple] at hok
  rw [decodeTupleF] at hok
  cases hslots : decodeSlotsF ABIType.byteLen (cs.length + 1) cs bs 0 0 with
  | error e => rw [hslots] at hok; cases hok
  | ok pr =>
    obtain ⟨slots, iter⟩ := pr
    rw [hslots] at hok
    simp only [] at hok
    obtain ⟨m, hm, hiter, hle, hoffs⟩ :=
      decodeSlotsF_static_consumption ABIType.byteLen (cs.length + 1) cs bs 0 0 slots iter
        hslots hstatic (by omega)
    rw [hoffs] at hok
    simp only [List.length_nil, gt_iff_lt, Nat.lt_irrefl, if_false] at hok
    by_cases hlt : iter < bs.length
    · rw [if_pos hlt] at hok; cases hok
    · rw [if_neg hlt] at hok
      have hlen : m = bs.length := by omega
      have hblt : (ABIType.mk .tuple cs b p l).byteLen =
          tupleByteLenF (byteLenF (depthList cs)) (cs.length + 1) cs := rfl
      rw [hblt]
      rw [tupleByteLenF_congr (byteLenF (depthList cs)) ABIType.byteLen (cs.length + 1) cs
        fun u hu => byteLenF_eq (depthList cs) u (depth_le_depthList u cs hu)]
      rw [hm, hlen]

/-- Witness for C3 (amended) at the tuple `(uint8,bool)` with input
`[7, 0x80]`. -/
theorem decode_static_tuple_consumes_all_witness :
    anyDynamic [uint8T, boolType] = false ∧
    (ABIType.mk .tuple [uint8T, boolType] 0 0 2).decode [7, 128] =
      .ok (.vArr [.vByte 7, .vBool true]) ∧
    (ABIType.mk .tuple [uint8T, boolType] 0 0 2).byteLen = .ok 2 :=
  ⟨rfl, rfl, decode_static_tuple_consumes_all [uint8T, boolType] 0 0 2 [7, 128]
    (.vArr [.vByte 7, .vBool true]) rfl rfl⟩

/-! ### C8: JSON form of ufixed values -/

/-- Numeric value of a list of decimal digits (most significant first). -/
def digitsVal (ds : List Nat) : Nat := ds.foldl (fun a d => a * 10 + d) 0

theorem digitsVal_append_singleton (xs : List Nat) (d : Nat) :
    digitsVal (xs ++ [d]) = digitsVal xs * 10 + d := by
  simp [digitsVal, List.foldl_append]

theorem padDigits_length (p m : Nat) : (padDigits p m).length = p := by
  induction p generalizing m with
  | zero => rfl
  | succ p ih => simp [padDigits, ih]

theorem padDigits_lt (p m : Nat) : ∀ d ∈ padDigits p m, d < 10 := by
  induction p generalizing m with
  | zero => intro d hd; cases hd
  | succ p ih =>
    intro d hd
    simp only [padDigits] at hd
    rcases List.mem_append.mp hd with h | h
    · exact ih (m / 10) d h
    · simp at h; omega

theorem digitsVal_padDigits (p m : Nat) : digitsVal (padDigits p m) = m % 10 ^ p := by
  induction p generalizing m with
  | zero => simp [padDigits, digitsVal, Nat.mod_one]
  | succ p ih =>
    rw [padDigits, digitsVal_append_singleton, ih]
    rw [pow_succ, mul_comm (10 ^ p) 10, @Nat.mod_mul 10 (10 ^ p) m]
    ring

def ufixed64x3 : ABIType := .mk .ufixed [] 64 3 0

/-- C8: for `ufixed64x3`, unmarshalling the parsed literal `123.456`
(the rational 123456/1000) yields the scaled integer 123456, and marshalling
that value yields exactly the fixed-point text `"123.456"` (integer part 123,
fractional digits 4,5,6). In general a ufixed value `raw` (within its bit
width) marshals to fixed-point decimal text with exactly `precision`
fractional digits whose value is `raw mod 10^precision`, with integer part
`raw / 10^precision` — together the text denotes `raw / 10^precision`
exactly; and unmarshalling succeeds exactly when the parsed literal times
`10^precision` is an exact integer that is non-negative and fits in
`bitWidth` bits. -/
theorem ufixed_json_c8 :
    (unmarshalFromJSONUfixed ufixed64x3 ((123456 : ℚ) / 1000) = .ok (.vUint 123456) ∧
     marshalToJSONUfixed ufixed64x3 (.vUint 123456) = .ok (123, [4, 5, 6])) ∧
    (∀ bitSize precision raw : Nat, bitSize % 8 = 0 → raw < 2 ^ bitSize →
      marshalToJSONUfixed (.mk .ufixed [] bitSize precision 0) (.vUint raw) =
        .ok (raw / 10 ^ precision, padDigits precision (raw % 10 ^ precision)) ∧
      (padDigits precision (raw % 10 ^ precision)).length = precision ∧
      digitsVal (padDigits precision (raw % 10 ^ precision)) = raw % 10 ^ precision ∧
      (∀ d ∈ padDigits precision (raw % 10 ^ precision), d < 10)) ∧
    (∀ (bitSize precision : Nat) (q : ℚ),
      (∃ v, unmarshalFromJSONUfixed (.mk .ufixed [] bitSize precision 0) q = .ok v) ↔
        ((10 : ℚ) ^ precision * q).den = 1 ∧ 0 ≤ ((10 : ℚ) ^ precision * q).num ∧
          ((10 : ℚ) ^ precision * q).num.natAbs < 2 ^ bitSize) := by
  refine ⟨⟨?_, ?_⟩, ?_, ?_⟩
  · simp only [unmarshalFromJSONUfixed, ufixed64x3, ABIType.precision, ABIType.bitSize]
    rw [show (10 : ℚ) ^ (3 : Nat) * ((123456 : ℚ) / 1000) = (123456 : ℚ) by norm_num]
    norm_num [castBigIntToNearestPrimitive]
    rfl
  · rfl
  · intro bitSize precision raw h8 hraw
    refine ⟨?_, padDigits_length _ _, ?_, padDigits_lt _ _⟩
    · simp only [marshalToJSONUfixed, ABIType.precision, ABIType.bitSize, encodeInt]
      rw [if_neg (by omega : ¬ 2 ^ bitSize ≤ raw)]
      have : beNat (beBytes (bitSize / 8) raw) = raw := by
        refine beNat_beBytes _ _ ?_
        rw [show 8 * (bitSize / 8) = bitSize by omega]
        exact hraw
      simp only [this]
    · rw [digitsVal_padDigits]
      exact Nat.mod_eq_of_lt (Nat.mod_lt _ (by positivity))
  · intro bitSize precision q
    simp only [unmarshalFromJSONUfixed, ABIType.precision, ABIType.bitSize,
      castBigIntToNearestPrimitive]
    by_cases hden : ((10 : ℚ) ^ precision * q).den = 1
    · rw [if_neg (by simp [hden])]
      by_cases habs : ((10 : ℚ) ^ precision * q).num.natAbs ≥ 2 ^ bitSize
      · rw [if_pos habs]
        constructor
        · rintro ⟨v, hv⟩; cases hv
        · rintro ⟨_, _, h⟩; omega
      · rw [if_neg habs]
        by_cases hneg : ((10 : ℚ) ^ precision * q).num < 0
        · rw [if_pos hneg]
          constructor
          · rintro ⟨v, hv⟩; cases hv
          · rintro ⟨_, h, _⟩; omega
        · rw [if_neg hneg]
          constructor
          · intro _
            exact ⟨hden, by omega, by omega⟩
          · intro _
            by_cases h18 : bitSize / 8 = 1
            · rw [if_pos h18]; exact ⟨_, rfl⟩
            · rw [if_neg h18]; exact ⟨_, rfl⟩
    · rw [if_pos (by simp [hden])]
      constructor
      · rintro ⟨v, hv⟩; cases hv
      · rintro ⟨h, _⟩; exact absurd h hden

/-- Witness for C8's universally quantified parts at `ufixed64x3` and the
scenario value 123456. -/
theorem ufixed_json_c8_witness :
    64 % 8 = 0 ∧ 123456 < 2 ^ 64 ∧
    marshalToJSONUfixed (.mk .ufixed [] 64 3 0) (.vUint 123456) =
      .ok (123456 / 10 ^ 3, padDigits 3 (123456 % 10 ^ 3)) :=
  ⟨by norm_num, by norm_num, (ufixed_json_c8.2.1 64 3 123456 (by norm_num) (by norm_num)).1⟩

/-! ### C10: static-array length literals -/

theorem isSuffixOf_pair_iff (x y : Char) (l : List Char) :
    ([x, y].isSuffixOf l = true) ↔ ∃ t, l = t ++ [x, y] := by
  rw [List.isSuffixOf_iff_suffix]
  constructor
  · rintro ⟨t, rfl⟩; exact ⟨t, rfl⟩
  · rintro ⟨t, rfl⟩; exact ⟨t, rfl⟩

theorem isSuffixOf_single_iff (x : Char) (l : List Char) :
    ([x].isSuffixOf l = true) ↔ ∃ t, l = t ++ [x] := by
  rw [List.isSuffixOf_iff_suffix]
  constructor
  · rintro ⟨t, rfl⟩; exact ⟨t, rfl⟩
  · rintro ⟨t, rfl⟩; exact ⟨t, rfl⟩

theorem no_array_suffix_of_digits (pre L : List Char) (hL : L ≠ [])
    (hd : ∀ c ∈ L, c.isDigit) :
    (['[', ']'].isSuffixOf (pre ++ L ++ [']']) : Bool) = false := by
  rw [Bool.eq_false_iff]
  intro hsuf
  obtain ⟨t, ht⟩ := (isSuffixOf_pair_iff '[' ']' _).mp hsuf
  have ht2 : (pre ++ L) ++ [']'] = (t ++ ['[']) ++ [']'] := by
    simpa using ht
  have ht3 : pre ++ L = t ++ ['['] := List.append_cancel_right ht2
  have h1 : (pre ++ L).getLast? = some '[' := by
    rw [ht3]
    simp
  have h2 : (pre ++ L).getLast? = L.getLast? := by
    rcases L with _ | ⟨c, cs⟩
    · exact absurd rfl hL
    · simp only [List.getLast?_append]
      rw [List.getLast?_eq_getLast (c :: cs) (by simp)]
      rfl
  rw [h2] at h1
  have h3 : L.getLast (by exact hL) ∈ L := List.getLast_mem _
  rw [List.getLast?_eq_getLast L hL] at h1
  have h4 := hd _ h3
  rw [Option.some_inj.mp h1] at h4
  simp [Char.isDigit] at h4

theorem staticArrayMatch_digits (L : List Char) (hL : L ≠ []) (hd : ∀ c ∈ L, c.isDigit) :
    staticArrayMatch ("uint8[".data ++ L ++ [']']) =
      (match L with
       | d :: _ => if d ≠ '0' then some ("uint8".data, L) else none
       | [] => none) := by
  have hrev : ("uint8[".data ++ L ++ [']']).reverse =
      ']' :: (L.reverse ++ ['[', '8', 't', 'n', 'i', 'u']) := by
    simp [List.reverse_append]
  rw [staticArrayMatch, hrev]
  simp only []
  have htw : (L.reverse ++ ['[', '8', 't', 'n', 'i', 'u']).takeWhile Char.isDigit = L.reverse := by
    rw [List.takeWhile_append]
    rw [List.takeWhile_eq_self_iff.mpr (fun x hx => hd x (List.mem_reverse.mp hx))]
    simp [List.takeWhile]
  rw [htw]
  rw [show (L.reverse ++ ['[', '8', 't', 'n', 'i', 'u']).drop L.reverse.length =
    ['[', '8', 't', 'n', 'i', 'u'] from List.drop_left _ _]
  simp only [List.reverse_reverse]
  match L, hL with
  | d :: rest, _ =>
    simp only []
    by_cases h0 : d = '0'
    · subst h0
      rw [if_neg (by simp), if_neg (by simp)]
    · rw [if_pos (show d ≠ '0' ∧ ¬(['8', 't', 'n', 'i', 'u'].reverse.isEmpty = true) ∧
          ['8', 't', 'n', 'i', 'u'].reverse.all isTypeChar = true from ⟨h0, by decide, by decide⟩),
        if_pos h0]
      rfl

theorem typeOfF_succ (f : Nat) (str : List Char) :
    typeOfF (f + 1) str = typeOfSwitch (typeOfF f) str := rfl

theorem typeOfSwitch_uint8 (rec : List Char → Except String ABIType) :
    typeOfSwitch rec "uint8".data = .ok (.mk .uint [] 8 0 0) := rfl

theorem typeOf_uint8_array (L : List Char) (hL : L ≠ []) (hd : ∀ c ∈ L, c.isDigit) :
    TypeOf (String.mk ("uint8[".data ++ L ++ [']'])) =
      if L.head? = some '0' then .error "static array ill formated"
      else if digitsToNat L ≥ 65536 then .error "strconv.ParseUint: value out of range"
      else .ok (makeStaticArrayType (.mk .uint [] 8 0 0) (digitsToNat L)) := by
  have hlen : ("uint8[".data ++ L ++ [']'] : List Char).length = 7 + L.length := by
    simp; omega
  rw [show TypeOf (String.mk ("uint8[".data ++ L ++ [']'])) =
    typeOfF (("uint8[".data ++ L ++ [']'] : List Char).length + 1) ("uint8[".data ++ L ++ [']'])
    from rfl]
  rw [typeOfF_succ, typeOfSwitch, hlen]
  rw [no_array_suffix_of_digits "uint8[".data L hL hd]
  simp only [Bool.false_eq_true, if_false]
  rw [(isSuffixOf_single_iff ']' ("uint8[".data ++ L ++ [']'])).mpr
    ⟨"uint8[".data ++ L, by simp⟩]
  simp only [if_true]
  rw [staticArrayMatch_digits L hL hd]
  match L, hL, hd with
  | d :: rest, _, hd =>
    simp only []
    by_cases h0 : d = '0'
    · subst h0
      rw [if_neg (by simp)]
      simp
    · rw [if_pos h0, if_neg (by simp [h0])]
      simp only []
      unfold parseUint16
      have hall : (d :: rest).all Char.isDigit = true := List.all_eq_true.mpr hd
      rw [hall]
      rw [if_neg (show ¬((d :: rest).isEmpty = true) by simp)]
      rw [if_neg (show ¬(¬(true : Bool) = true) by simp)]
      by_cases hval : digitsToNat (d :: rest) ≥ 65536
      · rw [if_pos hval, if_pos hval]
      · rw [if_neg hval, if_neg hval]
        simp only []
        rw [show (7 : Nat) + (d :: rest).length = (6 + (d :: rest).length) + 1 by omega]
        rw [typeOfF_succ, typeOfSwitch_uint8]

/-- C10: `TypeOf` rejects `"uint8[0]"` and `"uint8[01]"`, and in general,
for a static-array string `"uint8[" ++ L ++ "]"` with `L` a nonempty digit
string, `TypeOf` succeeds exactly when `L` has no leading zero (hence
matches `[1-9][0-9]*`) and its value fits in `uint16` (at most 65535). -/
theorem typeOf_static_array_length_rule :
    TypeOf "uint8[0]" = .error "static array ill formated" ∧
    TypeOf "uint8[01]" = .error "static array ill formated" ∧
    ∀ L : List Char, L ≠ [] → (∀ c ∈ L, c.isDigit) →
      ((∃ t, TypeOf (String.mk ("uint8[".data ++ L ++ [']'])) = .ok t) ↔
        L.head? ≠ some '0' ∧ digitsToNat L ≤ 65535) := by
  refine ⟨rfl, rfl, ?_⟩
  intro L hL hd
  rw [typeOf_uint8_array L hL hd]
  constructor
  · rintro ⟨t, ht⟩
    by_cases h0 : L.head? = some '0'
    · rw [if_pos h0] at ht; cases ht
    · rw [if_neg h0] at ht
      by_cases hval : digitsToNat L ≥ 65536
      · rw [if_pos hval] at ht; cases ht
      · exact ⟨h0, by omega⟩
  · rintro ⟨h1, h2⟩
    rw [if_neg h1, if_neg (by omega)]
    exact ⟨_, rfl⟩

/-- Witness for C10's quantified part at the length literal `"65535"`. -/
theorem typeOf_static_array_length_rule_witness :
    ("65535".data : List Char) ≠ [] ∧ (∀ c ∈ ("65535".data : List Char), c.isDigit) ∧
    ((∃ t, TypeOf (String.mk ("uint8[".data ++ "65535".data ++ [']'])) = .ok t) ↔
      ("65535".data : List Char).head? ≠ some '0' ∧ digitsToNat "65535".data ≤ 65535) :=
  ⟨by decide, by decide,
    typeOf_static_array_length_rule.2.2 "65535".data (by decide) (by decide)⟩

/-! ### Grammar round-trip (C6): `TypeOf (t.String())` recovers `t` -/

theorem decDigitsF_eq (n : Nat) : ∀ f, n < f → decDigitsF f n = decDigits n := by
  induction n using Nat.strong_induction_on with
  | _ n ih =>
    intro f hf
    match f, hf with
    | f + 1, hf =>
      by_cases h10 : n < 10
      · show (if n < 10 then _ else _) = decDigits n
        rw [if_pos h10]
        rw [decDigits, show decDigitsF (n + 1) n =
          (if n < 10 then [Char.ofNat (48 + n)] else decDigitsF n (n / 10) ++ [Char.ofNat (48 + n % 10)]) from rfl,
          if_pos h10]
      · show (if n < 10 then _ else _) = decDigits n
        rw [if_neg h10]
        rw [decDigits, show decDigitsF (n + 1) n =
          (if n < 10 then [Char.ofNat (48 + n)] else decDigitsF n (n / 10) ++ [Char.ofNat (48 + n % 10)]) from rfl,
          if_neg h10]
        rw [ih (n / 10) (by omega) f (by omega), ih (n / 10) (by omega) n (by omega)]

theorem decDigits_succ (n : Nat) (h : ¬ n < 10) :
    decDigits n = decDigits (n / 10) ++ [Char.ofNat (48 + n % 10)] := by
  rw [decDigits, show decDigitsF (n + 1) n =
    (if n < 10 then [Char.ofNat (48 + n)] else decDigitsF n (n / 10) ++ [Char.ofNat (48 + n % 10)]) from rfl,
    if_neg h, decDigitsF_eq (n / 10) n (by omega)]

theorem decDigits_lt10 (n : Nat) (h : n < 10) : decDigits n = [Char.ofNat (48 + n)] := by
  rw [decDigits, show decDigitsF (n + 1) n =
    (if n < 10 then [Char.ofNat (48 + n)] else decDigitsF n (n / 10) ++ [Char.ofNat (48 + n % 10)]) from rfl,
    if_pos h]

theorem decDigits_ne_nil (n : Nat) : decDigits n ≠ [] := by
  by_cases h : n < 10
  · rw [decDigits_lt10 n h]; simp
  · rw [decDigits_succ n h]; simp

theorem isDigit_ofNat_add (m : Nat) (h : m < 10) : (Char.ofNat (48 + m)).isDigit = true := by
  interval_cases m <;> decide

theorem decDigits_all_digit (n : Nat) : ∀ c ∈ decDigits n, c.isDigit := by
  induction n using Nat.strong_induction_on with
  | _ n ih =>
    by_cases h : n < 10
    · rw [decDigits_lt10 n h]
      intro c hc
      simp at hc
      subst hc
      exact isDigit_ofNat_add n h
    · rw [decDigits_succ n h]
      intro c hc
      rcases List.mem_append.mp hc with h1 | h1
      · exact ih (n / 10) (by omega) c h1
      · simp at h1; subst h1; exact isDigit_ofNat_add (n % 10) (by omega)

theorem decDigits_head_pos (n : Nat) (hn : 0 < n) : (decDigits n).head? ≠ some '0' := by
  induction n using Nat.strong_induction_on with
  | _ n ih =>
    by_cases h : n < 10
    · rw [decDigits_lt10 n h]
      intro hc
      simp at hc
      have : (Char.ofNat (48 + n)).toNat = 48 := by rw [hc]; rfl
      interval_cases n <;> simp_all
    · rw [decDigits_succ n h]
      cases hD : decDigits (n / 10) with
      | nil => exact absurd hD (decDigits_ne_nil _)
      | cons d ds =>
        have := ih (n / 10) (by omega) (by omega)
        rw [hD] at this
        simpa using this

theorem digitsToNat_decDigits (n : Nat) : digitsToNat (decDigits n) = n := by
  induction n using Nat.strong_induction_on with
  | _ n ih =>
    by_cases h : n < 10
    · rw [decDigits_lt10 n h]
      show [Char.ofNat (48 + n)].foldl _ 0 = n
      simp only [List.foldl]
      interval_cases n <;> decide
    · rw [decDigits_succ n h]
      rw [show digitsToNat (decDigits (n / 10) ++ [Char.ofNat (48 + n % 10)]) =
        digitsToNat (decDigits (n / 10)) * 10 + ((Char.ofNat (48 + n % 10)).toNat - 48) by
          simp [digitsToNat, List.foldl_append]]
      rw [ih (n / 10) (by omega)]
      have : (Char.ofNat (48 + n % 10)).toNat - 48 = n % 10 := by
        have h10 : n % 10 < 10 := by omega
        generalize n % 10 = m at *
        interval_cases m <;> decide
      omega


/- ---- definitions to later move into the main file ---- -/

def joinC : List (List Char) → List Char
  | [] => []
  | [x] => x
  | x :: y :: xs => x ++ ',' :: joinC (y :: xs)

def depthAfter : List Char → Nat → Option Nat
  | [], d => some d
  | c :: rest, d =>
    if c = '(' then depthAfter rest (d + 1)
    else if c = ')' then
      match d with
      | 0 => none
      | e + 1 => depthAfter rest e
    else depthAfter rest d

def plainChars (l : List Char) : Bool := l.all fun c => c ≠ '(' && c ≠ ')' && c ≠ ','

def elemOk (E : List Char) : Prop :=
  E ≠ [] ∧ (plainChars E = true ∨
    ∃ M Q, E = '(' :: (M ++ ')' :: Q) ∧ depthAfter M 0 = some 0 ∧ plainChars Q = true)

/-- The types that `TypeOf` can produce: the validation performed by
`makeUintType`, `makeUfixedType`, and `MakeTupleType`, the `uint16` range of
`makeStaticArrayType`'s length parameter with the regexp's `[1-9]` first digit,
and closure under the child positions actually used by the parser. -/
inductive TWF : ABIType → Prop where
  | uint (b : Nat) : b % 8 = 0 → 8 ≤ b → b ≤ 512 → TWF (.mk .uint [] b 0 0)
  | byte : TWF byteType
  | ufixed (b p : Nat) : b % 8 = 0 → 8 ≤ b → b ≤ 512 → 1 ≤ p → p ≤ 160 →
      TWF (.mk .ufixed [] b p 0)
  | bool : TWF boolType
  | address : TWF addressType
  | string : TWF stringType
  | arrayStatic (c : ABIType) (l : Nat) : TWF c → 1 ≤ l → l ≤ 65535 →
      TWF (.mk .arrayStatic [c] 0 0 l)
  | arrayDynamic (c : ABIType) : TWF c → TWF (.mk .arrayDynamic [c] 0 0 0)
  | tuple (cs : List ABIType) : (∀ c ∈ cs, TWF c) → cs.length < 65535 →
      TWF (.mk .tuple cs 0 0 cs.length)

def typeStrData (t : ABIType) : List Char := t.typeString.data

/- ---- basic lemmas ---- -/

theorem intercalate_go_data (s : String) :
    ∀ (as : List String) (acc : String),
      (String.intercalate.go acc s as).data =
        acc.data ++ (as.map fun a => s.data ++ a.data).flatten := by
  intro as
  induction as with
  | nil => intro acc; simp [String.intercalate.go]
  | cons a as ih =>
    intro acc
    rw [String.intercalate.go, ih]
    simp

theorem joinC_cons (a : List Char) (as : List (List Char)) :
    joinC (a :: as) = a ++ (as.map fun x => ',' :: x).flatten := by
  induction as generalizing a with
  | nil => simp [joinC]
  | cons b bs ih => rw [joinC, ih b]; simp

theorem intercalate_comma_data (ss : List String) :
    (String.intercalate "," ss).data = joinC (ss.map String.data) := by
  match ss with
  | [] => rfl
  | a :: as =>
    rw [String.intercalate, intercalate_go_data, List.map_cons, joinC_cons]
    simp only [String.data]
    rw [List.map_map]
    rfl

theorem typeStringList_eq_map (cs : List ABIType) :
    typeStringList cs = cs.map ABIType.typeString := by
  induction cs with
  | nil => rfl
  | cons c cs ih => rw [typeStringList, ih, List.map_cons]

theorem typeStrData_uint (cs : List ABIType) (b p l : Nat) :
    typeStrData (.mk .uint cs b p l) = "uint".data ++ decDigits b := by
  show ("uint" ++ decString b).data = _
  rw [String.data_append]
  rfl

theorem typeStrData_byte (cs : List ABIType) (b p l : Nat) :
    typeStrData (.mk .byte cs b p l) = "byte".data := rfl

theorem typeStrData_ufixed (cs : List ABIType) (b p l : Nat) :
    typeStrData (.mk .ufixed cs b p l) =
      "ufixed".data ++ (decDigits b ++ ('x' :: decDigits p)) := by
  show ("ufixed" ++ decString b ++ "x" ++ decString p).data = _
  rw [String.data_append, String.data_append, String.data_append]
  simp [decString]

theorem typeStrData_bool (cs : List ABIType) (b p l : Nat) :
    typeStrData (.mk .bool cs b p l) = "bool".data := rfl

theorem typeStrData_address (cs : List ABIType) (b p l : Nat) :
    typeStrData (.mk .address cs b p l) = "address".data := rfl

theorem typeStrData_string (cs : List ABIType) (b p l : Nat) :
    typeStrData (.mk .string cs b p l) = "string".data := rfl

theorem typeStrData_arrayStatic (c : ABIType) (cs : List ABIType) (b p l : Nat) :
    typeStrData (.mk .arrayStatic (c :: cs) b p l) =
      typeStrData c ++ ('[' :: (decDigits l ++ [']'])) := by
  show ((ABIType.typeString c) ++ "[" ++ decString l ++ "]").data = _
  rw [String.data_append, String.data_append, String.data_append]
  simp [decString, typeStrData]

theorem typeStrData_arrayDynamic (c : ABIType) (cs : List ABIType) (b p l : Nat) :
    typeStrData (.mk .arrayDynamic (c :: cs) b p l) =
      typeStrData c ++ ['[', ']'] := by
  show ((ABIType.typeString c) ++ "[]").data = _
  rw [String.data_append]
  rfl

theorem typeStrData_tuple (cs : List ABIType) (b p l : Nat) :
    typeStrData (.mk .tuple cs b p l) =
      '(' :: (joinC (cs.map typeStrData) ++ [')']) := by
  show ("(" ++ String.intercalate "," (typeStringList cs) ++ ")").data = _
  rw [String.data_append, String.data_append, intercalate_comma_data,
    typeStringList_eq_map, List.map_map]
  rfl

/- ---- depthAfter and plainChars lemmas ---- -/

theorem depthAfter_cons (c : Char) (rest : List Char) (d : Nat) :
    depthAfter (c :: rest) d =
      (if c = '(' then depthAfter rest (d + 1)
       else if c = ')' then
         match d with
         | 0 => none
         | e + 1 => depthAfter rest e
       else depthAfter rest d) := rfl

theorem depthAfter_append (A B : List Char) (d : Nat) :
    depthAfter (A ++ B) d = (depthAfter A d).bind (depthAfter B) := by
  induction A generalizing d with
  | nil => rfl
  | cons c A ih =>
    rw [List.cons_append, depthAfter_cons, depthAfter_cons]
    by_cases h1 : c = '('
    · rw [if_pos h1, if_pos h1, ih]
    · rw [if_neg h1, if_neg h1]
      by_cases h2 : c = ')'
      · rw [if_pos h2, if_pos h2]
        match d with
        | 0 => rfl
        | e + 1 => exact ih e
      · rw [if_neg h2, if_neg h2, ih]

theorem depthAfter_shift (A : List Char) (d e k : Nat)
    (h : depthAfter A d = some e) : depthAfter A (d + k) = some (e + k) := by
  induction A generalizing d e with
  | nil =>
    simp only [depthAfter, Option.some_inj] at h ⊢
    omega
  | cons c A ih =>
    rw [depthAfter_cons] at h ⊢
    by_cases h1 : c = '('
    · rw [if_pos h1] at h ⊢
      have := ih (d + 1) e h
      rw [show d + 1 + k = d + k + 1 by omega] at this
      exact this
    · rw [if_neg h1] at h ⊢
      by_cases h2 : c = ')'
      · rw [if_pos h2] at h ⊢
        match d, h with
        | e' + 1, h =>
          rw [show e' + 1 + k = e' + k + 1 by omega]
          exact ih e' e h
      · rw [if_neg h2] at h ⊢
        exact ih d e h

theorem depthAfter_plain (A : List Char) (d : Nat)
    (h : ∀ c ∈ A, c ≠ '(' ∧ c ≠ ')') : depthAfter A d = some d := by
  induction A generalizing d with
  | nil => rfl
  | cons c A ih =>
    rw [depthAfter_cons, if_neg (h c (by simp)).1, if_neg (h c (by simp)).2]
    exact ih d fun x hx => h x (by simp [hx])

theorem plainChars_mem (l : List Char) (c : Char) (h : plainChars l = true) (hc : c ∈ l) :
    c ≠ '(' ∧ c ≠ ')' ∧ c ≠ ',' := by
  rw [plainChars, List.all_eq_true] at h
  have := h c hc
  simp at this
  tauto

theorem plainChars_append (A B : List Char) (hA : plainChars A = true)
    (hB : plainChars B = true) : plainChars (A ++ B) = true := by
  rw [plainChars, List.all_append]
  rw [plainChars] at hA hB
  rw [hA, hB]
  rfl

theorem elemOk_depthAfter (E : List Char) (h : elemOk E) : depthAfter E 0 = some 0 := by
  rcases h with ⟨-, hp | ⟨M, Q, rfl, hM, hQ⟩⟩
  · exact depthAfter_plain E 0 fun c hc =>
      ⟨(plainChars_mem E c hp hc).1, (plainChars_mem E c hp hc).2.1⟩
  · rw [depthAfter, if_pos rfl, depthAfter_append]
    have : depthAfter M 1 = some 1 := by
      have := depthAfter_shift M 0 0 1 hM
      simpa using this
    rw [this]
    show depthAfter (')' :: Q) 1 = some 0
    rw [depthAfter_cons, if_neg (by decide), if_pos rfl]
    exact depthAfter_plain Q 0 fun c hc =>
      ⟨(plainChars_mem Q c hQ hc).1, (plainChars_mem Q c hQ hc).2.1⟩

theorem depthAfter_joinC (es : List (List Char)) (h : ∀ e ∈ es, elemOk e) :
    depthAfter (joinC es) 0 = some 0 := by
  match es with
  | [] => rfl
  | [x] => exact elemOk_depthAfter x (h x (by simp))
  | x :: y :: xs =>
    rw [joinC, depthAfter_append, elemOk_depthAfter x (h x (by simp))]
    show depthAfter (',' :: joinC (y :: xs)) 0 = some 0
    rw [depthAfter_cons, if_neg (by decide), if_neg (by decide)]
    exact depthAfter_joinC (y :: xs) fun e he => h e (by simp at he ⊢; tauto)

/- ---- character class helpers ---- -/

theorem digit_plain (c : Char) (h : c.isDigit = true) :
    c ≠ '(' ∧ c ≠ ')' ∧ c ≠ ',' ∧ c ≠ '[' ∧ c ≠ ']' ∧ c ≠ 'x' := by
  have hn : 48 ≤ c.toNat ∧ c.toNat ≤ 57 := by
    simp [Char.isDigit] at h
    exact ⟨h.1, h.2⟩
  refine ⟨?_, ?_, ?_, ?_, ?_, ?_⟩ <;>
    (intro he; subst he; revert hn; decide)

theorem digit_isTypeChar (c : Char) (h : c.isDigit = true) : isTypeChar c = true := by
  simp [isTypeChar]
  tauto

/- ---- charset of printed types ---- -/

theorem all_isTypeChar_decDigits (n : Nat) : (decDigits n).all isTypeChar = true := by
  rw [List.all_eq_true]
  intro c hc
  exact digit_isTypeChar c (decDigits_all_digit n c hc)

theorem all_isTypeChar_joinC (es : List (List Char))
    (h : ∀ e ∈ es, e.all isTypeChar = true) : (joinC es).all isTypeChar = true := by
  match es with
  | [] => rfl
  | [x] => exact h x (by simp)
  | x :: y :: xs =>
    rw [joinC, List.all_append, h x (by simp), Bool.true_and]
    show (isTypeChar ',' && (joinC (y :: xs)).all isTypeChar) = true
    rw [all_isTypeChar_joinC (y :: xs) fun e he => h e (by simp at he ⊢; tauto)]
    rfl

theorem typeStrData_all_isTypeChar (t : ABIType) (h : TWF t) :
    (typeStrData t).all isTypeChar = true := by
  induction h with
  | uint b h1 h2 h3 =>
    rw [typeStrData_uint]
    simp only [List.all_append, all_isTypeChar_decDigits]
    decide
  | byte => rfl
  | ufixed b p h1 h2 h3 h4 h5 =>
    rw [typeStrData_ufixed]
    simp only [List.all_append, List.all_cons, all_isTypeChar_decDigits]
    decide
  | bool => rfl
  | address => rfl
  | string => rfl
  | arrayStatic c l hc h1 h2 ihc =>
    rw [typeStrData_arrayStatic]
    simp only [List.all_append, List.all_cons, all_isTypeChar_decDigits, ihc]
    decide
  | arrayDynamic c hc ihc =>
    rw [typeStrData_arrayDynamic]
    simp only [List.all_append, ihc]
    decide
  | tuple cs hcs hlen ih =>
    rw [typeStrData_tuple]
    have hjoin : (joinC (cs.map typeStrData)).all isTypeChar = true := by
      refine all_isTypeChar_joinC _ ?_
      intro e he
      rw [List.mem_map] at he
      obtain ⟨c, hc, rfl⟩ := he
      exact ih c hc
    simp only [List.all_cons, List.all_append, hjoin]
    decide

/- ---- elemOk of printed types ---- -/

theorem plainChars_decDigits (n : Nat) : plainChars (decDigits n) = true := by
  rw [plainChars, List.all_eq_true]
  intro c hc
  have := digit_plain c (decDigits_all_digit n c hc)
  simp
  tauto

theorem typeStrData_ne_nil (t : ABIType) (h : TWF t) : typeStrData t ≠ [] := by
  induction h with
  | uint b h1 h2 h3 => rw [typeStrData_uint]; simp
  | byte => decide
  | ufixed b p h1 h2 h3 h4 h5 => rw [typeStrData_ufixed]; simp
  | bool => decide
  | address => decide
  | string => decide
  | arrayStatic c l hc h1 h2 ihc => rw [typeStrData_arrayStatic]; simp
  | arrayDynamic c hc ihc => rw [typeStrData_arrayDynamic]; simp
  | tuple cs hcs hlen ih => rw [typeStrData_tuple]; simp

theorem typeStrData_elemOk (t : ABIType) (h : TWF t) : elemOk (typeStrData t) := by
  induction h with
  | uint b h1 h2 h3 =>
    refine ⟨by rw [typeStrData_uint]; simp, Or.inl ?_⟩
    rw [typeStrData_uint]
    exact plainChars_append _ _ (by decide) (plainChars_decDigits b)
  | byte => exact ⟨by decide, Or.inl (by decide)⟩
  | ufixed b p h1 h2 h3 h4 h5 =>
    refine ⟨by rw [typeStrData_ufixed]; simp, Or.inl ?_⟩
    rw [typeStrData_ufixed]
    have hx : plainChars ('x' :: decDigits p) = true := by
      rw [show ('x' :: decDigits p) = ['x'] ++ decDigits p from rfl]
      exact plainChars_append _ _ (by decide) (plainChars_decDigits p)
    exact plainChars_append _ _ (by decide)
      (plainChars_append _ _ (plainChars_decDigits b) hx)
  | bool => exact ⟨by decide, Or.inl (by decide)⟩
  | address => exact ⟨by decide, Or.inl (by decide)⟩
  | string => exact ⟨by decide, Or.inl (by decide)⟩
  | arrayStatic c l hc h1 h2 ihc =>
    refine ⟨by rw [typeStrData_arrayStatic]; simp, ?_⟩
    have hsuf : plainChars ('[' :: (decDigits l ++ [']'])) = true := by
      rw [show ('[' :: (decDigits l ++ [']'])) = ['['] ++ (decDigits l ++ [']']) from rfl]
      exact plainChars_append _ _ (by decide)
        (plainChars_append _ _ (plainChars_decDigits l) (by decide))
    rcases ihc with ⟨hne, hplain | ⟨M, Q, hEq, hM, hQ⟩⟩
    · refine Or.inl ?_
      rw [typeStrData_arrayStatic]
      exact plainChars_append _ _ hplain hsuf
    · refine Or.inr ⟨M, Q ++ ('[' :: (decDigits l ++ [']'])), ?_, hM,
        plainChars_append _ _ hQ hsuf⟩
      rw [typeStrData_arrayStatic, hEq]
      simp
  | arrayDynamic c hc ihc =>
    refine ⟨by rw [typeStrData_arrayDynamic]; simp, ?_⟩
    have hsuf : plainChars ['[', ']'] = true := by decide
    rcases ihc with ⟨hne, hplain | ⟨M, Q, hEq, hM, hQ⟩⟩
    · refine Or.inl ?_
      rw [typeStrData_arrayDynamic]
      exact plainChars_append _ _ hplain hsuf
    · refine Or.inr ⟨M, Q ++ ['[', ']'], ?_, hM, plainChars_append _ _ hQ hsuf⟩
      rw [typeStrData_arrayDynamic, hEq]
      simp
  | tuple cs hcs hlen ih =>
    refine ⟨by rw [typeStrData_tuple]; simp, ?_⟩
    refine Or.inr ⟨joinC (cs.map typeStrData), [], ?_, ?_, by decide⟩
    · rw [typeStrData_tuple]
    · refine depthAfter_joinC _ ?_
      intro e he
      rw [List.mem_map] at he
      obtain ⟨c, hc, rfl⟩ := he
      exact ih c hc

/- ---- scanSegsF lemmas ---- -/

theorem scanSegsF_nil (f : Nat) (idx : Nat) (stack : List Nat) (acc : List (Nat × Nat)) :
    scanSegsF (f + 1) [] idx stack acc =
      (if stack.isEmpty then .ok acc.reverse else .error "unpaired parentheses") := rfl

theorem scanSegsF_cons (f : Nat) (c : Char) (rest : List Char) (idx : Nat)
    (stack : List Nat) (acc : List (Nat × Nat)) :
    scanSegsF (f + 1) (c :: rest) idx stack acc =
      (if c = '(' then scanSegsF f rest (idx + 1) (idx :: stack) acc
       else if c = ')' then
         match stack with
         | [] => .error "unpaired parentheses"
         | leftParenIndex :: stack' =>
           if stack'.isEmpty then
             let ext := (rest.takeWhile fun d => d ≠ ',').length
             scanSegsF f (rest.drop ext) (idx + 1 + ext) stack'
               ((leftParenIndex, idx + ext) :: acc)
           else scanSegsF f rest (idx + 1) stack' acc
       else scanSegsF f rest (idx + 1) stack acc) := rfl

theorem scanSegsF_fuel (n : Nat) : ∀ cs : List Char, cs.length ≤ n →
    ∀ f g idx stack acc, cs.length < f → cs.length < g →
    scanSegsF f cs idx stack acc = scanSegsF g cs idx stack acc := by
  induction n with
  | zero =>
    intro cs hn f g idx stack acc hf hg
    match cs, hn with
    | [], _ =>
      match f, hf, g, hg with
      | f + 1, _, g + 1, _ => rfl
  | succ n ih =>
    intro cs hn f g idx stack acc hf hg
    match cs with
    | [] =>
      match f, hf, g, hg with
      | f + 1, _, g + 1, _ => rfl
    | c :: rest =>
      match f, hf, g, hg with
      | f + 1, hf, g + 1, hg =>
        rw [scanSegsF_cons, scanSegsF_cons]
        simp only [List.length_cons] at hf hg hn
        by_cases h1 : c = '('
        · rw [if_pos h1, if_pos h1]
          exact ih rest (by omega) f g _ _ _ (by omega) (by omega)
        · rw [if_neg h1, if_neg h1]
          by_cases h2 : c = ')'
          · rw [if_pos h2, if_pos h2]
            match stack with
            | [] => rfl
            | lp :: stack' =>
              by_cases h3 : stack'.isEmpty
              · simp only [h3, if_pos]
                have hd : (rest.drop (rest.takeWhile fun d => d ≠ ',').length).length ≤
                    rest.length := by
                  rw [List.length_drop]
                  omega
                exact ih _ (by omega) f g _ _ _ (by omega) (by omega)
              · simp only [h3, if_neg, Bool.false_eq_true, not_false_eq_true]
                exact ih rest (by omega) f g _ _ _ (by omega) (by omega)
          · rw [if_neg h2, if_neg h2]
            exact ih rest (by omega) f g _ _ _ (by omega) (by omega)

theorem scanSegsF_plain (A : List Char) (h : ∀ c ∈ A, c ≠ '(' ∧ c ≠ ')') :
    ∀ (f : Nat) (rest : List Char) (idx : Nat) (stack : List Nat) (acc : List (Nat × Nat)),
    scanSegsF (A.length + f) (A ++ rest) idx stack acc =
      scanSegsF f rest (idx + A.length) stack acc := by
  induction A with
  | nil =>
    intro f rest idx stack acc
    simp
  | cons c A ih =>
    intro f rest idx stack acc
    rw [List.cons_append, show (c :: A).length + f = (A.length + f) + 1 by simp; omega,
      scanSegsF_cons, if_neg (h c (by simp)).1, if_neg (h c (by simp)).2,
      ih (fun x hx => h x (by simp [hx])) f rest (idx + 1) stack acc]
    congr 1
    simp
    omega

theorem scanSegsF_inner (M : List Char) :
    ∀ (d : Nat), depthAfter M d = some 0 →
    ∀ (f : Nat) (rest : List Char) (idx : Nat) (extra S : List Nat) (acc : List (Nat × Nat)),
    extra.length = d → S ≠ [] →
    scanSegsF (M.length + f) (M ++ rest) idx (extra ++ S) acc =
      scanSegsF f rest (idx + M.length) S acc := by
  induction M with
  | nil =>
    intro d hd f rest idx extra S acc hlen hS
    simp only [depthAfter, Option.some_inj] at hd
    subst hd
    rw [List.length_eq_zero] at hlen
    subst hlen
    simp
  | cons c M ih =>
    intro d hd f rest idx extra S acc hlen hS
    rw [depthAfter_cons] at hd
    rw [List.cons_append, show (c :: M).length + f = (M.length + f) + 1 by simp; omega,
      scanSegsF_cons]
    by_cases h1 : c = '('
    · rw [if_pos h1]
      rw [if_pos h1] at hd
      have := ih (d + 1) hd f rest (idx + 1) (idx :: extra) S acc (by simp [hlen]) hS
      rw [show (idx :: extra) ++ S = idx :: (extra ++ S) from rfl] at this
      rw [this]
      congr 1
      simp
      omega
    · rw [if_neg h1]
      rw [if_neg h1] at hd
      by_cases h2 : c = ')'
      · rw [if_pos h2]
        rw [if_pos h2] at hd
        match d, hd with
        | e + 1, hd =>
          match extra, hlen with
          | a :: extra', hlen =>
            rw [show (a :: extra') ++ S = a :: (extra' ++ S) from rfl]
            simp only []
            have hne : ¬ ((extra' ++ S).isEmpty = true) := by
              simp
              intro h3
              exact hS
            rw [if_neg hne]
            have := ih e hd f rest (idx + 1) extra' S acc (by simpa using hlen) hS
            rw [this]
            congr 1
            simp
            omega
      · rw [if_neg h2]
        rw [if_neg h2] at hd
        have := ih d hd f rest (idx + 1) extra S acc hlen hS
        rw [this]
        congr 1
        simp
        omega

/- ---- element step and full scan ---- -/

def segsOf : List (List Char) → Nat → List (Nat × Nat)
  | [], _ => []
  | e :: es, idx =>
    (if e.head? = some '(' then [(idx, idx + e.length - 1)] else []) ++
      segsOf es (idx + e.length + 1)

theorem scanSegsF_elem_step (e sep : List Char) (he : elemOk e)
    (hsep : sep = [] ∨ ∃ r, sep = ',' :: r) (f idx : Nat) (acc : List (Nat × Nat))
    (hf : sep.length ≤ f) :
    scanSegsF (e.length + 1 + f) (e ++ sep) idx [] acc =
      scanSegsF (1 + f) sep (idx + e.length) []
        (if e.head? = some '(' then (idx, idx + e.length - 1) :: acc else acc) := by
  rcases he with ⟨hne, hp | ⟨M, Q, rfl, hM, hQ⟩⟩
  · have hhead : ¬ (e.head? = some '(') := by
      match e, hne with
      | c :: e', _ =>
        have := plainChars_mem _ c hp (by simp)
        simp only [List.head?_cons, Option.some_inj]
        exact this.1
    rw [if_neg hhead, show e.length + 1 + f = e.length + (1 + f) by omega]
    exact scanSegsF_plain e
      (fun c hc => ⟨(plainChars_mem _ c hp hc).1, (plainChars_mem _ c hp hc).2.1⟩)
      (1 + f) sep idx [] acc
  · rw [if_pos (show ('(' :: (M ++ ')' :: Q)).head? = some '(' from rfl)]
    have hql : ('(' :: (M ++ ')' :: Q)).length = M.length + Q.length + 2 := by
      simp
      omega
    rw [hql]
    rw [show ('(' :: (M ++ ')' :: Q)) ++ sep = '(' :: (M ++ (')' :: (Q ++ sep))) by simp]
    rw [show M.length + Q.length + 2 + 1 + f = (M.length + (Q.length + 2 + f)) + 1 by omega]
    rw [scanSegsF_cons, if_pos rfl]
    have hinner := scanSegsF_inner M 0 hM (Q.length + 2 + f) (')' :: (Q ++ sep))
      (idx + 1) [] [idx] acc rfl (by simp)
    rw [show ([] : List Nat) ++ [idx] = [idx] from rfl] at hinner
    rw [hinner]
    rw [show Q.length + 2 + f = (Q.length + 1 + f) + 1 by omega, scanSegsF_cons,
      if_neg (by decide), if_pos rfl]
    simp only [List.isEmpty_nil, if_pos]
    have htw : ((Q ++ sep).takeWhile fun d => d ≠ ',').length = Q.length := by
      have hQ' : ∀ c ∈ Q, (fun d => decide (d ≠ ',')) c = true := by
        intro c hc
        simp
        exact (plainChars_mem _ c hQ hc).2.2
      rw [List.takeWhile_append_of_pos hQ']
      rcases hsep with rfl | ⟨r, rfl⟩
      · simp
      · simp [List.takeWhile]
    rw [htw]
    rw [List.drop_append_of_le_length (by omega), List.drop_length, List.nil_append]
    have hfuel : scanSegsF (Q.length + 1 + f) sep (idx + 1 + M.length + 1 + Q.length) []
        ((idx, idx + 1 + M.length + Q.length) :: acc) =
        scanSegsF (1 + f) sep (idx + 1 + M.length + 1 + Q.length) []
        ((idx, idx + 1 + M.length + Q.length) :: acc) := by
      exact scanSegsF_fuel sep.length sep (le_refl _) _ _ _ _ _ (by omega) (by omega)
    rw [hfuel]
    congr 1
    · omega
    · congr 2
      omega

theorem scanSegsF_joinC (es : List (List Char)) (h : ∀ e ∈ es, elemOk e) :
    ∀ (f idx : Nat) (acc : List (Nat × Nat)),
    scanSegsF ((joinC es).length + 1 + f) (joinC es) idx [] acc =
      .ok (acc.reverse ++ segsOf es idx) := by
  match es with
  | [] =>
    intro f idx acc
    rw [show joinC [] = [] from rfl]
    simp only [List.length_nil, Nat.zero_add]
    rw [show 1 + f = f + 1 by omega, scanSegsF_nil]
    simp [segsOf]
  | [e] =>
    intro f idx acc
    rw [show joinC [e] = e from rfl]
    have := scanSegsF_elem_step e [] (h e (by simp)) (Or.inl rfl) f idx acc (by simp)
    rw [List.append_nil] at this
    rw [show e.length + 1 + f = e.length + 1 + f from rfl, this]
    rw [show 1 + f = f + 1 by omega, scanSegsF_nil]
    simp only [List.isEmpty_nil, if_pos]
    by_cases hh : e.head? = some '('
    · rw [if_pos hh]
      simp [segsOf, hh]
    · rw [if_neg hh]
      simp [segsOf, hh]
  | e :: e' :: es' =>
    intro f idx acc
    rw [joinC]
    have hlen : (e ++ ',' :: joinC (e' :: es')).length =
        e.length + 1 + (joinC (e' :: es')).length := by
      simp
      omega
    rw [hlen]
    have hstep := scanSegsF_elem_step e (',' :: joinC (e' :: es')) (h e (by simp))
      (Or.inr ⟨_, rfl⟩) ((joinC (e' :: es')).length + 1 + f) idx acc (by simp)
    rw [show e.length + 1 + (joinC (e' :: es')).length + 1 + f =
      e.length + 1 + ((joinC (e' :: es')).length + 1 + f) by omega, hstep]
    rw [show 1 + ((joinC (e' :: es')).length + 1 + f) =
      ((joinC (e' :: es')).length + 1 + f) + 1 by omega, scanSegsF_cons,
      if_neg (by decide), if_neg (by decide)]
    rw [scanSegsF_joinC (e' :: es') (fun x hx => h x (by simp at hx ⊢; tauto))]
    rw [show segsOf (e :: e' :: es') idx =
      (if e.head? = some '(' then [(idx, idx + e.length - 1)] else []) ++
        segsOf (e' :: es') (idx + e.length + 1) from rfl]
    by_cases hh : e.head? = some '('
    · rw [if_pos hh, if_pos hh]
      simp
    · rw [if_neg hh, if_neg hh]
      simp

/- ---- removeSegs / splitComma / restoreSegs lemmas ---- -/

theorem segsOf_shift (es : List (List Char)) :
    ∀ j k, segsOf es (j + k) = (segsOf es j).map fun s => (s.1 + k, s.2 + k) := by
  induction es with
  | nil => intro j k; rfl
  | cons e es ih =>
    intro j k
    rw [segsOf, segsOf, List.map_append]
    congr 1
    · by_cases hh : e.head? = some '('
      · rw [if_pos hh, if_pos hh]
        have hne : e ≠ [] := by
          intro h; rw [h] at hh; simp at hh
        have hlen : 1 ≤ e.length := by
          cases e
          · exact absurd rfl hne
          · simp
        simp only [List.map_cons, List.map_nil]
        congr 2 <;> omega
      · rw [if_neg hh, if_neg hh]
        rfl
    · rw [show j + k + e.length + 1 = (j + e.length + 1) + k by omega, ih]

theorem removeSegs_cons (cs : List Char) (s : Nat × Nat) (segs : List (Nat × Nat)) :
    removeSegs cs (s :: segs) =
      (removeSegs cs segs).take s.1 ++ (removeSegs cs segs).drop (s.2 + 1) := rfl

theorem removeSegs_append_shift (A B : List Char) (segs : List (Nat × Nat)) :
    removeSegs (A ++ B) (segs.map fun s => (s.1 + A.length, s.2 + A.length)) =
      A ++ removeSegs B segs := by
  induction segs with
  | nil => rfl
  | cons s segs ih =>
    rw [List.map_cons, removeSegs_cons, removeSegs_cons, ih]
    rw [show s.1 + A.length = A.length + s.1 by omega,
      show (s.1 + A.length, s.2 + A.length).2 + 1 = A.length + (s.2 + 1) by simp; omega]
    rw [List.take_append, List.drop_append]
    simp

theorem removeSegs_split (cs : List Char) (s1 s2 : List (Nat × Nat)) :
    removeSegs cs (s1 ++ s2) = removeSegs (removeSegs cs s2) s1 :=
  List.foldr_append _ _ _ _

theorem segsOf_cons (e : List Char) (es : List (List Char)) (idx : Nat) :
    segsOf (e :: es) idx =
      (if e.head? = some '(' then [(idx, idx + e.length - 1)] else []) ++
        segsOf es (idx + e.length + 1) := rfl

theorem length_pos_of_head (e : List Char) (c : Char) (hh : e.head? = some c) :
    1 ≤ e.length := by
  cases e
  · simp at hh
  · simp

theorem removeSegs_joinC (es : List (List Char)) (h : ∀ e ∈ es, elemOk e) :
    removeSegs (joinC es) (segsOf es 0) =
      joinC (es.map fun e => if e.head? = some '(' then [] else e) := by
  match es with
  | [] => rfl
  | [e] =>
    rw [show joinC [e] = e from rfl, segsOf_cons, show segsOf [] (0 + e.length + 1) = []
      from rfl, List.append_nil]
    by_cases hh : e.head? = some '('
    · rw [if_pos hh, removeSegs_cons]
      have hlen : 1 ≤ e.length := length_pos_of_head e '(' hh
      rw [show removeSegs e [] = e from rfl]
      simp only [List.take_zero, List.nil_append]
      rw [show (0 : Nat) + e.length - 1 + 1 = e.length by omega, List.drop_length]
      simp only [List.map_cons, List.map_nil, if_pos hh]
      rfl
    · rw [if_neg hh]
      simp only [List.map_cons, List.map_nil, if_neg hh]
      rfl
  | e :: e' :: es' =>
    have hJ := removeSegs_joinC (e' :: es') (fun x hx => h x (by simp at hx ⊢; tauto))
    rw [joinC, segsOf_cons]
    rw [show (0 : Nat) + e.length + 1 = 0 + (e.length + 1) by omega,
      segsOf_shift (e' :: es') 0 (e.length + 1)]
    rw [removeSegs_split]
    rw [show e ++ ',' :: joinC (e' :: es') = (e ++ [',']) ++ joinC (e' :: es') by simp]
    rw [show e.length + 1 = (e ++ [',']).length by simp, removeSegs_append_shift, hJ]
    by_cases hh : e.head? = some '('
    · rw [if_pos hh, removeSegs_cons, show removeSegs ((e ++ [',']) ++
        joinC (List.map (fun e => if e.head? = some '(' then [] else e) (e' :: es'))) [] =
        (e ++ [',']) ++
        joinC (List.map (fun e => if e.head? = some '(' then [] else e) (e' :: es'))
        from rfl]
      have hlen : 1 ≤ e.length := length_pos_of_head e '(' hh
      simp only [List.take_zero, List.nil_append]
      rw [show (0 : Nat) + e.length - 1 + 1 = e.length by omega]
      rw [show (e ++ [',']) ++
        joinC (List.map (fun e => if e.head? = some '(' then [] else e) (e' :: es')) =
        e ++ (',' :: joinC (List.map (fun e => if e.head? = some '(' then [] else e)
          (e' :: es'))) by simp]
      rw [show e.length = e.length + 0 by omega, List.drop_append, List.drop_zero]
      simp only [List.map_cons, if_pos hh]
      rw [joinC_cons, joinC_cons]
      simp
    · rw [if_neg hh, show removeSegs ((e ++ [',']) ++
        joinC (List.map (fun e => if e.head? = some '(' then [] else e) (e' :: es'))) [] =
        (e ++ [',']) ++
        joinC (List.map (fun e => if e.head? = some '(' then [] else e) (e' :: es'))
        from rfl]
      simp only [List.map_cons, if_neg hh]
      rw [joinC_cons, joinC_cons]
      simp

theorem splitComma_commafree (p : List Char) (h : ∀ c ∈ p, c ≠ ',') :
    splitComma p = [p] := by
  induction p with
  | nil => rfl
  | cons c rest ih =>
    rw [splitComma.eq_def]
    split
    · rename_i heq; simp at heq
    · rename_i heq
      rw [List.cons_eq_cons] at heq
      exact absurd heq.1 (h c (by simp))
    · rename_i c2 r2 heq
      rw [List.cons_eq_cons] at heq
      rw [← heq.1, ← heq.2, ih fun x hx => h x (by simp [hx])]

theorem splitComma_append (A B : List Char) (h : ∀ c ∈ A, c ≠ ',') :
    splitComma (A ++ ',' :: B) = A :: splitComma B := by
  induction A with
  | nil => rfl
  | cons c A ih =>
    rw [List.cons_append, splitComma.eq_def]
    split
    · rename_i heq; simp at heq
    · rename_i heq
      rw [List.cons_eq_cons] at heq
      exact absurd heq.1 (h c (by simp))
    · rename_i c2 r2 heq
      rw [List.cons_eq_cons] at heq
      rw [← heq.1, ← heq.2, ih fun x hx => h x (by simp [hx])]

theorem splitComma_joinC (ps : List (List Char)) (h : ∀ p ∈ ps, ∀ c ∈ p, c ≠ ',') :
    ps ≠ [] → splitComma (joinC ps) = ps := by
  match ps with
  | [] => intro hne; exact absurd rfl hne
  | [p] =>
    intro hne
    rw [show joinC [p] = p from rfl, splitComma_commafree p (h p (by simp))]
  | p :: q :: ps' =>
    intro hne
    rw [joinC, splitComma_append p _ (h p (by simp)),
      splitComma_joinC (q :: ps') (fun x hx => h x (by simp at hx ⊢; tauto)) (by simp)]

theorem sliceChars_shift (A B : List Char) (l r : Nat) :
    sliceChars (A ++ B) (l + A.length) (r + A.length) = sliceChars B l r := by
  rw [sliceChars, sliceChars]
  rw [show r + A.length + 1 = A.length + (r + 1) by omega, List.take_append]
  rw [show l + A.length = A.length + l by omega, List.drop_append]

theorem restoreSegs_cons (cs : List Char) (piece : List Char) (pieces : List (List Char))
    (segs : List (Nat × Nat)) :
    restoreSegs cs (piece :: pieces) segs =
      (if piece.isEmpty then
        match segs with
        | seg :: segs' =>
          (match restoreSegs cs pieces segs' with
           | .ok r => .ok (sliceChars cs seg.1 seg.2 :: r)
           | .error e => .error e)
        | [] => .error "panic: index out of range"
      else
        match restoreSegs cs pieces segs with
        | .ok r => .ok (piece :: r)
        | .error e => .error e) := rfl

theorem restoreSegs_shift (A B : List Char) :
    ∀ (pieces : List (List Char)) (segs : List (Nat × Nat)),
    restoreSegs (A ++ B) pieces (segs.map fun s => (s.1 + A.length, s.2 + A.length)) =
      restoreSegs B pieces segs := by
  intro pieces
  induction pieces with
  | nil => intro segs; rfl
  | cons piece pieces ih =>
    intro segs
    rw [restoreSegs_cons, restoreSegs_cons]
    by_cases hp : piece.isEmpty
    · rw [if_pos hp, if_pos hp]
      match segs with
      | [] => rfl
      | seg :: segs' =>
        rw [List.map_cons]
        simp only []
        rw [ih segs']
        match restoreSegs B pieces segs' with
        | .ok r => simp only []; rw [sliceChars_shift]
        | .error e => rfl
    · rw [if_neg hp, if_neg hp, ih segs]

theorem restoreSegs_joinC (es : List (List Char)) (h : ∀ e ∈ es, elemOk e) :
    restoreSegs (joinC es) (es.map fun e => if e.head? = some '(' then [] else e)
      (segsOf es 0) = .ok es := by
  match es with
  | [] => rfl
  | [e] =>
    rw [show joinC [e] = e from rfl, List.map_singleton, segsOf_cons,
      show segsOf [] (0 + e.length + 1) = [] from rfl, List.append_nil]
    by_cases hh : e.head? = some '('
    · rw [if_pos hh, if_pos hh, restoreSegs_cons, if_pos (by rfl)]
      simp only []
      rw [show restoreSegs e [] [] = .ok [] from rfl]
      simp only []
      have hlen : 1 ≤ e.length := length_pos_of_head e '(' hh
      rw [sliceChars, show (0 : Nat) + e.length - 1 + 1 = e.length by omega,
        List.take_length, List.drop_zero]
    · rw [if_neg hh, if_neg hh, restoreSegs_cons]
      have hne : e ≠ [] := (h e (by simp)).1
      rw [if_neg (by simpa using hne)]
      rw [show restoreSegs e [] [] = .ok [] from rfl]
  | e :: e' :: es' =>
    have hrec := restoreSegs_joinC (e' :: es') (fun x hx => h x (by simp at hx ⊢; tauto))
    rw [joinC, List.map_cons, segsOf_cons]
    rw [show (0 : Nat) + e.length + 1 = 0 + (e.length + 1) by omega,
      segsOf_shift (e' :: es') 0 (e.length + 1)]
    have hshift := restoreSegs_shift (e ++ [',']) (joinC (e' :: es'))
      ((e' :: es').map fun x => if x.head? = some '(' then [] else x)
      (segsOf (e' :: es') 0)
    rw [show (e ++ [',']).length = e.length + 1 by simp] at hshift
    have hstr : e ++ ',' :: joinC (e' :: es') = (e ++ [',']) ++ joinC (e' :: es') := by simp
    by_cases hh : e.head? = some '('
    · simp only [if_pos hh, List.singleton_append]
      rw [restoreSegs_cons, if_pos (by rfl)]
      simp only []
      rw [hstr, hshift, hrec]
      simp only []
      have hlen : 1 ≤ e.length := length_pos_of_head e '(' hh
      rw [sliceChars, show (0 : Nat) + e.length - 1 + 1 = e.length by omega]
      rw [List.take_append_of_le_length (by simp), List.take_append_of_le_length
        (by simp), List.take_length, List.drop_zero]
    · simp only [if_neg hh, List.nil_append]
      rw [restoreSegs_cons]
      have hne : e ≠ [] := (h e (by simp)).1
      rw [if_neg (by simpa using hne)]
      rw [hstr, hshift, hrec]

/- ---- hasCommaComma lemmas ---- -/

theorem hasCommaComma_nil : hasCommaComma [] = false := rfl

theorem hasCommaComma_one (c : Char) : hasCommaComma [c] = false := by
  rw [hasCommaComma.eq_2 c [] (by intro tail h1 h2; simp at h2), hasCommaComma.eq_3]

theorem hasCommaComma_two (c1 c2 : Char) (rest : List Char) :
    hasCommaComma (c1 :: c2 :: rest) =
      if c1 = ',' ∧ c2 = ',' then true else hasCommaComma (c2 :: rest) := by
  by_cases h : c1 = ',' ∧ c2 = ','
  · rw [if_pos h, h.1, h.2, hasCommaComma.eq_1]
  · rw [if_neg h]
    refine hasCommaComma.eq_2 c1 (c2 :: rest) ?_
    intro tail h1 h2
    rw [List.cons_eq_cons] at h2
    exact h ⟨h1, h2.1⟩

theorem hasCommaComma_no_comma (l : List Char) (h : ∀ c ∈ l, c ≠ ',') :
    hasCommaComma l = false := by
  match l with
  | [] => rfl
  | [c] => exact hasCommaComma_one c
  | c1 :: c2 :: rest =>
    rw [hasCommaComma_two, if_neg (fun hc => h c1 (by simp) hc.1)]
    exact hasCommaComma_no_comma (c2 :: rest) fun x hx => h x (by simp at hx ⊢; tauto)

theorem hasCommaComma_append (A B : List Char) (hA : hasCommaComma A = false)
    (hB : hasCommaComma B = false)
    (hbound : A.getLast? ≠ some ',' ∨ B.head? ≠ some ',') :
    hasCommaComma (A ++ B) = false := by
  match A with
  | [] => simpa using hB
  | [c] =>
    match B, hB with
    | [], _ => simpa using hA
    | b :: B', hB =>
      rw [List.singleton_append, hasCommaComma_two]
      rw [if_neg ?_]
      · exact hB
      · intro ⟨h1, h2⟩
        rcases hbound with h | h
        · exact h (by simp [h1])
        · exact h (by simp [h2])
  | a1 :: a2 :: A' =>
    rw [show (a1 :: a2 :: A') ++ B = a1 :: a2 :: (A' ++ B) by simp, hasCommaComma_two]
    rw [hasCommaComma_two] at hA
    by_cases hc : a1 = ',' ∧ a2 = ','
    · rw [if_pos hc] at hA
      simp at hA
    · rw [if_neg hc] at hA
      rw [if_neg hc, show a2 :: (A' ++ B) = (a2 :: A') ++ B by simp]
      refine hasCommaComma_append (a2 :: A') B hA hB ?_
      rcases hbound with h | h
      · left
        rwa [List.getLast?_cons_cons] at h
      · right
        exact h

/- ---- head and last characters of elements and joins ---- -/

theorem getLast?_append_right (A B : List Char) (hB : B ≠ []) :
    (A ++ B).getLast? = B.getLast? := by
  rw [List.getLast?_append]
  match B, hB with
  | b :: B', _ =>
    rw [List.getLast?_eq_getLast (b :: B') (by simp)]
    rfl

theorem getLast?_mem {α : Type} (l : List α) (hl : l ≠ []) :
    ∃ c, l.getLast? = some c ∧ c ∈ l := by
  rw [List.getLast?_eq_getLast l hl]
  exact ⟨l.getLast hl, rfl, List.getLast_mem hl⟩

theorem elemOk_head_ne_comma (e : List Char) (h : elemOk e) : e.head? ≠ some ',' := by
  rcases h with ⟨hne, hp | ⟨M, Q, rfl, hM, hQ⟩⟩
  · match e, hne with
    | c :: e', _ =>
      intro hEq
      simp only [List.head?_cons, Option.some_inj] at hEq
      exact (plainChars_mem _ c hp (by simp)).2.2 hEq
  · intro hEq
    simp only [List.head?_cons, Option.some_inj] at hEq
    exact absurd hEq (by decide)

theorem elemOk_getLast_ne_comma (e : List Char) (h : elemOk e) : e.getLast? ≠ some ',' := by
  rcases h with ⟨hne, hp | ⟨M, Q, rfl, hM, hQ⟩⟩
  · obtain ⟨c, hc, hmem⟩ := getLast?_mem e hne
    rw [hc]
    intro hEq
    simp only [Option.some_inj] at hEq
    exact (plainChars_mem _ c hp hmem).2.2 hEq
  · match Q with
    | [] =>
      rw [show '(' :: (M ++ ')' :: []) = ('(' :: M) ++ [')'] by simp,
        getLast?_append_right _ _ (by simp)]
      decide
    | q :: Q' =>
      rw [show '(' :: (M ++ ')' :: (q :: Q')) = ('(' :: M ++ [')']) ++ (q :: Q') by simp,
        getLast?_append_right _ _ (by simp)]
      obtain ⟨c, hc, hmem⟩ := getLast?_mem (q :: Q') (by simp)
      rw [hc]
      intro hEq
      simp only [Option.some_inj] at hEq
      exact (plainChars_mem _ c hQ hmem).2.2 hEq

theorem joinC_ne_nil (e : List Char) (es : List (List Char)) (he : e ≠ []) :
    joinC (e :: es) ≠ [] := by
  match es with
  | [] => exact he
  | e' :: es' =>
    rw [joinC]
    simp

theorem joinC_head? (e : List Char) (es : List (List Char)) (he : e ≠ []) :
    (joinC (e :: es)).head? = e.head? := by
  match es with
  | [] => rfl
  | e' :: es' =>
    rw [joinC]
    match e, he with
    | c :: e2, _ => rfl

theorem joinC_getLast? (es : List (List Char)) (e : List Char)
    (hlast : es.getLast? = some e) (hne : ∀ x ∈ es, x ≠ ([] : List Char)) :
    (joinC es).getLast? = e.getLast? := by
  match es with
  | [x] =>
    simp at hlast
    rw [show joinC [x] = x from rfl, hlast]
  | x :: y :: es' =>
    rw [List.getLast?_cons_cons] at hlast
    rw [joinC, getLast?_append_right _ _ (by simp)]
    have hrec : (joinC (y :: es')).getLast? = e.getLast? :=
      joinC_getLast? (y :: es') e hlast fun z hz => hne z (by simp at hz ⊢; tauto)
    rw [show ',' :: joinC (y :: es') = [','] ++ joinC (y :: es') from rfl]
    rw [getLast?_append_right _ _ (joinC_ne_nil y es' (hne y (by simp))), hrec]

theorem hasCommaComma_joinC (es : List (List Char))
    (h1 : ∀ e ∈ es, elemOk e) (h2 : ∀ e ∈ es, hasCommaComma e = false) :
    hasCommaComma (joinC es) = false := by
  match es with
  | [] => rfl
  | [e] => exact h2 e (by simp)
  | e :: e' :: es' =>
    rw [joinC, show e ++ ',' :: joinC (e' :: es') = (e ++ [',']) ++ joinC (e' :: es')
      by simp]
    refine hasCommaComma_append _ _ ?_ ?_ ?_
    · refine hasCommaComma_append e [','] (h2 e (by simp)) (hasCommaComma_one ',') ?_
      left
      exact elemOk_getLast_ne_comma e (h1 e (by simp))
    · exact hasCommaComma_joinC (e' :: es') (fun x hx => h1 x (by simp at hx ⊢; tauto))
        (fun x hx => h2 x (by simp at hx ⊢; tauto))
    · right
      rw [joinC_head? e' es' (h1 e' (by simp)).1]
      exact elemOk_head_ne_comma e' (h1 e' (by simp))

/- ---- parseTupleContent on a join of printed elements ---- -/

theorem elemOk_plain_of_head_ne (e : List Char) (h : elemOk e)
    (hh : e.head? ≠ some '(') : plainChars e = true := by
  rcases h with ⟨hne, hp | ⟨M, Q, rfl, hM, hQ⟩⟩
  · exact hp
  · exact absurd rfl hh

theorem parseTupleContent_joinC (es : List (List Char))
    (h1 : ∀ e ∈ es, elemOk e) (h2 : ∀ e ∈ es, hasCommaComma e = false) :
    parseTupleContent (joinC es) = .ok es := by
  match es with
  | [] => rfl
  | e :: es' =>
    have hne : joinC (e :: es') ≠ [] := joinC_ne_nil e es' (h1 e (by simp)).1
    rw [parseTupleContent]
    rw [if_neg (by simpa using hne)]
    rw [if_neg ?hcomma]
    case hcomma =>
      intro hor
      rcases hor with hlast | hhead
      · obtain ⟨lastE, hl, hlmem⟩ := getLast?_mem (e :: es') (by simp)
        rw [joinC_getLast? (e :: es') lastE hl (fun z hz => (h1 z hz).1)] at hlast
        exact elemOk_getLast_ne_comma lastE (h1 lastE hlmem) hlast
      · rw [joinC_head? e es' (h1 e (by simp)).1] at hhead
        exact elemOk_head_ne_comma e (h1 e (by simp)) hhead
    rw [if_neg (by simp [hasCommaComma_joinC (e :: es') h1 h2])]
    rw [show (joinC (e :: es')).length + 1 = (joinC (e :: es')).length + 1 + 0 by omega,
      scanSegsF_joinC (e :: es') h1 0 0 []]
    simp only [List.reverse_nil, List.nil_append]
    rw [removeSegs_joinC (e :: es') h1]
    rw [splitComma_joinC ((e :: es').map fun x => if x.head? = some '(' then [] else x) ?hcf
      (by simp)]
    case hcf =>
      intro p hp c hc
      rw [List.mem_map] at hp
      obtain ⟨x, hx, rfl⟩ := hp
      by_cases hh : x.head? = some '('
      · rw [if_pos hh] at hc
        simp at hc
      · rw [if_neg hh] at hc
        exact (plainChars_mem x c (elemOk_plain_of_head_ne x (h1 x hx) hh) hc).2.2
    exact restoreSegs_joinC (e :: es') h1

/- ---- bracket counting ---- -/

theorem depthAfter_count (l : List Char) :
    ∀ d e, depthAfter l d = some e → l.count '(' + d = l.count ')' + e := by
  induction l with
  | nil =>
    intro d e h
    simp only [depthAfter, Option.some_inj] at h
    simp [h]
  | cons c rest ih =>
    intro d e h
    rw [depthAfter_cons] at h
    by_cases h1 : c = '('
    · rw [if_pos h1] at h
      have := ih (d + 1) e h
      subst h1
      rw [List.count_cons_self, List.count_cons_of_ne (by decide)]
      omega
    · rw [if_neg h1] at h
      by_cases h2 : c = ')'
      · rw [if_pos h2] at h
        match d, h with
        | d + 1, h =>
          have := ih d e h
          subst h2
          rw [List.count_cons_self, List.count_cons_of_ne (by decide)]
          omega
      · rw [if_neg h2] at h
        have := ih d e h
        rw [List.count_cons_of_ne (fun hx => h1 hx.symm),
          List.count_cons_of_ne (fun hx => h2 hx.symm)]
        omega

theorem count_joinC (c : Char) (hc : c ≠ ',') (es : List (List Char)) :
    (joinC es).count c = (es.map (List.count c)).sum := by
  match es with
  | [] => rfl
  | [e] => simp [joinC]
  | e :: e' :: es' =>
    rw [joinC, List.count_append, List.count_cons_of_ne hc,
      count_joinC c hc (e' :: es'), List.map_cons, List.sum_cons]
    simp

theorem count_eq_zero_of_forall (c : Char) (l : List Char) (h : ∀ x ∈ l, x ≠ c) :
    l.count c = 0 := by
  rw [List.count_eq_zero]
  intro hmem
  exact h c hmem rfl

theorem typeStrData_bracket_count (t : ABIType) (h : TWF t) :
    (typeStrData t).count '[' = (typeStrData t).count ']' := by
  induction h with
  | uint b h1 h2 h3 =>
    rw [typeStrData_uint]
    rw [List.count_append, List.count_append]
    rw [count_eq_zero_of_forall '[' _ (fun x hx => (digit_plain x (decDigits_all_digit b x hx)).2.2.2.1),
      count_eq_zero_of_forall ']' _ (fun x hx => (digit_plain x (decDigits_all_digit b x hx)).2.2.2.2.1)]
    rfl
  | byte => rfl
  | ufixed b p h1 h2 h3 h4 h5 =>
    rw [typeStrData_ufixed]
    simp only [List.count_append, List.count_cons]
    rw [count_eq_zero_of_forall '[' _ (fun x hx => (digit_plain x (decDigits_all_digit b x hx)).2.2.2.1),
      count_eq_zero_of_forall ']' _ (fun x hx => (digit_plain x (decDigits_all_digit b x hx)).2.2.2.2.1),
      count_eq_zero_of_forall '[' _ (fun x hx => (digit_plain x (decDigits_all_digit p x hx)).2.2.2.1),
      count_eq_zero_of_forall ']' _ (fun x hx => (digit_plain x (decDigits_all_digit p x hx)).2.2.2.2.1)]
    rfl
  | bool => rfl
  | address => rfl
  | string => rfl
  | arrayStatic c l hc hl1 hl2 ihc =>
    rw [typeStrData_arrayStatic]
    simp only [List.count_append, List.count_cons]
    rw [count_eq_zero_of_forall '[' _ (fun x hx => (digit_plain x (decDigits_all_digit l x hx)).2.2.2.1),
      count_eq_zero_of_forall ']' _ (fun x hx => (digit_plain x (decDigits_all_digit l x hx)).2.2.2.2.1),
      ihc]
    simp
  | arrayDynamic c hc ihc =>
    rw [typeStrData_arrayDynamic]
    simp only [List.count_append, List.count_cons]
    rw [ihc]
    simp
  | tuple cs hcs hlen ih =>
    rw [typeStrData_tuple]
    simp only [List.count_cons, List.count_append]
    rw [count_joinC '[' (by decide), count_joinC ']' (by decide)]
    have : (List.map (List.count '[') (cs.map typeStrData)).sum =
        (List.map (List.count ']') (cs.map typeStrData)).sum := by
      rw [List.map_map, List.map_map]
      congr 1
      refine List.map_congr_left ?_
      intro c hc
      exact ih c hc
    rw [this]
    simp

/- ---- parseUint16 and regexp-model matches on printed numerals ---- -/

theorem parseUint16_decDigits (n : Nat) (h : n < 65536) :
    parseUint16 (decDigits n) = .ok n := by
  unfold parseUint16
  rw [if_neg (by simp [List.isEmpty_eq_true, decDigits_ne_nil n]),
    if_neg (by
      simp only [not_not]
      rw [List.all_eq_true]
      intro c hc
      exact decDigits_all_digit n c hc),
    digitsToNat_decDigits,
    if_neg (by omega)]

theorem staticArrayMatch_append (A L : List Char) (hA1 : A ≠ [])
    (hA2 : A.all isTypeChar = true) (hL : L ≠ []) (hd : ∀ c ∈ L, c.isDigit)
    (hhead : L.head? ≠ some '0') :
    staticArrayMatch (A ++ ('[' :: (L ++ [']']))) = some (A, L) := by
  have hrev : (A ++ ('[' :: (L ++ [']']))).reverse =
      ']' :: (L.reverse ++ ('[' :: A.reverse)) := by
    simp [List.reverse_append]
  rw [staticArrayMatch, hrev]
  simp only []
  have htw : (L.reverse ++ ('[' :: A.reverse)).takeWhile Char.isDigit = L.reverse := by
    rw [List.takeWhile_append]
    rw [List.takeWhile_eq_self_iff.mpr (fun x hx => hd x (List.mem_reverse.mp hx))]
    simp [List.takeWhile]
  rw [htw]
  rw [show (L.reverse ++ ('[' :: A.reverse)).drop L.reverse.length =
    '[' :: A.reverse from by
      rw [show L.reverse.length = L.reverse.length + 0 by omega, List.drop_append]
      rfl]
  simp only [List.reverse_reverse]
  match L, hL, hhead with
  | d :: rest, _, hhead =>
    simp only []
    rw [if_pos ⟨by simpa using hhead, by simpa using hA1, hA2⟩]

theorem ufixedMatch_append (b p : Nat) (hb : 0 < b) (hp : 0 < p) :
    ufixedMatch ("ufixed".data ++ (decDigits b ++ ('x' :: decDigits p))) =
      some (decDigits b, decDigits p) := by
  rw [ufixedMatch]
  rw [if_pos (by
    rw [List.isPrefixOf_iff_prefix]
    exact List.prefix_append _ _)]
  simp only []
  rw [show ("ufixed".data ++ (decDigits b ++ ('x' :: decDigits p))).drop 6 =
    decDigits b ++ ('x' :: decDigits p) from by
      rw [show (6 : Nat) = ("ufixed".data).length from rfl, List.drop_left]]
  have htw : (decDigits b ++ ('x' :: decDigits p)).takeWhile Char.isDigit = decDigits b := by
    rw [List.takeWhile_append]
    rw [List.takeWhile_eq_self_iff.mpr (fun x hx => decDigits_all_digit b x hx)]
    simp [List.takeWhile]
  rw [htw]
  match hDb : decDigits b with
  | [] => exact absurd hDb (decDigits_ne_nil b)
  | d :: rest =>
    simp only []
    rw [if_neg (by
      have := decDigits_head_pos b hb
      rw [hDb] at this
      simpa using this)]
    rw [← hDb]
    rw [show (decDigits b ++ ('x' :: decDigits p)).drop (decDigits b).length =
      'x' :: decDigits p from List.drop_left _ _]
    simp only []
    match hDp : decDigits p with
    | [] => exact absurd hDp (decDigits_ne_nil p)
    | e :: rest2 =>
      simp only []
      rw [if_pos ⟨by
          have := decDigits_head_pos p hp
          rw [hDp] at this
          simpa using this,
        by
          rw [← hDp, List.all_eq_true]
          intro c hc
          exact decDigits_all_digit p c hc⟩]

/- ---- suffix and prefix helpers for the switch walk ---- -/

theorem not_suffix_single_of_getLast (x : Char) (l : List Char)
    (h : ∀ c, l.getLast? = some c → c ≠ x) : ([x].isSuffixOf l : Bool) = false := by
  rw [Bool.eq_false_iff]
  intro hsuf
  obtain ⟨t, rfl⟩ := (isSuffixOf_single_iff x l).mp hsuf
  exact h x (by simp) rfl

theorem not_suffix_pair_of_getLast (x y : Char) (l : List Char)
    (h : ∀ c, l.getLast? = some c → c ≠ y) : ([x, y].isSuffixOf l : Bool) = false := by
  rw [Bool.eq_false_iff]
  intro hsuf
  obtain ⟨t, rfl⟩ := (isSuffixOf_pair_iff x y l).mp hsuf
  refine h y ?_ rfl
  rw [show t ++ [x, y] = (t ++ [x]) ++ [y] by simp]
  simp

theorem getLast_append_decDigits (A : List Char) (n : Nat) :
    ∃ c, (A ++ decDigits n).getLast? = some c ∧ c.isDigit = true := by
  obtain ⟨c, hc, hmem⟩ := getLast?_mem (decDigits n) (decDigits_ne_nil n)
  exact ⟨c, by rw [getLast?_append_right A _ (decDigits_ne_nil n), hc],
    decDigits_all_digit n c hmem⟩

theorem isPrefixOf_append_self (A B : List Char) : (A.isPrefixOf (A ++ B) : Bool) = true := by
  rw [List.isPrefixOf_iff_prefix]
  exact List.prefix_append _ _

theorem typeOfListF_map (rec : List Char → Except String ABIType) (cs : List ABIType)
    (h : ∀ c ∈ cs, rec (typeStrData c) = .ok c) :
    typeOfListF rec (cs.map typeStrData) = .ok cs := by
  induction cs with
  | nil => rfl
  | cons c cs ih =>
    rw [List.map_cons, typeOfListF, h c (by simp), ih fun x hx => h x (by simp [hx])]

theorem no_comma_of_plain (l : List Char) (h : plainChars l = true) :
    ∀ c ∈ l, c ≠ ',' := fun c hc => (plainChars_mem l c h hc).2.2

theorem hasCommaComma_typeStrData (t : ABIType) (h : TWF t) :
    hasCommaComma (typeStrData t) = false := by
  induction h with
  | uint b h1 h2 h3 =>
    rw [typeStrData_uint]
    exact hasCommaComma_no_comma _ (no_comma_of_plain _
      (plainChars_append _ _ (by decide) (plainChars_decDigits b)))
  | byte => rfl
  | ufixed b p h1 h2 h3 h4 h5 =>
    rw [typeStrData_ufixed]
    refine hasCommaComma_no_comma _ (no_comma_of_plain _ ?_)
    have hx : plainChars ('x' :: decDigits p) = true := by
      rw [show ('x' :: decDigits p) = ['x'] ++ decDigits p from rfl]
      exact plainChars_append _ _ (by decide) (plainChars_decDigits p)
    exact plainChars_append _ _ (by decide)
      (plainChars_append _ _ (plainChars_decDigits b) hx)
  | bool => rfl
  | address => rfl
  | string => rfl
  | arrayStatic c l hc hl1 hl2 ihc =>
    rw [typeStrData_arrayStatic]
    refine hasCommaComma_append _ _ ihc ?_ (Or.inr (by simp)) 
    refine hasCommaComma_no_comma _ (no_comma_of_plain _ ?_)
    rw [show ('[' :: (decDigits l ++ [']'])) = ['['] ++ (decDigits l ++ [']']) from rfl]
    exact plainChars_append _ _ (by decide)
      (plainChars_append _ _ (plainChars_decDigits l) (by decide))
  | arrayDynamic c hc ihc =>
    rw [typeStrData_arrayDynamic]
    exact hasCommaComma_append _ _ ihc (by decide) (Or.inr (by simp))
  | tuple cs hcs hlen ih =>
    rw [typeStrData_tuple, show '(' :: (joinC (cs.map typeStrData) ++ [')']) =
      ['('] ++ (joinC (cs.map typeStrData) ++ [')']) from rfl]
    refine hasCommaComma_append _ _ (hasCommaComma_one '(') ?_ (Or.inl (by decide))
    refine hasCommaComma_append _ _ ?_ (hasCommaComma_one ')') ?_
    · refine hasCommaComma_joinC _ ?_ ?_
      · intro e he
        rw [List.mem_map] at he
        obtain ⟨c, hcmem, rfl⟩ := he
        exact typeStrData_elemOk c (hcs c hcmem)
      · intro e he
        rw [List.mem_map] at he
        obtain ⟨c, hcmem, rfl⟩ := he
        exact ih c hcmem
    · right
      decide

theorem length_le_joinC (es : List (List Char)) (e : List Char) (he : e ∈ es) :
    e.length ≤ (joinC es).length := by
  match es with
  | [] => simp at he
  | [x] =>
    simp at he
    subst he
    exact le_refl _
  | x :: y :: es' =>
    rw [joinC]
    rcases List.mem_cons.mp he with rfl | he2
    · simp
    · have := length_le_joinC (y :: es') e he2
      simp
      omega

/- ---- the round-trip induction ---- -/

theorem digit_ne_bracket (c : Char) (h : c.isDigit = true) : c ≠ ']' :=
  (digit_plain c h).2.2.2.2.1

theorem typeOfF_typeStrData (t : ABIType) (h : TWF t) :
    ∀ f, (typeStrData t).length < f → typeOfF f (typeStrData t) = .ok t := by
  induction h with
  | byte =>
    intro f hf
    match f, hf with
    | f + 1, _ => rfl
  | bool =>
    intro f hf
    match f, hf with
    | f + 1, _ => rfl
  | address =>
    intro f hf
    match f, hf with
    | f + 1, _ => rfl
  | string =>
    intro f hf
    match f, hf with
    | f + 1, _ => rfl
  | uint b h1 h2 h3 =>
    intro f hf
    match f, hf with
    | f + 1, hf =>
      rw [typeOfF_succ, typeStrData_uint, typeOfSwitch]
      obtain ⟨d, hd, hdig⟩ := getLast_append_decDigits "uint".data b
      rw [not_suffix_pair_of_getLast '[' ']' _ (fun c hc => by
        rw [hd] at hc
        cases hc
        exact digit_ne_bracket d hdig)]
      simp only [Bool.false_eq_true, if_false]
      rw [not_suffix_single_of_getLast ']' _ (fun c hc => by
        rw [hd] at hc
        cases hc
        exact digit_ne_bracket d hdig)]
      simp only [Bool.false_eq_true, if_false]
      rw [isPrefixOf_append_self]
      simp only [if_true]
      rw [show ("uint".data ++ decDigits b).drop 4 = decDigits b from by
        rw [show (4 : Nat) = ("uint".data : List Char).length from rfl]
        exact List.drop_left _ _]
      rw [parseUint16_decDigits b (by omega)]
      simp only []
      rw [makeUintType, if_neg (by omega)]
  | ufixed b p h1 h2 h3 h4 h5 =>
    intro f hf
    match f, hf with
    | f + 1, hf =>
      rw [typeOfF_succ, typeStrData_ufixed, typeOfSwitch]
      have hDp : ('x' :: decDigits p).getLast? = (decDigits p).getLast? := by
        rw [show 'x' :: decDigits p = ['x'] ++ decDigits p from rfl,
          getLast?_append_right _ _ (decDigits_ne_nil p)]
      obtain ⟨d, hd0, hmem⟩ := getLast?_mem (decDigits p) (decDigits_ne_nil p)
      have hd : ("ufixed".data ++ (decDigits b ++ 'x' :: decDigits p)).getLast? = some d := by
        rw [getLast?_append_right _ _ (by simp), getLast?_append_right _ _ (by simp),
          hDp, hd0]
      have hdig := decDigits_all_digit p d hmem
      rw [not_suffix_pair_of_getLast '[' ']' _ (fun c hc => by
        rw [hd] at hc
        cases hc
        exact digit_ne_bracket d hdig)]
      simp only [Bool.false_eq_true, if_false]
      rw [not_suffix_single_of_getLast ']' _ (fun c hc => by
        rw [hd] at hc
        cases hc
        exact digit_ne_bracket d hdig)]
      simp only [Bool.false_eq_true, if_false]
      rw [show ("uint".data.isPrefixOf
        ("ufixed".data ++ (decDigits b ++ 'x' :: decDigits p)) : Bool) = false from rfl]
      simp only [Bool.false_eq_true, if_false]
      rw [if_neg (fun hEq => by
        have := congrArg List.head? hEq
        simp at this)]
      rw [isPrefixOf_append_self]
      simp only [if_true]
      rw [ufixedMatch_append b p (by omega) (by omega)]
      simp only []
      rw [parseUint16_decDigits b (by omega)]
      simp only []
      rw [parseUint16_decDigits p (by omega)]
      simp only []
      rw [makeUfixedType, if_neg (by omega), if_neg (by omega)]
  | arrayStatic c l hc hl1 hl2 ihc =>
    intro f hf
    match f, hf with
    | f + 1, hf =>
      rw [typeStrData_arrayStatic] at hf
      simp only [List.length_append, List.length_cons] at hf
      rw [typeOfF_succ, typeStrData_arrayStatic, typeOfSwitch]
      rw [show (['[', ']'].isSuffixOf
        (typeStrData c ++ ('[' :: (decDigits l ++ [']']))) : Bool) = false from by
        rw [show typeStrData c ++ ('[' :: (decDigits l ++ [']'])) =
          ((typeStrData c ++ ['[']) ++ decDigits l) ++ [']'] by simp]
        exact no_array_suffix_of_digits (typeStrData c ++ ['[']) (decDigits l)
          (decDigits_ne_nil l) (decDigits_all_digit l)]
      simp only [Bool.false_eq_true, if_false]
      rw [(isSuffixOf_single_iff ']' _).mpr
        ⟨typeStrData c ++ ('[' :: decDigits l), by simp⟩]
      simp only [if_true]
      rw [staticArrayMatch_append (typeStrData c) (decDigits l) (typeStrData_ne_nil c hc)
        (typeStrData_all_isTypeChar c hc) (decDigits_ne_nil l) (decDigits_all_digit l)
        (decDigits_head_pos l (by omega))]
      simp only []
      rw [parseUint16_decDigits l (by omega)]
      simp only []
      rw [ihc f (by omega)]
      rfl
  | arrayDynamic c hc ihc =>
    intro f hf
    match f, hf with
    | f + 1, hf =>
      rw [typeStrData_arrayDynamic] at hf
      simp only [List.length_append, List.length_cons] at hf
      rw [typeOfF_succ, typeStrData_arrayDynamic, typeOfSwitch]
      rw [(isSuffixOf_pair_iff '[' ']' _).mpr ⟨typeStrData c, rfl⟩]
      simp only [if_true]
      rw [show (typeStrData c ++ ['[', ']']).length - 2 = (typeStrData c).length by
        simp]
      rw [show (typeStrData c ++ ['[', ']']).take (typeStrData c).length =
        typeStrData c from List.take_left _ _]
      rw [ihc f (by simp at hf; omega)]
      rfl
  | tuple cs hcs hlen ih =>
    intro f hf
    match f, hf with
    | f + 1, hf =>
      rw [typeStrData_tuple] at hf
      simp only [List.length_cons, List.length_append] at hf
      rw [typeOfF_succ, typeStrData_tuple, typeOfSwitch]
      have hElems : ∀ e ∈ cs.map typeStrData, elemOk e := by
        intro e he
        rw [List.mem_map] at he
        obtain ⟨c, hcmem, rfl⟩ := he
        exact typeStrData_elemOk c (hcs c hcmem)
      have hCommas : ∀ e ∈ cs.map typeStrData, hasCommaComma e = false := by
        intro e he
        rw [List.mem_map] at he
        obtain ⟨c, hcmem, rfl⟩ := he
        exact hasCommaComma_typeStrData c (hcs c hcmem)
      have hJd : depthAfter (joinC (cs.map typeStrData)) 0 = some 0 :=
        depthAfter_joinC _ hElems
      have hlast : ('(' :: (joinC (cs.map typeStrData) ++ [')'])).getLast? = some ')' := by
        rw [show '(' :: (joinC (cs.map typeStrData) ++ [')']) =
          ('(' :: joinC (cs.map typeStrData)) ++ [')'] by simp]
        exact List.getLast?_concat _
      rw [not_suffix_pair_of_getLast '[' ']' _ (fun c hchk => by
        rw [hlast] at hchk
        cases hchk
        decide)]
      simp only [Bool.false_eq_true, if_false]
      rw [not_suffix_single_of_getLast ']' _ (fun c hchk => by
        rw [hlast] at hchk
        cases hchk
        decide)]
      simp only [Bool.false_eq_true, if_false]
      rw [show ("uint".data.isPrefixOf
        ('(' :: (joinC (cs.map typeStrData) ++ [')'])) : Bool) = false from rfl]
      simp only [Bool.false_eq_true, if_false]
      rw [if_neg (fun hEq => by
        have := congrArg List.head? hEq
        simp at this)]
      rw [show ("ufixed".data.isPrefixOf
        ('(' :: (joinC (cs.map typeStrData) ++ [')'])) : Bool) = false from rfl]
      simp only [Bool.false_eq_true, if_false]
      rw [if_neg (fun hEq => by
        have := congrArg List.head? hEq
        simp at this)]
      rw [if_neg (fun hEq => by
        have := congrArg List.head? hEq
        simp at this)]
      rw [if_neg (fun hEq => by
        have := congrArg List.head? hEq
        simp at this)]
      rw [if_pos ⟨by simp, rfl, hlast⟩]
      have hbal := depthAfter_count (joinC (cs.map typeStrData)) 0 0 hJd
      rw [if_neg (by
        simp only [List.count_cons, List.count_append, List.count_singleton]
        simp
        omega)]
      rw [if_neg (by
        simp only [List.count_cons, List.count_append, List.count_singleton]
        rw [count_joinC '[' (by decide), count_joinC ']' (by decide),
          List.map_map, List.map_map]
        have hmapeq : cs.map (List.count '[' ∘ typeStrData) =
            cs.map (List.count ']' ∘ typeStrData) := by
          refine List.map_congr_left ?_
          intro c hcm
          exact typeStrData_bracket_count c (hcs c hcm)
        rw [hmapeq]
        simp)]
      rw [show ('(' :: (joinC (cs.map typeStrData) ++ [')'])).length - 2 =
        (joinC (cs.map typeStrData)).length by simp]
      rw [show ('(' :: (joinC (cs.map typeStrData) ++ [')'])).drop 1 =
        joinC (cs.map typeStrData) ++ [')'] from rfl]
      rw [show (joinC (cs.map typeStrData) ++ [')']).take
        (joinC (cs.map typeStrData)).length = joinC (cs.map typeStrData) from
        List.take_left _ _]
      rw [parseTupleContent_joinC (cs.map typeStrData) hElems hCommas]
      simp only []
      rw [typeOfListF_map (typeOfF f) cs (fun c hcm => ih c hcm f (by
        have := length_le_joinC (cs.map typeStrData) (typeStrData c)
          (List.mem_map_of_mem typeStrData hcm)
        omega))]
      simp only []
      rw [makeTupleType, if_neg (by omega)]

/- ---- inversion lemmas for TypeOf results ---- -/

theorem digit_ne_zero_toNat (d : Char) (hd : d.isDigit = true) (h0 : d ≠ '0') :
    49 ≤ d.toNat := by
  have hn : 48 ≤ d.toNat ∧ d.toNat ≤ 57 := by
    simp [Char.isDigit] at hd
    exact ⟨hd.1, hd.2⟩
  rcases Nat.lt_or_ge d.toNat 49 with hlt | hge
  · exfalso
    refine h0 ?_
    have h48 : d.toNat = 48 := by omega
    have : d = '0' := by
      have : d.val.toNat = 48 := h48
      refine Char.ext ?_
      refine UInt32.toNat.inj ?_
      simpa using this
    exact this
  · exact hge

theorem foldl_digits_ge (l : List Char) : ∀ acc, 1 ≤ acc →
    1 ≤ l.foldl (fun a c => a * 10 + (c.toNat - 48)) acc := by
  induction l with
  | nil => intro acc h; simpa using h
  | cons c l ih =>
    intro acc h
    rw [List.foldl_cons]
    exact ih _ (by omega)

theorem digitsToNat_pos (d : Char) (rest : List Char) (hd : d.isDigit = true)
    (h0 : d ≠ '0') : 1 ≤ digitsToNat (d :: rest) := by
  rw [digitsToNat, List.foldl_cons]
  refine foldl_digits_ge rest _ ?_
  have := digit_ne_zero_toNat d hd h0
  omega

theorem parseUint16_ok (cs : List Char) (n : Nat) (h : parseUint16 cs = .ok n) :
    n = digitsToNat cs ∧ n < 65536 ∧ cs ≠ [] ∧ ∀ c ∈ cs, c.isDigit = true := by
  unfold parseUint16 at h
  by_cases h1 : cs.isEmpty
  · rw [if_pos h1] at h; exact absurd h (by simp)
  · rw [if_neg h1] at h
    by_cases h2 : ¬ cs.all Char.isDigit
    · rw [if_pos h2] at h; exact absurd h (by simp)
    · rw [if_neg h2] at h
      by_cases h3 : digitsToNat cs ≥ 65536
      · rw [if_pos h3] at h; exact absurd h (by simp)
      · rw [if_neg h3] at h
        simp only [Except.ok.injEq] at h
        refine ⟨h.symm, by omega, by simpa using h1, ?_⟩
        simp at h2
        exact h2

theorem staticArrayMatch_ok (cs g1 g2 : List Char)
    (h : staticArrayMatch cs = some (g1, g2)) :
    g2 ≠ [] ∧ (∀ c ∈ g2, c.isDigit = true) ∧ g2.head? ≠ some '0' := by
  rw [staticArrayMatch] at h
  split at h
  · rename_i rest heq
    simp only [] at h
    split at h
    · rename_i g1rev heq2
      split at h
      · rename_i d ds heq3
        split at h
        · rename_i hcond
          simp only [Option.some_inj, Prod.mk.injEq] at h
          obtain ⟨rfl, rfl⟩ := h
          refine ⟨by rw [heq3]; simp, ?_, ?_⟩
          · intro c hcmem
            have : c ∈ (rest.takeWhile Char.isDigit).reverse := hcmem
            rw [List.mem_reverse] at this
            exact List.mem_takeWhile_imp this
          · rw [heq3]
            simpa using hcond.1
        · exact absurd h (by simp)
      · exact absurd h (by simp)
    · exact absurd h (by simp)
  · exact absurd h (by simp)

theorem typeOfListF_mem (rec : List Char → Except String ABIType) :
    ∀ (ps : List (List Char)) (ts : List ABIType), typeOfListF rec ps = .ok ts →
    ∀ x ∈ ts, ∃ p, rec p = .ok x := by
  intro ps
  induction ps with
  | nil =>
    intro ts h x hx
    rw [typeOfListF] at h
    simp only [Except.ok.injEq] at h
    subst h
    simp at hx
  | cons p ps ih =>
    intro ts h x hx
    rw [typeOfListF] at h
    split at h
    · exact absurd h (by simp)
    · rename_i t0 hp
      split at h
      · rename_i ts0 hps
        simp only [Except.ok.injEq] at h
        subst h
        rcases List.mem_cons.mp hx with rfl | hx2
        · exact ⟨p, hp⟩
        · exact ih ts0 hps x hx2
      · exact absurd h (by simp)

theorem TWF_of_typeOfF : ∀ f str t, typeOfF f str = .ok t → TWF t := by
  intro f
  induction f with
  | zero =>
    intro str t h
    exact absurd h (by rw [show typeOfF 0 str = .error "out of fuel" from rfl]; simp)
  | succ f ihf =>
    intro str t h
    rw [typeOfF_succ, typeOfSwitch] at h
    by_cases c1 : (['[', ']'].isSuffixOf str : Bool) = true
    · rw [if_pos c1] at h
      split at h
      · rename_i a ha
        simp only [Except.ok.injEq] at h
        subst h
        exact TWF.arrayDynamic a (ihf _ a ha)
      · exact absurd h (by simp)
    · rw [if_neg c1] at h
      by_cases c2 : ([']'].isSuffixOf str : Bool) = true
      · rw [if_pos c2] at h
        split at h
        · exact absurd h (by simp)
        · rename_i g1 g2 hmatch
          split at h
          · exact absurd h (by simp)
          · rename_i n hn
            split at h
            · rename_i a ha
              simp only [Except.ok.injEq] at h
              subst h
              obtain ⟨hne, hdig, hhead⟩ := staticArrayMatch_ok str g1 g2 hmatch
              obtain ⟨hval, hlt, -, -⟩ := parseUint16_ok g2 n hn
              refine TWF.arrayStatic a n (ihf _ a ha) ?_ (by omega)
              match g2, hne, hhead with
              | d :: rest, _, hhead =>
                rw [hval]
                exact digitsToNat_pos d rest (hdig d (by simp))
                  (by simpa using hhead)
            · exact absurd h (by simp)
      · rw [if_neg c2] at h
        by_cases c3 : ("uint".data.isPrefixOf str : Bool) = true
        · rw [if_pos c3] at h
          split at h
          · exact absurd h (by simp)
          · rename_i n hn
            rw [makeUintType] at h
            split at h
            · exact absurd h (by simp)
            · rename_i hcond
              simp only [Except.ok.injEq] at h
              subst h
              push_neg at hcond
              exact TWF.uint n hcond.1 (by omega) (by omega)
        · rw [if_neg c3] at h
          by_cases c4 : str = "byte".data
          · rw [if_pos c4] at h
            simp only [Except.ok.injEq] at h
            subst h
            exact TWF.byte
          · rw [if_neg c4] at h
            by_cases c5 : ("ufixed".data.isPrefixOf str : Bool) = true
            · rw [if_pos c5] at h
              split at h
              · exact absurd h (by simp)
              · rename_i sizeStr precStr hmatch
                split at h
                · exact absurd h (by simp)
                · rename_i n hn
                  split at h
                  · exact absurd h (by simp)
                  · rename_i m hm
                    rw [makeUfixedType] at h
                    split at h
                    · exact absurd h (by simp)
                    · rename_i hcond1
                      split at h
                      · exact absurd h (by simp)
                      · rename_i hcond2
                        simp only [Except.ok.injEq] at h
                        subst h
                        push_neg at hcond1 hcond2
                        exact TWF.ufixed n m hcond1.1 (by omega) (by omega)
                          (by omega) (by omega)
            · rw [if_neg c5] at h
              by_cases c6 : str = "bool".data
              · rw [if_pos c6] at h
                simp only [Except.ok.injEq] at h
                subst h
                exact TWF.bool
              · rw [if_neg c6] at h
                by_cases c7 : str = "address".data
                · rw [if_pos c7] at h
                  simp only [Except.ok.injEq] at h
                  subst h
                  exact TWF.address
                · rw [if_neg c7] at h
                  by_cases c8 : str = "string".data
                  · rw [if_pos c8] at h
                    simp only [Except.ok.injEq] at h
                    subst h
                    exact TWF.string
                  · rw [if_neg c8] at h
                    by_cases c9 : 2 ≤ str.length ∧ str.head? = some '(' ∧
                        str.getLast? = some ')'
                    · rw [if_pos c9] at h
                      by_cases c10 : str.count '(' ≠ str.count ')'
                      · rw [if_pos c10] at h
                        exact absurd h (by simp)
                      · rw [if_neg c10] at h
                        by_cases c11 : str.count '[' ≠ str.count ']'
                        · rw [if_pos c11] at h
                          exact absurd h (by simp)
                        · rw [if_neg c11] at h
                          split at h
                          · exact absurd h (by simp)
                          · rename_i content hcontent
                            split at h
                            · rename_i ts hts
                              rw [makeTupleType] at h
                              split at h
                              · exact absurd h (by simp)
                              · rename_i hlen
                                simp only [Except.ok.injEq] at h
                                subst h
                                refine TWF.tuple ts ?_ (by omega)
                                intro c hcm
                                obtain ⟨p, hp⟩ :=
                                  typeOfListF_mem (typeOfF f) content ts hts c hcm
                                exact ihf p c hp
                            · exact absurd h (by simp)
                    · rw [if_neg c9] at h
                      exact absurd h (by simp)

mutual
theorem ABIType.equal_refl : ∀ t : ABIType, t.equal t = true
  | .mk k cs b p l => by
    rw [ABIType.equal]
    simp only [beq_self_eq_true, Bool.true_and]
    exact equalList_refl cs
theorem equalList_refl : ∀ ts : List ABIType, equalList ts ts = true
  | [] => rfl
  | t :: ts => by
    rw [equalList, ABIType.equal_refl t, equalList_refl ts]
    rfl
end

/-- C6: for every ABI type `t` obtained from a successful `TypeOf s`,
`TypeOf` applied to `t`'s canonical string succeeds and returns a type
`Equal` to `t`. -/
theorem typeOf_roundtrip (s : String) (t : ABIType) (h : TypeOf s = .ok t) :
    ∃ t2, TypeOf t.typeString = .ok t2 ∧ t.equal t2 = true := by
  have hwf : TWF t := TWF_of_typeOfF _ s.data t h
  refine ⟨t, ?_, ABIType.equal_refl t⟩
  rw [TypeOf]
  exact typeOfF_typeStrData t hwf _ (by rw [show typeStrData t = t.typeString.data from rfl]; omega)

theorem typeOf_roundtrip_witness :
    TypeOf "(uint8,bool[3])" =
      .ok (ABIType.mk .tuple [.mk .uint [] 8 0 0, .mk .arrayStatic [boolType] 0 0 3]
        0 0 2) ∧
    ∃ t2, TypeOf (ABIType.mk .tuple
        [.mk .uint [] 8 0 0, .mk .arrayStatic [boolType] 0 0 3] 0 0 2).typeString =
        .ok t2 ∧
      (ABIType.mk .tuple [.mk .uint [] 8 0 0, .mk .arrayStatic [boolType] 0 0 3]
        0 0 2).equal t2 = true :=
  ⟨rfl, typeOf_roundtrip "(uint8,bool[3])" _ rfl⟩

/-! ### Equal vs canonical string (C7) -/

/- ---- C7 development: Equal iff canonical strings equal ---- -/

/-- The types obtainable through the factory operations (`TypeOf`,
`MakeTupleType`, and the internal `make*` constructors): like `TWF` except
that `makeStaticArrayType` performs no validation of its own, so a static
array length is only constrained to the `uint16` range (zero included). -/
inductive Constructible : ABIType → Prop where
  | uint (b : Nat) : b % 8 = 0 → 8 ≤ b → b ≤ 512 → Constructible (.mk .uint [] b 0 0)
  | byte : Constructible byteType
  | ufixed (b p : Nat) : b % 8 = 0 → 8 ≤ b → b ≤ 512 → 1 ≤ p → p ≤ 160 →
      Constructible (.mk .ufixed [] b p 0)
  | bool : Constructible boolType
  | address : Constructible addressType
  | string : Constructible stringType
  | arrayStatic (c : ABIType) (l : Nat) : Constructible c → l ≤ 65535 →
      Constructible (.mk .arrayStatic [c] 0 0 l)
  | arrayDynamic (c : ABIType) : Constructible c → Constructible (.mk .arrayDynamic [c] 0 0 0)
  | tuple (cs : List ABIType) : (∀ c ∈ cs, Constructible c) → cs.length < 65535 →
      Constructible (.mk .tuple cs 0 0 cs.length)

theorem decDigits_inj (n m : Nat) (h : decDigits n = decDigits m) : n = m := by
  have := congrArg digitsToNat h
  rwa [digitsToNat_decDigits, digitsToNat_decDigits] at this

theorem append_pred_marker_inj (P : Char → Bool) (m : Char) (hm : P m = false) :
    ∀ (A A' B B' : List Char), (∀ c ∈ A, P c = true) → (∀ c ∈ A', P c = true) →
    A ++ m :: B = A' ++ m :: B' → A = A' ∧ B = B' := by
  intro A
  induction A with
  | nil =>
    intro A' B B' hA hA' h
    match A' with
    | [] =>
      simp at h
      exact ⟨rfl, h⟩
    | a' :: A'2 =>
      rw [List.nil_append, List.cons_append, List.cons_eq_cons] at h
      have := hA' a' (by simp)
      rw [← h.1] at this
      rw [this] at hm
      simp at hm
  | cons a A2 ih =>
    intro A' B B' hA hA' h
    match A' with
    | [] =>
      rw [List.nil_append, List.cons_append, List.cons_eq_cons] at h
      have := hA a (by simp)
      rw [h.1] at this
      rw [this] at hm
      simp at hm
    | a' :: A'2 =>
      rw [List.cons_append, List.cons_append, List.cons_eq_cons] at h
      obtain ⟨rfl, h2⟩ := h
      obtain ⟨h3, h4⟩ := ih A'2 B B' (fun c hc => hA c (by simp [hc]))
        (fun c hc => hA' c (by simp [hc])) h2
      exact ⟨by rw [h3], h4⟩

theorem plain_sep_inj (A A' s s' : List Char)
    (hA : ∀ c ∈ A, c ≠ ',') (hA' : ∀ c ∈ A', c ≠ ',')
    (hs : s = [] ∨ s.head? = some ',') (hs' : s' = [] ∨ s'.head? = some ',')
    (h : A ++ s = A' ++ s') : A = A' ∧ s = s' := by
  rcases hs with rfl | hhs
  · rcases hs' with rfl | hhs'
    · simp at h
      exact ⟨h, rfl⟩
    · cases s' with
      | nil => simp at hhs'
      | cons c' r' =>
        have hc' : c' = ',' := by simpa using hhs'
        subst hc'
        exfalso
        rw [List.append_nil] at h
        have : ',' ∈ A := by
          rw [h]
          simp
        exact hA ',' this rfl
  · cases s with
    | nil => simp at hhs
    | cons c0 r =>
      have hc0 : c0 = ',' := by simpa using hhs
      subst hc0
      rcases hs' with rfl | hhs'
      · exfalso
        rw [List.append_nil] at h
        have : ',' ∈ A' := by
          rw [← h]
          simp
        exact hA' ',' this rfl
      · cases s' with
        | nil => simp at hhs'
        | cons c' r' =>
          have hc' : c' = ',' := by simpa using hhs'
          subst hc'
          obtain ⟨h1, h2⟩ := append_pred_marker_inj (fun c => decide (c ≠ ',')) ','
            (by simp) A A' r r'
            (fun c hc => by simpa using hA c hc)
            (fun c hc => by simpa using hA' c hc) h
          exact ⟨h1, by rw [h2]⟩

theorem balanced_match : ∀ (M M' X X' : List Char) (d : Nat),
    depthAfter M d = some 0 → depthAfter M' d = some 0 →
    M ++ ')' :: X = M' ++ ')' :: X' → M = M' ∧ X = X' := by
  intro M
  induction M with
  | nil =>
    intro M' X X' d hM hM' h
    simp only [depthAfter, Option.some_inj] at hM
    subst hM
    match M' with
    | [] =>
      simp at h
      exact ⟨rfl, h⟩
    | c' :: M'2 =>
      rw [List.nil_append, List.cons_append, List.cons_eq_cons] at h
      rw [← h.1, depthAfter_cons, if_neg (by decide), if_pos rfl] at hM'
      exact absurd hM' (by simp)
  | cons c M2 ih =>
    intro M' X X' d hM hM' h
    match M' with
    | [] =>
      simp only [depthAfter, Option.some_inj] at hM'
      subst hM'
      rw [List.cons_append, List.nil_append, List.cons_eq_cons] at h
      rw [h.1, depthAfter_cons, if_neg (by decide), if_pos rfl] at hM
      exact absurd hM (by simp)
    | c' :: M'2 =>
      rw [List.cons_append, List.cons_append, List.cons_eq_cons] at h
      obtain ⟨rfl, h2⟩ := h
      rw [depthAfter_cons] at hM hM'
      by_cases hc1 : c = '('
      · rw [if_pos hc1] at hM hM'
        obtain ⟨h3, h4⟩ := ih M'2 X X' (d + 1) hM hM' h2
        exact ⟨by rw [h3], h4⟩
      · rw [if_neg hc1] at hM hM'
        by_cases hc2 : c = ')'
        · rw [if_pos hc2] at hM hM'
          match d, hM, hM' with
          | e + 1, hM, hM' =>
            obtain ⟨h3, h4⟩ := ih M'2 X X' e hM hM' h2
            exact ⟨by rw [h3], h4⟩
        · rw [if_neg hc2] at hM hM'
          obtain ⟨h3, h4⟩ := ih M'2 X X' d hM hM' h2
          exact ⟨by rw [h3], h4⟩

theorem elem_prefix_inj (e e' s s' : List Char) (he : elemOk e) (he' : elemOk e')
    (hs : s = [] ∨ s.head? = some ',') (hs' : s' = [] ∨ s'.head? = some ',')
    (h : e ++ s = e' ++ s') : e = e' ∧ s = s' := by
  rcases he with ⟨hne, hp | ⟨M, Q, rfl, hM, hQ⟩⟩
  · rcases he' with ⟨hne', hp' | ⟨M', Q', rfl, hM', hQ'⟩⟩
    · exact plain_sep_inj e e' s s' (no_comma_of_plain e hp) (no_comma_of_plain e' hp')
        hs hs' h
    · exfalso
      match e, hne with
      | c :: e2, _ =>
        rw [List.cons_append, List.cons_append, List.cons_eq_cons] at h
        exact (plainChars_mem _ c hp (by simp)).1 h.1
  · rcases he' with ⟨hne', hp' | ⟨M', Q', rfl, hM', hQ'⟩⟩
    · exfalso
      match e', hne' with
      | c' :: e'2, _ =>
        rw [List.cons_append, List.cons_append, List.cons_eq_cons] at h
        exact (plainChars_mem _ c' hp' (by simp)).1 h.1.symm
    · rw [List.cons_append, List.cons_append, List.cons_eq_cons] at h
      have h2 : M ++ ')' :: (Q ++ s) = M' ++ ')' :: (Q' ++ s') := by
        have := h.2
        simpa using this
      obtain ⟨rfl, h3⟩ := balanced_match M M' (Q ++ s) (Q' ++ s') 0 hM hM' h2
      obtain ⟨rfl, rfl⟩ := plain_sep_inj Q Q' s s' (no_comma_of_plain Q hQ)
        (no_comma_of_plain Q' hQ') hs hs' h3
      exact ⟨rfl, rfl⟩

theorem joinC_inj : ∀ (es es' : List (List Char)), (∀ e ∈ es, elemOk e) →
    (∀ e ∈ es', elemOk e) → joinC es = joinC es' → es = es' := by
  intro es
  match es with
  | [] =>
    intro es' h1 h2 h
    match es' with
    | [] => rfl
    | e' :: es'2 =>
      exact absurd h.symm (joinC_ne_nil e' es'2 (h2 e' (by simp)).1)
  | e :: es2 =>
    intro es' h1 h2 h
    match es' with
    | [] =>
      exact absurd h (joinC_ne_nil e es2 (h1 e (by simp)).1)
    | e' :: es'2 =>
      match es2, es'2 with
      | [], [] =>
        rw [show joinC [e] = e from rfl, show joinC [e'] = e' from rfl] at h
        rw [h]
      | [], y' :: ys' =>
        rw [show joinC [e] = e from rfl, joinC] at h
        have := elem_prefix_inj e e' [] (',' :: joinC (y' :: ys')) (h1 e (by simp))
          (h2 e' (by simp)) (Or.inl rfl) (Or.inr (by simp)) (by simpa using h)
        simp at this
      | y :: ys, [] =>
        rw [joinC] at h
        have := elem_prefix_inj e e' (',' :: joinC (y :: ys)) [] (h1 e (by simp))
          (h2 e' (by simp)) (Or.inr (by simp)) (Or.inl rfl) (by simpa using h)
        simp at this
      | y :: ys, y' :: ys' =>
        rw [joinC, joinC] at h
        obtain ⟨rfl, h2'⟩ := elem_prefix_inj e e' (',' :: joinC (y :: ys))
          (',' :: joinC (y' :: ys')) (h1 e (by simp)) (h2 e' (by simp))
          (Or.inr (by simp)) (Or.inr (by simp)) h
        rw [List.cons_eq_cons] at h2'
        have := joinC_inj (y :: ys) (y' :: ys')
          (fun x hx => h1 x (by simp at hx ⊢; tauto))
          (fun x hx => h2 x (by simp at hx ⊢; tauto)) h2'.2
        rw [this]

/- ---- every printed type is a well-shaped element ---- -/

theorem typeStrData_arrayStatic_nil (b p l : Nat) :
    typeStrData (.mk .arrayStatic [] b p l) = '[' :: (decDigits l ++ [']']) := by
  show ("" ++ "[" ++ decString l ++ "]").data = _
  rw [String.data_append, String.data_append, String.data_append]
  simp [decString]

theorem typeStrData_arrayDynamic_nil (b p l : Nat) :
    typeStrData (.mk .arrayDynamic [] b p l) = ['[', ']'] := rfl

theorem typeStrData_invalid (cs : List ABIType) (b p l : Nat) :
    typeStrData (.mk .invalid cs b p l) = "<invalid type>".data := rfl

theorem plainChars_bracket_num (l : Nat) : plainChars ('[' :: (decDigits l ++ [']'])) = true := by
  rw [show ('[' :: (decDigits l ++ [']'])) = ['['] ++ (decDigits l ++ [']']) from rfl]
  exact plainChars_append _ _ (by decide)
    (plainChars_append _ _ (plainChars_decDigits l) (by decide))

mutual

theorem elemOk_typeStr : ∀ t : ABIType, elemOk (typeStrData t)
  | .mk .uint cs b p l => by
    refine ⟨by rw [typeStrData_uint]; simp, Or.inl ?_⟩
    rw [typeStrData_uint]
    exact plainChars_append _ _ (by decide) (plainChars_decDigits b)
  | .mk .byte cs b p l =>
    ⟨by rw [typeStrData_byte]; decide, Or.inl (by rw [typeStrData_byte]; decide)⟩
  | .mk .ufixed cs b p l => by
    refine ⟨by rw [typeStrData_ufixed]; simp, Or.inl ?_⟩
    rw [typeStrData_ufixed]
    have hx : plainChars ('x' :: decDigits p) = true := by
      rw [show ('x' :: decDigits p) = ['x'] ++ decDigits p from rfl]
      exact plainChars_append _ _ (by decide) (plainChars_decDigits p)
    exact plainChars_append _ _ (by decide)
      (plainChars_append _ _ (plainChars_decDigits b) hx)
  | .mk .bool cs b p l =>
    ⟨by rw [typeStrData_bool]; decide, Or.inl (by rw [typeStrData_bool]; decide)⟩
  | .mk .address cs b p l =>
    ⟨by rw [typeStrData_address]; decide, Or.inl (by rw [typeStrData_address]; decide)⟩
  | .mk .string cs b p l =>
    ⟨by rw [typeStrData_string]; decide, Or.inl (by rw [typeStrData_string]; decide)⟩
  | .mk .arrayStatic [] b p l => by
    refine ⟨by rw [typeStrData_arrayStatic_nil]; simp, Or.inl ?_⟩
    rw [typeStrData_arrayStatic_nil]
    exact plainChars_bracket_num l
  | .mk .arrayStatic (c :: cs) b p l => by
    have ihc := elemOk_typeStr c
    refine ⟨by rw [typeStrData_arrayStatic]; simp, ?_⟩
    have hsuf := plainChars_bracket_num l
    rcases ihc with ⟨hne, hplain | ⟨M, Q, hEq, hM, hQ⟩⟩
    · refine Or.inl ?_
      rw [typeStrData_arrayStatic]
      exact plainChars_append _ _ hplain hsuf
    · refine Or.inr ⟨M, Q ++ ('[' :: (decDigits l ++ [']'])), ?_, hM,
        plainChars_append _ _ hQ hsuf⟩
      rw [typeStrData_arrayStatic, hEq]
      simp
  | .mk .arrayDynamic [] b p l =>
    ⟨by rw [typeStrData_arrayDynamic_nil]; decide,
      Or.inl (by rw [typeStrData_arrayDynamic_nil]; decide)⟩
  | .mk .arrayDynamic (c :: cs) b p l => by
    have ihc := elemOk_typeStr c
    refine ⟨by rw [typeStrData_arrayDynamic]; simp, ?_⟩
    have hsuf : plainChars ['[', ']'] = true := by decide
    rcases ihc with ⟨hne, hplain | ⟨M, Q, hEq, hM, hQ⟩⟩
    · refine Or.inl ?_
      rw [typeStrData_arrayDynamic]
      exact plainChars_append _ _ hplain hsuf
    · refine Or.inr ⟨M, Q ++ ['[', ']'], ?_, hM, plainChars_append _ _ hQ hsuf⟩
      rw [typeStrData_arrayDynamic, hEq]
      simp
  | .mk .tuple cs b p l => by
    have ih := elemOk_typeStr_list cs
    refine ⟨by rw [typeStrData_tuple]; simp, ?_⟩
    refine Or.inr ⟨joinC (cs.map typeStrData), [], ?_, ?_, by decide⟩
    · rw [typeStrData_tuple]
    · refine depthAfter_joinC _ ?_
      intro e he
      rw [List.mem_map] at he
      obtain ⟨c, hc, rfl⟩ := he
      exact ih c hc
  | .mk .invalid cs b p l =>
    ⟨by rw [typeStrData_invalid]; decide, Or.inl (by rw [typeStrData_invalid]; decide)⟩

theorem elemOk_typeStr_list : ∀ ts : List ABIType, ∀ t ∈ ts, elemOk (typeStrData t)
  | [], t, ht => by simp at ht
  | t0 :: ts, t, ht => by
    rcases List.mem_cons.mp ht with rfl | ht2
    · exact elemOk_typeStr t
    · exact elemOk_typeStr_list ts t ht2

end

/- ---- last-character discrimination ---- -/

theorem str_ne_of_last (X Y : List Char) (cx cy : Char) (hX : X.getLast? = some cx)
    (hY : Y.getLast? = some cy) (hne : cx ≠ cy) : X ≠ Y := by
  intro h
  rw [h, hY] at hX
  exact hne (Option.some.inj hX.symm)

theorem digit_ne_char (d c : Char) (hd : d.isDigit = true) (hc : c.isDigit = false) :
    d ≠ c := by
  intro h
  subst h
  rw [hd] at hc
  simp at hc

theorem glast_bracket (A D : List Char) :
    (A ++ ('[' :: (D ++ [']']))).getLast? = some ']' := by
  rw [show A ++ ('[' :: (D ++ [']'])) = (A ++ '[' :: D) ++ [']'] by simp]
  exact List.getLast?_concat _

theorem glast_pair (A : List Char) : (A ++ ['[', ']']).getLast? = some ']' := by
  rw [show A ++ ['[', ']'] = (A ++ ['[']) ++ [']'] by simp]
  exact List.getLast?_concat _

theorem glast_tuple (J : List Char) : ('(' :: (J ++ [')'])).getLast? = some ')' := by
  rw [show '(' :: (J ++ [')']) = ('(' :: J) ++ [')'] by simp]
  exact List.getLast?_concat _

theorem glast_ufixed (b p : Nat) :
    ∃ d, ("ufixed".data ++ (decDigits b ++ ('x' :: decDigits p))).getLast? = some d ∧
      d.isDigit = true := by
  obtain ⟨d, hd0, hmem⟩ := getLast?_mem (decDigits p) (decDigits_ne_nil p)
  refine ⟨d, ?_, decDigits_all_digit p d hmem⟩
  rw [getLast?_append_right _ _ (by simp), getLast?_append_right _ _ (by simp),
    show ('x' :: decDigits p) = ['x'] ++ decDigits p from rfl,
    getLast?_append_right _ _ (decDigits_ne_nil p), hd0]

mutual

theorem ABIType.equal_iff : ∀ t t' : ABIType, (t.equal t' = true) ↔ t = t'
  | .mk k cs b p l, .mk k' cs' b' p' l' => by
    rw [ABIType.equal]
    constructor
    · intro h
      simp only [Bool.and_eq_true, beq_iff_eq] at h
      obtain ⟨⟨⟨⟨h1, h2⟩, h3⟩, h4⟩, h5⟩ := h
      subst h1
      subst h2
      subst h3
      subst h4
      rw [(equalList_iff cs cs').mp h5]
    · intro h
      injection h with h1 h2 h3 h4 h5
      subst h1
      subst h2
      subst h3
      subst h4
      subst h5
      simp only [beq_self_eq_true, Bool.true_and]
      exact (equalList_iff cs cs).mpr rfl

theorem equalList_iff : ∀ ts ts' : List ABIType, (equalList ts ts' = true) ↔ ts = ts'
  | [], [] => by simp [show equalList [] [] = true from rfl]
  | [], t' :: ts' => by simp [show equalList [] (t' :: ts') = false from rfl]
  | t :: ts, [] => by simp [show equalList (t :: ts) [] = false from rfl]
  | t :: ts, t' :: ts' => by
    rw [show equalList (t :: ts) (t' :: ts') = (t.equal t' && equalList ts ts') from rfl]
    constructor
    · intro h
      simp only [Bool.and_eq_true] at h
      rw [(ABIType.equal_iff t t').mp h.1, (equalList_iff ts ts').mp h.2]
    · intro h
      injection h with h1 h2
      rw [Bool.and_eq_true]
      exact ⟨(ABIType.equal_iff t t').mpr h1, (equalList_iff ts ts').mpr h2⟩

end

theorem rev_bracket (A D : List Char) :
    (A ++ '[' :: D).reverse = D.reverse ++ ('[' :: A.reverse) := by
  rw [List.reverse_append, List.reverse_cons]
  simp

theorem map_typeStr_inj : ∀ (cs cs' : List ABIType),
    (∀ c ∈ cs, ∀ t', Constructible t' → typeStrData c = typeStrData t' → c = t') →
    (∀ c ∈ cs', Constructible c) →
    cs.map typeStrData = cs'.map typeStrData → cs = cs' := by
  intro cs
  induction cs with
  | nil =>
    intro cs' hinj hcon h
    match cs' with
    | [] => rfl
    | c' :: cs'2 => simp at h
  | cons c cs ih2 =>
    intro cs' hinj hcon h
    match cs' with
    | [] => simp at h
    | c' :: cs'2 =>
      rw [List.map_cons, List.map_cons, List.cons_eq_cons] at h
      have hc := hinj c (by simp) c' (hcon c' (by simp)) h.1
      rw [hc, ih2 cs'2 (fun x hx => hinj x (by simp [hx]))
        (fun x hx => hcon x (by simp [hx])) h.2]

/- ---- canonical strings are injective on constructible types ---- -/

theorem typeStrData_inj (t : ABIType) (h : Constructible t) :
    ∀ t', Constructible t' → typeStrData t = typeStrData t' → t = t' := by
  induction h with
  | uint b h1 h2 h3 =>
    intro t' h' hEq
    rw [typeStrData_uint] at hEq
    obtain ⟨d, hd, hdig⟩ := getLast_append_decDigits "uint".data b
    cases h' with
    | uint b' g1 g2 g3 =>
      rw [typeStrData_uint] at hEq
      rw [decDigits_inj b b' (List.append_cancel_left hEq)]
    | byte =>
      exact absurd hEq (str_ne_of_last _ _ d 'e' hd rfl
        (digit_ne_char d 'e' hdig (by decide)))
    | ufixed b' p' g1 g2 g3 g4 g5 =>
      rw [typeStrData_ufixed] at hEq
      have h2c : (('i' : Char) : Char) = 'f' :=
        Option.some.inj (congrArg (fun l => (l.drop 1).head?) hEq)
      exact absurd h2c (by decide)
    | bool =>
      exact absurd hEq (str_ne_of_last _ _ d 'l' hd rfl
        (digit_ne_char d 'l' hdig (by decide)))
    | address =>
      exact absurd hEq (str_ne_of_last _ _ d 's' hd rfl
        (digit_ne_char d 's' hdig (by decide)))
    | string =>
      exact absurd hEq (str_ne_of_last _ _ d 'g' hd rfl
        (digit_ne_char d 'g' hdig (by decide)))
    | arrayStatic c' l' hc' hl' =>
      rw [typeStrData_arrayStatic] at hEq
      exact absurd hEq (str_ne_of_last _ _ d ']' hd (glast_bracket _ _)
        (digit_ne_char d ']' hdig (by decide)))
    | arrayDynamic c' hc' =>
      rw [typeStrData_arrayDynamic] at hEq
      exact absurd hEq (str_ne_of_last _ _ d ']' hd (glast_pair _)
        (digit_ne_char d ']' hdig (by decide)))
    | tuple cs' hcs' hlen' =>
      rw [typeStrData_tuple] at hEq
      exact absurd hEq (str_ne_of_last _ _ d ')' hd (glast_tuple _)
        (digit_ne_char d ')' hdig (by decide)))
  | byte =>
    intro t' h' hEq
    cases h' with
    | uint b' g1 g2 g3 =>
      rw [typeStrData_uint] at hEq
      obtain ⟨d, hd, hdig⟩ := getLast_append_decDigits "uint".data b'
      exact absurd hEq (str_ne_of_last _ _ 'e' d rfl hd
        (digit_ne_char d 'e' hdig (by decide)).symm)
    | byte =>
      rfl
    | bool =>
      exact absurd hEq (by decide)
    | address =>
      exact absurd hEq (by decide)
    | string =>
      exact absurd hEq (by decide)
    | ufixed b' p' g1 g2 g3 g4 g5 =>
      rw [typeStrData_ufixed] at hEq
      obtain ⟨d, hd, hdig⟩ := glast_ufixed b' p'
      exact absurd hEq (str_ne_of_last _ _ 'e' d rfl hd
        (digit_ne_char d 'e' hdig (by decide)).symm)
    | arrayStatic c' l' hc' hl' =>
      rw [typeStrData_arrayStatic] at hEq
      exact absurd hEq (str_ne_of_last _ _ 'e' ']' rfl (glast_bracket _ _)
        (by decide))
    | arrayDynamic c' hc' =>
      rw [typeStrData_arrayDynamic] at hEq
      exact absurd hEq (str_ne_of_last _ _ 'e' ']' rfl (glast_pair _)
        (by decide))
    | tuple cs' hcs' hlen' =>
      rw [typeStrData_tuple] at hEq
      exact absurd hEq (str_ne_of_last _ _ 'e' ')' rfl (glast_tuple _)
        (by decide))
  | bool =>
    intro t' h' hEq
    cases h' with
    | uint b' g1 g2 g3 =>
      rw [typeStrData_uint] at hEq
      obtain ⟨d, hd, hdig⟩ := getLast_append_decDigits "uint".data b'
      exact absurd hEq (str_ne_of_last _ _ 'l' d rfl hd
        (digit_ne_char d 'l' hdig (by decide)).symm)
    | byte =>
      exact absurd hEq (by decide)
    | bool =>
      rfl
    | address =>
      exact absurd hEq (by decide)
    | string =>
      exact absurd hEq (by decide)
    | ufixed b' p' g1 g2 g3 g4 g5 =>
      rw [typeStrData_ufixed] at hEq
      obtain ⟨d, hd, hdig⟩ := glast_ufixed b' p'
      exact absurd hEq (str_ne_of_last _ _ 'l' d rfl hd
        (digit_ne_char d 'l' hdig (by decide)).symm)
    | arrayStatic c' l' hc' hl' =>
      rw [typeStrData_arrayStatic] at hEq
      exact absurd hEq (str_ne_of_last _ _ 'l' ']' rfl (glast_bracket _ _)
        (by decide))
    | arrayDynamic c' hc' =>
      rw [typeStrData_arrayDynamic] at hEq
      exact absurd hEq (str_ne_of_last _ _ 'l' ']' rfl (glast_pair _)
        (by decide))
    | tuple cs' hcs' hlen' =>
      rw [typeStrData_tuple] at hEq
      exact absurd hEq (str_ne_of_last _ _ 'l' ')' rfl (glast_tuple _)
        (by decide))
  | address =>
    intro t' h' hEq
    cases h' with
    | uint b' g1 g2 g3 =>
      rw [typeStrData_uint] at hEq
      obtain ⟨d, hd, hdig⟩ := getLast_append_decDigits "uint".data b'
      exact absurd hEq (str_ne_of_last _ _ 's' d rfl hd
        (digit_ne_char d 's' hdig (by decide)).symm)
    | byte =>
      exact absurd hEq (by decide)
    | bool =>
      exact absurd hEq (by decide)
    | address =>
      rfl
    | string =>
      exact absurd hEq (by decide)
    | ufixed b' p' g1 g2 g3 g4 g5 =>
      rw [typeStrData_ufixed] at hEq
      obtain ⟨d, hd, hdig⟩ := glast_ufixed b' p'
      exact absurd hEq (str_ne_of_last _ _ 's' d rfl hd
        (digit_ne_char d 's' hdig (by decide)).symm)
    | arrayStatic c' l' hc' hl' =>
      rw [typeStrData_arrayStatic] at hEq
      exact absurd hEq (str_ne_of_last _ _ 's' ']' rfl (glast_bracket _ _)
        (by decide))
    | arrayDynamic c' hc' =>
      rw [typeStrData_arrayDynamic] at hEq
      exact absurd hEq (str_ne_of_last _ _ 's' ']' rfl (glast_pair _)
        (by decide))
    | tuple cs' hcs' hlen' =>
      rw [typeStrData_tuple] at hEq
      exact absurd hEq (str_ne_of_last _ _ 's' ')' rfl (glast_tuple _)
        (by decide))
  | string =>
    intro t' h' hEq
    cases h' with
    | uint b' g1 g2 g3 =>
      rw [typeStrData_uint] at hEq
      obtain ⟨d, hd, hdig⟩ := getLast_append_decDigits "uint".data b'
      exact absurd hEq (str_ne_of_last _ _ 'g' d rfl hd
        (digit_ne_char d 'g' hdig (by decide)).symm)
    | byte =>
      exact absurd hEq (by decide)
    | bool =>
      exact absurd hEq (by decide)
    | address =>
      exact absurd hEq (by decide)
    | string =>
      rfl
    | ufixed b' p' g1 g2 g3 g4 g5 =>
      rw [typeStrData_ufixed] at hEq
      obtain ⟨d, hd, hdig⟩ := glast_ufixed b' p'
      exact absurd hEq (str_ne_of_last _ _ 'g' d rfl hd
        (digit_ne_char d 'g' hdig (by decide)).symm)
    | arrayStatic c' l' hc' hl' =>
      rw [typeStrData_arrayStatic] at hEq
      exact absurd hEq (str_ne_of_last _ _ 'g' ']' rfl (glast_bracket _ _)
        (by decide))
    | arrayDynamic c' hc' =>
      rw [typeStrData_arrayDynamic] at hEq
      exact absurd hEq (str_ne_of_last _ _ 'g' ']' rfl (glast_pair _)
        (by decide))
    | tuple cs' hcs' hlen' =>
      rw [typeStrData_tuple] at hEq
      exact absurd hEq (str_ne_of_last _ _ 'g' ')' rfl (glast_tuple _)
        (by decide))
  | ufixed b p h1 h2 h3 h4 h5 =>
    intro t' h' hEq
    rw [typeStrData_ufixed] at hEq
    obtain ⟨d, hd, hdig⟩ := glast_ufixed b p
    cases h' with
    | uint b' g1 g2 g3 =>
      rw [typeStrData_uint] at hEq
      have h2c : (('f' : Char)) = 'i' :=
        Option.some.inj (congrArg (fun l => (l.drop 1).head?) hEq)
      exact absurd h2c (by decide)
    | byte =>
      exact absurd hEq (str_ne_of_last _ _ d 'e' hd rfl
        (digit_ne_char d 'e' hdig (by decide)))
    | ufixed b' p' g1 g2 g3 g4 g5 =>
      rw [typeStrData_ufixed] at hEq
      obtain ⟨hb, hp⟩ := append_pred_marker_inj Char.isDigit 'x' (by decide)
        (decDigits b) (decDigits b') ('x' :: decDigits p).tail ('x' :: decDigits p').tail
        (decDigits_all_digit b) (decDigits_all_digit b')
        (List.append_cancel_left hEq)
      rw [decDigits_inj b b' hb, decDigits_inj p p' hp]
    | bool =>
      exact absurd hEq (str_ne_of_last _ _ d 'l' hd rfl
        (digit_ne_char d 'l' hdig (by decide)))
    | address =>
      exact absurd hEq (str_ne_of_last _ _ d 's' hd rfl
        (digit_ne_char d 's' hdig (by decide)))
    | string =>
      exact absurd hEq (str_ne_of_last _ _ d 'g' hd rfl
        (digit_ne_char d 'g' hdig (by decide)))
    | arrayStatic c' l' hc' hl' =>
      rw [typeStrData_arrayStatic] at hEq
      exact absurd hEq (str_ne_of_last _ _ d ']' hd (glast_bracket _ _)
        (digit_ne_char d ']' hdig (by decide)))
    | arrayDynamic c' hc' =>
      rw [typeStrData_arrayDynamic] at hEq
      exact absurd hEq (str_ne_of_last _ _ d ']' hd (glast_pair _)
        (digit_ne_char d ']' hdig (by decide)))
    | tuple cs' hcs' hlen' =>
      rw [typeStrData_tuple] at hEq
      exact absurd hEq (str_ne_of_last _ _ d ')' hd (glast_tuple _)
        (digit_ne_char d ')' hdig (by decide)))
  | arrayStatic c l hc hl ihc =>
    intro t' h' hEq
    rw [typeStrData_arrayStatic] at hEq
    cases h' with
    | uint b' g1 g2 g3 =>
      rw [typeStrData_uint] at hEq
      obtain ⟨d, hd, hdig⟩ := getLast_append_decDigits "uint".data b'
      exact absurd hEq (str_ne_of_last _ _ ']' d (glast_bracket _ _) hd
        (digit_ne_char d ']' hdig (by decide)).symm)
    | byte =>
      exact absurd hEq (str_ne_of_last _ _ ']' 'e' (glast_bracket _ _) rfl (by decide))
    | ufixed b' p' g1 g2 g3 g4 g5 =>
      rw [typeStrData_ufixed] at hEq
      obtain ⟨d, hd, hdig⟩ := glast_ufixed b' p'
      exact absurd hEq (str_ne_of_last _ _ ']' d (glast_bracket _ _) hd
        (digit_ne_char d ']' hdig (by decide)).symm)
    | bool =>
      exact absurd hEq (str_ne_of_last _ _ ']' 'l' (glast_bracket _ _) rfl (by decide))
    | address =>
      exact absurd hEq (str_ne_of_last _ _ ']' 's' (glast_bracket _ _) rfl (by decide))
    | string =>
      exact absurd hEq (str_ne_of_last _ _ ']' 'g' (glast_bracket _ _) rfl (by decide))
    | arrayStatic c' l' hc' hl' =>
      rw [typeStrData_arrayStatic] at hEq
      have hEq2 : (typeStrData c ++ '[' :: decDigits l) ++ [']'] =
          (typeStrData c' ++ '[' :: decDigits l') ++ [']'] := by
        simpa using hEq
      have h6 := List.append_cancel_right hEq2
      have h7 := congrArg List.reverse h6
      rw [rev_bracket, rev_bracket] at h7
      obtain ⟨h8, h9⟩ := append_pred_marker_inj Char.isDigit '[' (by decide)
        (decDigits l).reverse (decDigits l').reverse
        (typeStrData c).reverse (typeStrData c').reverse
        (fun x hx => decDigits_all_digit l x (List.mem_reverse.mp hx))
        (fun x hx => decDigits_all_digit l' x (List.mem_reverse.mp hx)) h7
      have hll : l = l' := decDigits_inj l l' (List.reverse_injective h8)
      have hcc : c = c' := ihc c' hc' (List.reverse_injective h9)
      rw [hll, hcc]
    | arrayDynamic c' hc' =>
      rw [typeStrData_arrayDynamic] at hEq
      have hEq2 : (typeStrData c ++ '[' :: decDigits l) ++ [']'] =
          (typeStrData c' ++ ['[']) ++ [']'] := by
        simpa using hEq
      have h6 := List.append_cancel_right hEq2
      have h7 := congrArg List.reverse h6
      rw [rev_bracket] at h7
      rw [show (typeStrData c' ++ ['[']).reverse = [] ++ ('[' :: (typeStrData c').reverse)
        from by rw [List.reverse_append]; rfl] at h7
      obtain ⟨h8, -⟩ := append_pred_marker_inj Char.isDigit '[' (by decide)
        (decDigits l).reverse [] (typeStrData c).reverse (typeStrData c').reverse
        (fun x hx => decDigits_all_digit l x (List.mem_reverse.mp hx))
        (fun x hx => by simp at hx) h7
      have : decDigits l = [] := by
        have := congrArg List.reverse h8
        simpa using this
      exact absurd this (decDigits_ne_nil l)
    | tuple cs' hcs' hlen' =>
      rw [typeStrData_tuple] at hEq
      exact absurd hEq (str_ne_of_last _ _ ']' ')' (glast_bracket _ _) (glast_tuple _)
        (by decide))
  | arrayDynamic c hc ihc =>
    intro t' h' hEq
    rw [typeStrData_arrayDynamic] at hEq
    cases h' with
    | uint b' g1 g2 g3 =>
      rw [typeStrData_uint] at hEq
      obtain ⟨d, hd, hdig⟩ := getLast_append_decDigits "uint".data b'
      exact absurd hEq (str_ne_of_last _ _ ']' d (glast_pair _) hd
        (digit_ne_char d ']' hdig (by decide)).symm)
    | byte =>
      exact absurd hEq (str_ne_of_last _ _ ']' 'e' (glast_pair _) rfl (by decide))
    | ufixed b' p' g1 g2 g3 g4 g5 =>
      rw [typeStrData_ufixed] at hEq
      obtain ⟨d, hd, hdig⟩ := glast_ufixed b' p'
      exact absurd hEq (str_ne_of_last _ _ ']' d (glast_pair _) hd
        (digit_ne_char d ']' hdig (by decide)).symm)
    | bool =>
      exact absurd hEq (str_ne_of_last _ _ ']' 'l' (glast_pair _) rfl (by decide))
    | address =>
      exact absurd hEq (str_ne_of_last _ _ ']' 's' (glast_pair _) rfl (by decide))
    | string =>
      exact absurd hEq (str_ne_of_last _ _ ']' 'g' (glast_pair _) rfl (by decide))
    | arrayStatic c' l' hc' hl' =>
      rw [typeStrData_arrayStatic] at hEq
      have hEq2 : (typeStrData c' ++ '[' :: decDigits l') ++ [']'] =
          (typeStrData c ++ ['[']) ++ [']'] := by
        simpa using hEq.symm
      have h6 := List.append_cancel_right hEq2
      have h7 := congrArg List.reverse h6
      rw [rev_bracket] at h7
      rw [show (typeStrData c ++ ['[']).reverse = [] ++ ('[' :: (typeStrData c).reverse)
        from by rw [List.reverse_append]; rfl] at h7
      obtain ⟨h8, -⟩ := append_pred_marker_inj Char.isDigit '[' (by decide)
        (decDigits l').reverse [] (typeStrData c').reverse (typeStrData c).reverse
        (fun x hx => decDigits_all_digit l' x (List.mem_reverse.mp hx))
        (fun x hx => by simp at hx) h7
      have : decDigits l' = [] := by
        have := congrArg List.reverse h8
        simpa using this
      exact absurd this (decDigits_ne_nil l')
    | arrayDynamic c' hc' =>
      rw [typeStrData_arrayDynamic] at hEq
      have h6 := List.append_cancel_right hEq
      rw [ihc c' hc' h6]
    | tuple cs' hcs' hlen' =>
      rw [typeStrData_tuple] at hEq
      exact absurd hEq (str_ne_of_last _ _ ']' ')' (glast_pair _) (glast_tuple _)
        (by decide))
  | tuple cs hcs hlen ih =>
    intro t' h' hEq
    rw [typeStrData_tuple] at hEq
    cases h' with
    | uint b' g1 g2 g3 =>
      rw [typeStrData_uint] at hEq
      obtain ⟨d, hd, hdig⟩ := getLast_append_decDigits "uint".data b'
      exact absurd hEq (str_ne_of_last _ _ ')' d (glast_tuple _) hd
        (digit_ne_char d ')' hdig (by decide)).symm)
    | byte =>
      exact absurd hEq (str_ne_of_last _ _ ')' 'e' (glast_tuple _) rfl (by decide))
    | ufixed b' p' g1 g2 g3 g4 g5 =>
      rw [typeStrData_ufixed] at hEq
      obtain ⟨d, hd, hdig⟩ := glast_ufixed b' p'
      exact absurd hEq (str_ne_of_last _ _ ')' d (glast_tuple _) hd
        (digit_ne_char d ')' hdig (by decide)).symm)
    | bool =>
      exact absurd hEq (str_ne_of_last _ _ ')' 'l' (glast_tuple _) rfl (by decide))
    | address =>
      exact absurd hEq (str_ne_of_last _ _ ')' 's' (glast_tuple _) rfl (by decide))
    | string =>
      exact absurd hEq (str_ne_of_last _ _ ')' 'g' (glast_tuple _) rfl (by decide))
    | arrayStatic c' l' hc' hl' =>
      rw [typeStrData_arrayStatic] at hEq
      exact absurd hEq (str_ne_of_last _ _ ')' ']' (glast_tuple _) (glast_bracket _ _)
        (by decide))
    | arrayDynamic c' hc' =>
      rw [typeStrData_arrayDynamic] at hEq
      exact absurd hEq (str_ne_of_last _ _ ')' ']' (glast_tuple _) (glast_pair _)
        (by decide))
    | tuple cs' hcs' hlen' =>
      rw [typeStrData_tuple] at hEq
      rw [List.cons_eq_cons] at hEq
      have h6 := List.append_cancel_right hEq.2
      have h7 := joinC_inj (cs.map typeStrData) (cs'.map typeStrData)
        (fun e he => by
          rw [List.mem_map] at he
          obtain ⟨x, hx, rfl⟩ := he
          exact elemOk_typeStr x)
        (fun e he => by
          rw [List.mem_map] at he
          obtain ⟨x, hx, rfl⟩ := he
          exact elemOk_typeStr x) h6
      rw [map_typeStr_inj cs cs' ih hcs' h7]


/-- C7: for types constructible through the factory operations, `Equal`
holds exactly when the canonical strings coincide. -/
theorem equal_iff_string_eq (t t0 : ABIType) (h : Constructible t)
    (h0 : Constructible t0) :
    (t.equal t0 = true) ↔ t.typeString = t0.typeString := by
  constructor
  · intro he
    rw [(ABIType.equal_iff t t0).mp he]
  · intro hs
    refine (ABIType.equal_iff t t0).mpr ?_
    refine typeStrData_inj t h t0 h0 ?_
    show t.typeString.data = t0.typeString.data
    rw [hs]

theorem equal_iff_string_eq_witness :
    (((ABIType.mk .arrayStatic [boolType] 0 0 3).equal
        (.mk .arrayStatic [boolType] 0 0 4) = true) ↔
      (ABIType.mk .arrayStatic [boolType] 0 0 3).typeString =
        (ABIType.mk .arrayStatic [boolType] 0 0 4).typeString) ∧
    (ABIType.mk .arrayStatic [boolType] 0 0 3).equal
      (.mk .arrayStatic [boolType] 0 0 4) = false ∧
    (ABIType.mk .arrayStatic [boolType] 0 0 3).typeString = "bool[3]" :=
  ⟨equal_iff_string_eq _ _
      (Constructible.arrayStatic boolType 3 Constructible.bool (by omega))
      (Constructible.arrayStatic boolType 4 Constructible.bool (by omega)),
    rfl, rfl⟩

